import Mathlib

/-!
Verification of the expression-to-Overpass-query compiler of rainbow-roads
(packages `paint`, `conv`, `geo`).

The Go AST of github.com/antonmedv/expr is embedded shallowly: the node kinds
the compiler handles are constructors of `Node`; machine floats become `Rat`
(exact arithmetic); the `ast.Walk` Enter/children/Exit traversal of each
visitor becomes a recursive Lean function; code that can panic (slice/string
indexing, stack pops) returns `Option`, `none` standing for the out-of-bounds
access.  Strings are treated as character strings (all inputs of interest are
ASCII, where Go's byte indexing and character indexing agree).
-/

/-- The expr AST node kinds the paint compiler distinguishes.  `ConstantNode`,
`PropertyNode`, `IndexNode`, `SliceNode`, `MethodNode`, `BuiltinNode`,
`ClosureNode`, `PointerNode` and `MapNode` are omitted: like `NilNode` and
`ArrayNode` they would only reach the code generator's default
(`... not supported`) branch, and `NilNode` is kept as the representative of
that family.  A range literal `lo..hi` is a `BinaryNode` with operator `..`,
exactly as the expr parser produces it. -/
inductive Node where
  | NilNode
  | IdentifierNode (value : String)
  | IntegerNode (value : Int)
  | FloatNode (value : Rat)
  | BoolNode (value : Bool)
  | StringNode (value : String)
  | UnaryNode (operator : String) (node : Node)
  | BinaryNode (operator : String) (left right : Node)
  | MatchesNode (left right : Node)
  | ArrayNode (nodes : List Node)
  | FunctionNode (name : String) (arguments : List Node)
  | ConditionalNode (cond exp1 exp2 : Node)
  deriving Repr

/-- Mutual structural induction over `Node` and `List Node`, wrapped once so
later proofs can apply it with positional arguments. -/
theorem Node.mutualInduction (P : Node → Prop) (Q : List Node → Prop)
    (h1 : P .NilNode)
    (h2 : ∀ v, P (.IdentifierNode v))
    (h3 : ∀ v, P (.IntegerNode v))
    (h4 : ∀ v, P (.FloatNode v))
    (h5 : ∀ v, P (.BoolNode v))
    (h6 : ∀ v, P (.StringNode v))
    (h7 : ∀ op t, P t → P (.UnaryNode op t))
    (h8 : ∀ op l r, P l → P r → P (.BinaryNode op l r))
    (h9 : ∀ l r, P l → P r → P (.MatchesNode l r))
    (h10 : ∀ ns, Q ns → P (.ArrayNode ns))
    (h11 : ∀ nm args, Q args → P (.FunctionNode nm args))
    (h12 : ∀ c t e, P c → P t → P e → P (.ConditionalNode c t e))
    (hnil : Q [])
    (hcons : ∀ n ns, P n → Q ns → Q (n :: ns)) :
    (∀ n, P n) ∧ (∀ ns, Q ns) :=
  ⟨fun n => @Node.rec P Q h1 h2 h3 h4 h5 h6 h7 h8 h9 h10 h11 h12 hnil hcons n,
   fun ns => ns.rec hnil (fun n ns hn => hcons n ns
     (@Node.rec P Q h1 h2 h3 h4 h5 h6 h7 h8 h9 h10 h11 h12 hnil hcons n) hn)⟩

/-- Go source: `operatorPairs` plus its `init` function, which inserts every
pair in the opposite direction as well; the resulting map is the symmetric
closure of the six written entries. -/
def operatorPairs : String → Option String
  | "and" => some "or"
  | "&&" => some "||"
  | "==" => some "!="
  | ">=" => some "<"
  | ">" => some "<="
  | "in" => some "not in"
  | "or" => some "and"
  | "||" => some "&&"
  | "!=" => some "=="
  | "<" => some ">="
  | "<=" => some ">"
  | "not in" => some "in"
  | _ => none

/-- Whether `asUnaryNot` of the Go source matches: a unary node whose operator
is `not` or `!`. -/
def isUnaryNot : Node → Bool
  | .UnaryNode op _ => op == "not" || op == "!"
  | _ => false

/-- Whether `asBinaryAnd` of the Go source matches: a binary node whose
operator is `and` or `&&`. -/
def isBinaryAnd : Node → Bool
  | .BinaryNode op _ _ => op == "and" || op == "&&"
  | _ => false

/-- Whether `asBinaryOr` of the Go source matches: a binary node whose
operator is `or` or `||`. -/
def isBinaryOr : Node → Bool
  | .BinaryNode op _ _ => op == "or" || op == "||"
  | _ => false

/-- Whether `asBinaryIn` of the Go source matches: a binary node whose
operator is `in` or `not in`. -/
def isBinaryIn : Node → Bool
  | .BinaryNode op _ _ => op == "in" || op == "not in"
  | _ => false

/-- The literal payloads `getValue` extracts; comparing two `any` values of
different dynamic Go types (for example `int` against `float64`) is `false`,
which the separate constructors reproduce. -/
inductive LitValue where
  | nil
  | int (i : Int)
  | float (q : Rat)
  | bool (b : Bool)
  | str (s : String)
  deriving Repr, DecidableEq

/-- Go source: `getValue`.  The literal cases return the node's value; the
default case returns the node itself, an interface value that compares equal
only to the very same pointer — and the two bounds of a parsed range are
always distinct nodes, so the embedding maps non-literals to `none`. -/
def getValue : Node → Option LitValue
  | .NilNode => some .nil
  | .IntegerNode v => some (.int v)
  | .FloatNode v => some (.float v)
  | .BoolNode v => some (.bool v)
  | .StringNode v => some (.str v)
  | _ => none

/-- The equality test `getValue(br.Left) == getValue(br.Right)` of
`expandInRange.Exit`: literal values compare by value, everything else is
never equal (distinct pointers). -/
def getValueEq (a b : Node) : Bool :=
  match getValue a, getValue b with
  | some x, some y => x == y
  | _, _ => false

/-- Go source: the body of `expandInArray.Exit` as a function of the exited
node.  The patch loop over the array elements is a left fold: element 0 seeds
the `==` comparison, each later element wraps the accumulated node in
`or(acc, left == elem)`; `not in` finally wraps the result in `not`. -/
def expandInArrayExit (node : Node) : Node :=
  match node with
  | .BinaryNode op l r =>
    if op == "in" || op == "not in" then
      match r with
      | .ArrayNode ns =>
        let base := match ns with
          | [] => Node.BoolNode false
          | e :: rest =>
            rest.foldl (fun acc x => Node.BinaryNode "or" acc (Node.BinaryNode "==" l x))
              (Node.BinaryNode "==" l e)
        if op == "not in" then .UnaryNode "not" base else base
      | _ => node
    else node
  | _ => node

/-- Go source: the body of `expandInRange.Exit` as a function of the exited
node: a two-bound range with equal literal bounds becomes `left == lo`,
otherwise `left >= lo and left <= hi`; `not in` wraps the result in `not`. -/
def expandInRangeExit (node : Node) : Node :=
  match node with
  | .BinaryNode op l r =>
    if op == "in" || op == "not in" then
      match r with
      | .BinaryNode rop lo hi =>
        if rop == ".." then
          let base := if getValueEq lo hi then Node.BinaryNode "==" l lo
            else Node.BinaryNode "and" (.BinaryNode ">=" l lo) (.BinaryNode "<=" l hi)
          if op == "not in" then .UnaryNode "not" base else base
        else node
      | _ => node
    else node
  | _ => node

mutual

/-- `ast.Walk` with a visitor whose Enter is empty and whose Exit patches the
node in place (`expandInArray`, `expandInRange`): children first, then the
exit function on the rebuilt node; the patched node is not re-walked. -/
def walkPost (f : Node → Node) : Node → Node
  | .UnaryNode op t => f (.UnaryNode op (walkPost f t))
  | .BinaryNode op l r => f (.BinaryNode op (walkPost f l) (walkPost f r))
  | .MatchesNode l r => f (.MatchesNode (walkPost f l) (walkPost f r))
  | .ArrayNode ns => f (.ArrayNode (walkPostList f ns))
  | .FunctionNode nm args => f (.FunctionNode nm (walkPostList f args))
  | .ConditionalNode c t e =>
      f (.ConditionalNode (walkPost f c) (walkPost f t) (walkPost f e))
  | n => f n

/-- `walkPost` over a node list (array elements, call arguments), in order. -/
def walkPostList (f : Node → Node) : List Node → List Node
  | [] => []
  | n :: rest => walkPost f n :: walkPostList f rest

end

/-- Go source: `ast.Walk(&tree.Node, &expandInArray{})`. -/
def expandInArray (n : Node) : Node := walkPost expandInArrayExit n

/-- Go source: `ast.Walk(&tree.Node, &expandInRange{})`. -/
def expandInRange (n : Node) : Node := walkPost expandInRangeExit n

mutual

/-- Node measure used to pre-compute sufficient fuel for the negation
normalizer: a `not`/`!` node doubles its operand's measure (pushing a negation
through a connective wraps both children in fresh `not` nodes), every other
node is one more than the sum of its children. -/
def nsize : Node → Nat
  | .UnaryNode op t => if op == "not" || op == "!" then 2 * nsize t else nsize t + 1
  | .BinaryNode _ l r => nsize l + nsize r + 1
  | .MatchesNode l r => nsize l + nsize r + 1
  | .ArrayNode ns => nsizeList ns + 1
  | .FunctionNode _ args => nsizeList args + 1
  | .ConditionalNode c t e => nsize c + nsize t + nsize e + 1
  | _ => 1

/-- Sum of `nsize` over a node list. -/
def nsizeList : List Node → Nat
  | [] => 0
  | n :: rest => nsize n + nsizeList rest

end

/-- One level of the `ast.Walk` descent: every direct child replaced by `f`.
Used by the negation normalizer where the walk descends into a node patched
during Enter. -/
def walkChildren (f : Node → Node) : Node → Node
  | .UnaryNode op t => .UnaryNode op (f t)
  | .BinaryNode op l r => .BinaryNode op (f l) (f r)
  | .MatchesNode l r => .MatchesNode (f l) (f r)
  | .ArrayNode ns => .ArrayNode (ns.map f)
  | .FunctionNode nm args => .FunctionNode nm (args.map f)
  | .ConditionalNode c t e => .ConditionalNode (f c) (f t) (f e)
  | n => n

/-- Go source: `ast.Walk` with the `distributeAndFoldNot` visitor.  Its Enter
patches the node before the walk descends, so the walk continues into the
patched node's children; the explicit `ast.Walk(&n.Node, d)` in the
double-negation branch is the nested full-walk call.  The Go recursion is on
the (possibly patched and larger) tree, so the embedding carries explicit
fuel; `foldNotF_fuel` below shows any fuel of at least `nsize` computes the
same result, and `distributeAndFoldNot` supplies exactly that. -/
def foldNotF : Nat → Node → Node
  | 0, n => n
  | k + 1, n =>
    match n with
    | .UnaryNode op t =>
      if op == "not" || op == "!" then
        match t with
        | .BinaryNode bop l r =>
          match operatorPairs bop with
          | some d =>
            if bop == "and" || bop == "&&" || bop == "or" || bop == "||" then
              .BinaryNode d (foldNotF k (.UnaryNode op l)) (foldNotF k (.UnaryNode op r))
            else
              .BinaryNode d (foldNotF k l) (foldNotF k r)
          | none => .UnaryNode op (foldNotF k t)
        | .UnaryNode op2 t2 =>
          if op2 == "not" || op2 == "!" then
            walkChildren (foldNotF k) (foldNotF k t2)
          else
            .UnaryNode op (foldNotF k t)
        | .BoolNode b => .BoolNode (!b)
        | _ => .UnaryNode op (foldNotF k t)
      else .UnaryNode op (foldNotF k t)
    | other => walkChildren (foldNotF k) other

/-- Go source: `ast.Walk(&tree.Node, &distributeAndFoldNot{})`. -/
def distributeAndFoldNot (n : Node) : Node := foldNotF (nsize n) n

/-- The `dnf` visitor's Enter: depth grows inside any subtree whose root is
not a root-level `and`/`or` connective. -/
def dnfEnter (node : Node) (depth : Nat) : Nat :=
  if 0 < depth then depth + 1
  else if isBinaryAnd node || isBinaryOr node then depth
  else depth + 1

/-- The `dnf` visitor's Exit: at positive depth just step back out; at depth
zero, a conjunction with a disjunction as left (preferred) or right child is
distributed, and the `applied` flag set. -/
def dnfExit (node : Node) (depth : Nat) (applied : Bool) : Node × Nat × Bool :=
  if 0 < depth then (node, depth - 1, applied)
  else
    match node with
    | .BinaryNode op l r =>
      if op == "and" || op == "&&" then
        match l with
        | .BinaryNode lop ll lr =>
          if lop == "or" || lop == "||" then
            (.BinaryNode lop (.BinaryNode op ll r) (.BinaryNode op lr r), depth, true)
          else
            match r with
            | .BinaryNode rop rl rr =>
              if rop == "or" || rop == "||" then
                (.BinaryNode rop (.BinaryNode op l rl) (.BinaryNode op l rr), depth, true)
              else (node, depth, applied)
            | _ => (node, depth, applied)
        | _ =>
          match r with
          | .BinaryNode rop rl rr =>
            if rop == "or" || rop == "||" then
              (.BinaryNode rop (.BinaryNode op l rl) (.BinaryNode op l rr), depth, true)
            else (node, depth, applied)
          | _ => (node, depth, applied)
      else (node, depth, applied)
    | _ => (node, depth, applied)

mutual

/-- `ast.Walk` with one `dnf` visitor: Enter adjusts the depth, the children
are walked in order threading depth and the `applied` flag, Exit possibly
patches.  A node patched at Exit is not re-walked within the round. -/
def dnfWalk : Node → Nat → Bool → Node × Nat × Bool
  | .UnaryNode op t, depth, a =>
    let d1 := dnfEnter (.UnaryNode op t) depth
    let (t', d2, a2) := dnfWalk t d1 a
    dnfExit (.UnaryNode op t') d2 a2
  | .BinaryNode op l r, depth, a =>
    let d1 := dnfEnter (.BinaryNode op l r) depth
    let (l', d2, a2) := dnfWalk l d1 a
    let (r', d3, a3) := dnfWalk r d2 a2
    dnfExit (.BinaryNode op l' r') d3 a3
  | .MatchesNode l r, depth, a =>
    let d1 := dnfEnter (.MatchesNode l r) depth
    let (l', d2, a2) := dnfWalk l d1 a
    let (r', d3, a3) := dnfWalk r d2 a2
    dnfExit (.MatchesNode l' r') d3 a3
  | .ArrayNode ns, depth, a =>
    let d1 := dnfEnter (.ArrayNode ns) depth
    let (ns', d2, a2) := dnfWalkList ns d1 a
    dnfExit (.ArrayNode ns') d2 a2
  | .FunctionNode nm args, depth, a =>
    let d1 := dnfEnter (.FunctionNode nm args) depth
    let (args', d2, a2) := dnfWalkList args d1 a
    dnfExit (.FunctionNode nm args') d2 a2
  | .ConditionalNode c t e, depth, a =>
    let d1 := dnfEnter (.ConditionalNode c t e) depth
    let (c', d2, a2) := dnfWalk c d1 a
    let (t', d3, a3) := dnfWalk t d2 a2
    let (e', d4, a4) := dnfWalk e d3 a3
    dnfExit (.ConditionalNode c' t' e') d4 a4
  | n, depth, a => dnfExit n (dnfEnter n depth) a

/-- `dnfWalk` over a node list, threading depth and the applied flag. -/
def dnfWalkList : List Node → Nat → Bool → List Node × Nat × Bool
  | [], depth, a => ([], depth, a)
  | n :: rest, depth, a =>
    let (n', d2, a2) := dnfWalk n depth a
    let (rest', d3, a3) := dnfWalkList rest d2 a2
    (n' :: rest', d3, a3)

end

/-- One round of `toDNF`: a fresh `dnf` visitor walked over the whole tree;
returns the rewritten tree and whether any rewrite was applied. -/
def dnfRound (n : Node) : Node × Bool :=
  let (n', _, a) := dnfWalk n 0 false
  (n', a)

/-- The `toDNF` loop with its remaining iteration budget.  Go's
`for limit := 1000; limit >= 0; limit--` runs the body for limit = 1000 down
to 0, that is up to 1001 rounds, stopping early as soon as a round applies no
rewrite. -/
def toDNFLoop : Nat → Node → Node
  | 0, n => n
  | k + 1, n =>
    let (n', a) := dnfRound n
    if a then toDNFLoop k n' else n'

/-- Go source: `toDNF`. -/
def toDNF (n : Node) : Node := toDNFLoop 1001 n

/-- The number of rounds (`ast.Walk` executions) the `toDNF` loop performs
when allowed the given number of iterations. -/
def toDNFRounds : Nat → Node → Nat
  | 0, _ => 0
  | k + 1, n =>
    let (n', a) := dnfRound n
    if a then 1 + toDNFRounds k n' else 1

/-- Decimal digit characters of a natural number, most significant first,
accumulator style with explicit fuel (`n + 1` digits always suffice). -/
def natDigitsAux : Nat → Nat → List Char → List Char
  | 0, _, acc => acc
  | fuel + 1, n, acc =>
    let d := Char.ofNat (48 + n % 10)
    if n < 10 then d :: acc else natDigitsAux fuel (n / 10) (d :: acc)

/-- The decimal digit list of a natural number (`"0"` for zero). -/
def natDigits (n : Nat) : List Char := natDigitsAux (n + 1) n []

/-- The decimal string of a natural number, as Go's `fmt`/`strconv` print
it. -/
def natDecimal (n : Nat) : String := String.mk (natDigits n)

/-- The decimal string of an integer, as Go's `fmt.Sprint` prints an `int`. -/
def intDecimal (v : Int) : String :=
  if v < 0 then "-" ++ natDecimal (-v).toNat else natDecimal v.toNat

/-- Go's `strings.TrimRight(s, string(c))`: remove every trailing occurrence
of the character `c`. -/
def trimRightChar (s : String) (c : Char) : String :=
  String.mk ((s.data.reverse.dropWhile (· == c)).reverse)

/-- Round a rational to the nearest integer, ties to even — the rounding
`strconv.FormatFloat` applies to the decimal digit string. -/
def roundHalfEven (r : Rat) : Int :=
  let f := r.floor
  let d := r - (f : Rat)
  if d < 1 / 2 then f
  else if 1 / 2 < d then f + 1
  else if f % 2 = 0 then f else f + 1

/-- The fractional digits padded on the left with zeros to width 5. -/
def padFrac5 (ds : List Char) : List Char := List.replicate (5 - ds.length) '0' ++ ds

/-- Go source: `conv.FormatFloat` — `strconv.FormatFloat(val, 'f', 5, 64)`
(sign, integer digits, `.`, exactly five correctly rounded fractional
digits), then trailing zeros and then a trailing decimal point trimmed.  The
float is embedded as the exact rational it denotes. -/
def FormatFloat (val : Rat) : String :=
  let neg := val < 0
  let n : Nat := (roundHalfEven (|val| * 100000)).toNat
  let str := (if neg then "-" else "") ++ natDecimal (n / 100000) ++ "." ++
    String.mk (padFrac5 (natDigits (n % 100000)))
  trimRightChar (trimRightChar str '0') '.'

/-- A geographic point, latitude and longitude in radians (geo.Point). -/
structure Point where
  Lat : Rat
  Lon : Rat

/-- A circular region: center point and radius in meters (geo.Circle; the
name `Circle` itself is taken by Mathlib). -/
structure GeoCircle where
  Origin : Point
  Radius : Rat

/-- The exact rational value of the float64 constant `math.Pi`. -/
def mathPi : Rat := 884279719003555 / 281474976710656

/-- Go source: `geo.RadiansToDegrees` — `r * 180 / math.Pi`, with float
arithmetic embedded as exact rational arithmetic. -/
def RadiansToDegrees (r : Rat) : Rat := r * 180 / mathPi

/-- Go source: `nodeName` — the lowercased node type name without the `Node`
suffix. -/
def nodeName : Node → String
  | .NilNode => "nil"
  | .IdentifierNode _ => "identifier"
  | .IntegerNode _ => "integer"
  | .FloatNode _ => "float"
  | .BoolNode _ => "bool"
  | .StringNode _ => "string"
  | .UnaryNode _ _ => "unary"
  | .BinaryNode _ _ _ => "binary"
  | .MatchesNode _ _ => "matches"
  | .ArrayNode _ => "array"
  | .FunctionNode _ _ => "function"
  | .ConditionalNode _ _ _ => "conditional"

/-- Go source: `isWrapped` — `str[0] == '[' || strings.HasPrefix(str, "(if:")`.
Indexing an empty string panics, hence `none` there. -/
def isWrapped (str : String) : Option Bool :=
  match str.data with
  | [] => none
  | c :: _ => some (c == '[' || List.isPrefixOf "(if:".data str.data)

/-- Go source: `bangIf` — prepend `!` when the not flag is set. -/
def bangIf (str : String) (not : Bool) : String :=
  if not then "!" ++ str else str

/-- `strconv.Quote`: wrap in double quotes, escaping backslashes and double
quotes.  (Go also escapes non-printable characters, which no input of
interest contains.) -/
def goQuote (s : String) : String :=
  "\"" ++ String.mk (s.data.foldr
    (fun c acc => if c == '"' || c == '\\' then '\\' :: c :: acc else c :: acc) []) ++ "\""

/-- Whether `regexp.QuoteMeta` escapes the character: one of
`\.+*?()|[]{}^$`. -/
def isRegexMeta (c : Char) : Bool :=
  c == '\\' || c == '.' || c == '+' || c == '*' || c == '?' || c == '(' || c == ')' ||
  c == '|' || c == '[' || c == ']' || c == '\x7b' || c == '\x7d' || c == '^' || c == '$'

/-- Go's `regexp.QuoteMeta`: every regular-expression metacharacter gets a
backslash. -/
def regexpQuoteMeta (s : String) : String :=
  String.mk (s.data.foldr (fun c acc => if isRegexMeta c then '\\' :: c :: acc else c :: acc) [])

/-- The printing `q.push(n.Value)` performs on a `float64`.  Go's `fmt`
shortest-round-trip float formatting has no exact rational counterpart; the
stand-in prints the embedded rational (integers plainly, other values as
`num/den`).  No claim depends on the digits, only on the fragment being
non-empty. -/
def floatSprint (q : Rat) : String :=
  if q.den == 1 then intDecimal q.num else intDecimal q.num ++ "/" ++ natDecimal q.den

/-- Go source: the `queryBuilder` visitor state — the fragment stack and the
pending-negation stack (their Go slices grow at the end; here the list head is
the top), the nesting depth, and the first-error cell.  The depth is only
ever decremented under a positivity guard, so `Nat` is faithful. -/
structure QueryBuilder where
  stack : List String
  not : List Bool
  depth : Nat
  err : Option String
  deriving Repr

/-- Go source: `queryBuilder.Enter` — inside a subtree the depth grows; at
depth zero a node other than a `not`/`and`/`or` connective starts a subtree,
while a connective pushes its pending-negation flag. -/
def qbEnter (node : Node) (q : QueryBuilder) : QueryBuilder :=
  if 0 < q.depth then { q with depth := q.depth + 1 }
  else if !isUnaryNot node && !isBinaryAnd node && !isBinaryOr node then
    { q with depth := q.depth + 1 }
  else { q with not := isUnaryNot node :: q.not }

/-- `n` consecutive pops from the fragment stack, in pop order; `none` when
the stack underflows (a Go slice index panic). -/
def popMany : Nat → List String → Option (List String × List String)
  | 0, s => some ([], s)
  | k + 1, top :: rest =>
    match popMany k rest with
    | some (xs, s) => some (top :: xs, s)
    | none => none
  | _ + 1, [] => none

/-- Go source: `queryBuilder.Exit`, as a function of the exited node and the
builder state; `none` models a panic (stack underflow or indexing an empty
string).  Branch for branch: the latched-error early return; the guarded
depth decrement; popping the pending-negation flag at root; the
inverted-literal error; then one case per node kind. -/
def qbExit (node : Node) (q0 : QueryBuilder) : Option QueryBuilder :=
  if q0.err.isSome then some q0
  else
    let q1 := if 0 < q0.depth then { q0 with depth := q0.depth - 1 } else q0
    let root := q1.depth == 0
    let pn : Bool × QueryBuilder :=
      match root, q1.not with
      | true, b :: rest => (b, { q1 with not := rest })
      | _, _ => (false, q1)
    let not := pn.1
    let q := pn.2
    if not && (match node with
        | .IntegerNode _ => true | .FloatNode _ => true | .StringNode _ => true
        | _ => false) then
      some { q with err := some ("inverted " ++ nodeName node ++ " not supported") }
    else
      match node with
      | .IdentifierNode v =>
        let name := if v.data.any (fun c => !(('a' ≤ c && c ≤ 'z') || ('A' ≤ c && c ≤ 'Z')))
          then goQuote v else v
        if !root then some { q with stack := bangIf name not :: q.stack }
        else if not then some { q with stack := ("[" ++ name ++ "=\"no\"]") :: q.stack }
        else some { q with stack := ("[" ++ name ++ "=\"yes\"]") :: q.stack }
      | .IntegerNode v => some { q with stack := intDecimal v :: q.stack }
      | .FloatNode v => some { q with stack := floatSprint v :: q.stack }
      | .BoolNode v =>
        some { q with stack := (if v != not then "\"yes\"" else "\"no\"") :: q.stack }
      | .StringNode v => some { q with stack := goQuote v :: q.stack }
      | .UnaryNode op _ =>
        if !root || (op != "not" && op != "!") then
          match q.stack with
          | x :: rest => some { q with stack := (bangIf op not ++ "(" ++ x ++ ")") :: rest }
          | [] => none
        else some q
      | .BinaryNode op nl nr =>
        match q.stack with
        | rhs :: lhs :: rest =>
          let q := { q with stack := rest }
          if op == "and" || op == "&&" then
            if !root then some { q with stack := (lhs ++ "&&" ++ rhs) :: q.stack }
            else
              match isWrapped lhs, isWrapped rhs with
              | some wl, some wr =>
                if !wl && !wr then some { q with stack := (lhs ++ "&&" ++ rhs) :: q.stack }
                else
                  let lhs := if !wl then "(if:" ++ lhs ++ ")" else lhs
                  let rhs := if !wr then "(if:" ++ rhs ++ ")" else rhs
                  some { q with stack := (lhs ++ rhs) :: q.stack }
              | _, _ => none
          else if op == "or" || op == "||" then
            if !root then some { q with stack := (lhs ++ "||" ++ rhs) :: q.stack }
            else
              match isWrapped lhs with
              | none => none
              | some wl =>
                if !wl then
                  match isWrapped rhs with
                  | none => none
                  | some wr =>
                    if !wr then some { q with stack := (lhs ++ "||" ++ rhs) :: q.stack }
                    else some { q with stack := rhs :: lhs :: q.stack }
                else some { q with stack := rhs :: lhs :: q.stack }
          else if op == ">" || op == ">=" || op == "<" || op == "<=" then
            match nl with
            | .IdentifierNode _ =>
              match lhs.data with
              | [] => none
              | c :: _ =>
                let lhs := if c != '"' then goQuote lhs else lhs
                some { q with stack := ("t[" ++ lhs ++ "]" ++ op ++ rhs) :: q.stack }
            | _ => some { q with stack := (lhs ++ op ++ rhs) :: q.stack }
          else
            let step : Option (String × String) :=
              match op, nr with
              | "contains", .StringNode _ => some ("~", regexpQuoteMeta rhs)
              | "contains", _ => some ("~", rhs)
              | "startsWith", .StringNode _ =>
                match rhs.data with
                | [] => none
                | _ =>
                  some ("~", String.mk (rhs.data.take 1) ++ "^" ++
                    regexpQuoteMeta (String.mk (rhs.data.drop 1)))
              | "startsWith", _ => some ("~", rhs)
              | "endsWith", .StringNode _ =>
                match rhs.data with
                | [] => none
                | _ =>
                  some ("~", regexpQuoteMeta (String.mk (rhs.data.take (rhs.data.length - 1))) ++
                    "$" ++ String.mk (rhs.data.drop (rhs.data.length - 1)))
              | "endsWith", _ => some ("~", rhs)
              | _, _ => some (op, rhs)
            match step with
            | none => none
            | some (op, rhs) =>
              let fnl : Bool := match nl with | .FunctionNode _ _ => true | _ => false
              let fnr : Bool := match nr with | .FunctionNode _ _ => true | _ => false
              let root := if fnl || fnr then false else root
              if root then
                if op == "==" || op == "!=" then
                  let swap : Bool := match nr with | .IdentifierNode _ => true | _ => false
                  let lhs2 := if swap then rhs else lhs
                  let rhs2 := if swap then lhs else rhs
                  let not := if op == "!=" then !not else not
                  let opr := if rhs2 == "\"\"" then ("~", "\"^$\"") else ("=", rhs2)
                  some { q with stack := ("[" ++ lhs2 ++ bangIf opr.1 not ++ opr.2 ++ "]") :: q.stack }
                else
                  some { q with stack := ("[" ++ lhs ++ bangIf op not ++ rhs ++ "]") :: q.stack }
              else
                some { q with stack := (lhs ++ bangIf op not ++ rhs) :: q.stack }
        | _ => none
      | .MatchesNode _ _ =>
        match q.stack with
        | rhs :: lhs :: rest =>
          if root then some { q with stack := ("[" ++ lhs ++ bangIf "~" not ++ rhs ++ "]") :: rest }
          else some { q with stack := (lhs ++ bangIf "~" not ++ rhs) :: rest }
        | _ => none
      | .FunctionNode nm args =>
        if root && nm == "is_tag" && args.length == 1 then
          match q.stack with
          | x :: rest => some { q with stack := ("[" ++ bangIf x not ++ "]") :: rest }
          | [] => none
        else
          match popMany args.length q.stack with
          | some (xs, rest) =>
            some { q with stack := (bangIf nm not ++ "(" ++ String.join xs ++ ")") :: rest }
          | none => none
      | .ConditionalNode _ _ _ =>
        match q.stack with
        | e2 :: e1 :: c :: rest =>
          some { q with stack := (c ++ "?" ++ e1 ++ ":" ++ e2) :: rest }
        | _ => none
      | n => some { q with err := some (nodeName n ++ " not supported") }

mutual

/-- `ast.Walk` with the `queryBuilder` visitor: Enter, children in order,
Exit.  The tree is read-only here; `none` propagates a panic. -/
def qbWalk : Node → QueryBuilder → Option QueryBuilder
  | .UnaryNode op t, q =>
    match qbWalk t (qbEnter (.UnaryNode op t) q) with
    | some q2 => qbExit (.UnaryNode op t) q2
    | none => none
  | .BinaryNode op l r, q =>
    match qbWalk l (qbEnter (.BinaryNode op l r) q) with
    | some q2 =>
      match qbWalk r q2 with
      | some q3 => qbExit (.BinaryNode op l r) q3
      | none => none
    | none => none
  | .MatchesNode l r, q =>
    match qbWalk l (qbEnter (.MatchesNode l r) q) with
    | some q2 =>
      match qbWalk r q2 with
      | some q3 => qbExit (.MatchesNode l r) q3
      | none => none
    | none => none
  | .ArrayNode ns, q =>
    match qbWalkList ns (qbEnter (.ArrayNode ns) q) with
    | some q2 => qbExit (.ArrayNode ns) q2
    | none => none
  | .FunctionNode nm args, q =>
    match qbWalkList args (qbEnter (.FunctionNode nm args) q) with
    | some q2 => qbExit (.FunctionNode nm args) q2
    | none => none
  | .ConditionalNode c t e, q =>
    match qbWalk c (qbEnter (.ConditionalNode c t e) q) with
    | some q2 =>
      match qbWalk t q2 with
      | some q3 =>
        match qbWalk e q3 with
        | some q4 => qbExit (.ConditionalNode c t e) q4
        | none => none
      | none => none
    | none => none
  | n, q => qbExit n (qbEnter n q)

/-- `qbWalk` over a node list (array elements, call arguments), in order. -/
def qbWalkList : List Node → QueryBuilder → Option QueryBuilder
  | [], q => some q
  | n :: rest, q =>
    match qbWalk n q with
    | some q2 => qbWalkList rest q2
    | none => none

end

/-- The final loop of `buildCriteria`: every criterion that is not already
wrapped becomes an evaluated filter `(if:...)`; `isWrapped` of an empty
criterion would panic. -/
def wrapCriteria : List String → Option (List String)
  | [] => some []
  | c :: rest =>
    match isWrapped c, wrapCriteria rest with
    | some w, some out => some ((if w then c else "(if:" ++ c ++ ")") :: out)
    | _, _ => none

/-- The zero-value `queryBuilder{}`. -/
def initialQB : QueryBuilder := ⟨[], [], 0, none⟩

/-- Go source: `buildCriteria`, starting from the already-parsed AST (the
expr parser itself is the external collaborator): the four rewrite passes,
the query-builder walk, the error check, and the wrapping loop.  The Go
function returns the stack slice in push order, which is the reverse of the
head-is-top list. -/
def buildCriteria (filterAst : Node) : Option (Except String (List String)) :=
  match qbWalk (toDNF (distributeAndFoldNot (expandInRange (expandInArray filterAst))))
      initialQB with
  | none => none
  | some q =>
    match q.err with
    | some e => some (.error e)
    | none =>
      match wrapCriteria q.stack.reverse with
      | some crits => some (.ok crits)
      | none => none

/-- The proximity clause `fmt.Sprintf("way(around:%s,%s,%s)", ...)` of
`buildQuery`: radius, then the center latitude and longitude converted to
degrees, all through `conv.FormatFloat`. -/
def wayClause (region : GeoCircle) : String :=
  "way(around:" ++ FormatFloat region.Radius ++ "," ++
    FormatFloat (RadiansToDegrees region.Origin.Lat) ++ "," ++
    FormatFloat (RadiansToDegrees region.Origin.Lon) ++ ")"

/-- Go source: `buildQuery`, starting from the parsed filter AST: build the
criteria, wrap an error as `overpass query error: ...`, otherwise emit the
preamble, one `way(around:...)` clause per criterion each followed by the
criterion and `;`, and the epilogue, joined with the empty separator. -/
def buildQuery (region : GeoCircle) (filterAst : Node) : Option (Except String String) :=
  match buildCriteria filterAst with
  | none => none
  | some (.error e) => some (.error ("overpass query error: " ++ e))
  | some (.ok crits) =>
    let parts := "[out:json];(" ::
      ((crits.foldl (fun acc crit => acc ++ [wayClause region, crit, ";"]) []) ++
        [");out tags geom qt;"])
    some (.ok (String.join parts))

/-- The AST the expr parser produces for the filter text
`highway in ['primary','secondary']` (grammar of spec section 6). -/
def astC1 : Node :=
  .BinaryNode "in" (.IdentifierNode "highway")
    (.ArrayNode [.StringNode "primary", .StringNode "secondary"])

/-- C1, counterexample: compiling `highway in ['primary','secondary']` does
split the root disjunction into two independent criteria, but they are
`[highway="primary"]` and `[highway="secondary"]` — the string literal is
emitted through `strconv.Quote`, so the claimed criteria `[highway=primary]`
and `[highway=secondary]` (without quotes) are not produced. -/
theorem C1_counterexample :
    buildCriteria astC1 = some (.ok ["[highway=\"primary\"]", "[highway=\"secondary\"]"]) ∧
    buildCriteria astC1 ≠ some (.ok ["[highway=primary]", "[highway=secondary]"]) := by
  have h1 : buildCriteria astC1 =
      some (.ok ["[highway=\"primary\"]", "[highway=\"secondary\"]"]) := rfl
  refine ⟨h1, fun h => ?_⟩
  rw [h1] at h
  simp at h

/-- C1, amended: for every region, compiling the filter
`highway in ['primary','secondary']` succeeds and produces exactly the two
criteria `[highway="primary"]` then `[highway="secondary"]` (values quoted),
each kept as an independent query statement of the assembled query. -/
theorem C1_split_criteria :
    buildCriteria astC1 = some (.ok ["[highway=\"primary\"]", "[highway=\"secondary\"]"]) ∧
    ∀ region : GeoCircle,
      buildQuery region astC1 = some (.ok ("[out:json];(" ++
        wayClause region ++ "[highway=\"primary\"]" ++ ";" ++
        wayClause region ++ "[highway=\"secondary\"]" ++ ";" ++ ");out tags geom qt;")) := by
  refine ⟨rfl, fun region => ?_⟩
  have h2 : buildQuery region astC1 = some (.ok (String.join ["[out:json];(",
      wayClause region, "[highway=\"primary\"]", ";",
      wayClause region, "[highway=\"secondary\"]", ";", ");out tags geom qt;"])) := rfl
  rw [h2]
  simp [String.join]

/-- The claim's shape for the array expansion, written as the spec states it:
a left-associated disjunction of equality comparisons, elements in array
order, built here by recursion on the reversed list so that the last element
is the right operand of the outermost `or`.  `none` for the empty array. -/
def leftAssocDisjunctionRev (left : Node) : List Node → Option Node
  | [] => none
  | e :: rest =>
    match leftAssocDisjunctionRev left rest with
    | none => some (.BinaryNode "==" left e)
    | some d => some (.BinaryNode "or" d (.BinaryNode "==" left e))

/-- The left-associated disjunction over the elements in array order. -/
def leftAssocDisjunction (left : Node) (es : List Node) : Option Node :=
  leftAssocDisjunctionRev left es.reverse

/-- Appending one element to the array wraps the previous disjunction in one
more `or` on the right. -/
theorem leftAssocDisjunction_snoc (left x : Node) (es : List Node) :
    leftAssocDisjunction left (es ++ [x]) =
      (match leftAssocDisjunction left es with
        | none => some (.BinaryNode "==" left x)
        | some d => some (.BinaryNode "or" d (.BinaryNode "==" left x))) := by
  unfold leftAssocDisjunction
  rw [List.reverse_append]
  rfl

/-- The Go patch loop (a left fold) computes exactly the left-associated
disjunction of the claim. -/
theorem foldl_eq_leftAssocDisjunction (left e : Node) (rest : List Node) :
    leftAssocDisjunction left (e :: rest) =
      some (rest.foldl
        (fun acc x => Node.BinaryNode "or" acc (Node.BinaryNode "==" left x))
        (Node.BinaryNode "==" left e)) := by
  induction rest using List.reverseRecOn with
  | nil => rfl
  | append_singleton rs x ih =>
    have h := leftAssocDisjunction_snoc left x (e :: rs)
    rw [ih] at h
    simpa [List.foldl_append] using h

/-- C3: for a binary `in`/`not in` node whose right-hand side is an array
literal, the membership expander's Exit yields `false` for the empty array
and otherwise the left-associated disjunction of equality comparisons of the
left operand against the elements in array order; `not in` wraps the result
in a unary negation. -/
theorem C3_array_expansion (op : String) (left : Node) (es : List Node)
    (h : op = "in" ∨ op = "not in") :
    expandInArrayExit (.BinaryNode op left (.ArrayNode es)) =
      (let core := match leftAssocDisjunction left es with
        | none => Node.BoolNode false
        | some d => d
      if op = "not in" then .UnaryNode "not" core else core) := by
  rcases es with _ | ⟨e, rest⟩
  · rcases h with h | h <;> subst h <;> rfl
  · rw [foldl_eq_leftAssocDisjunction left e rest]
    rcases h with h | h <;> subst h <;> simp [expandInArrayExit]

/-- C3 witness: `a not in ['b','c','d']` expands to
`not ((a=='b' or a=='c') or a=='d')`. -/
theorem C3_array_expansion_witness :
    expandInArrayExit (.BinaryNode "not in" (.IdentifierNode "a")
        (.ArrayNode [.StringNode "b", .StringNode "c", .StringNode "d"])) =
      .UnaryNode "not" (.BinaryNode "or"
        (.BinaryNode "or"
          (.BinaryNode "==" (.IdentifierNode "a") (.StringNode "b"))
          (.BinaryNode "==" (.IdentifierNode "a") (.StringNode "c")))
        (.BinaryNode "==" (.IdentifierNode "a") (.StringNode "d"))) := by
  have h := C3_array_expansion "not in" (.IdentifierNode "a")
    [.StringNode "b", .StringNode "c", .StringNode "d"] (Or.inr rfl)
  simpa using h

/-- C4: for a binary `in`/`not in` node whose right-hand side is a two-bound
range literal, the expander's Exit yields the single equality against `lo`
exactly when the bounds are equal by literal value, and the conjunction
`left >= lo and left <= hi` otherwise, wrapped in a negation for `not in`;
and bound equality holds exactly when both bounds are literals carrying the
same value — non-literal bounds are never considered equal. -/
theorem C4_range_expansion (op : String) (left lo hi : Node)
    (h : op = "in" ∨ op = "not in") :
    (expandInRangeExit (.BinaryNode op left (.BinaryNode ".." lo hi)) =
      (let core := if getValueEq lo hi then Node.BinaryNode "==" left lo
        else .BinaryNode "and" (.BinaryNode ">=" left lo) (.BinaryNode "<=" left hi)
      if op = "not in" then .UnaryNode "not" core else core)) ∧
    (getValueEq lo hi = true ↔ ∃ v, getValue lo = some v ∧ getValue hi = some v) := by
  constructor
  · rcases h with h | h <;> subst h <;> simp [expandInRangeExit]
  · unfold getValueEq
    cases hl : getValue lo with
    | none => simp [hl]
    | some x =>
      cases hr : getValue hi with
      | none => simp [hl, hr]
      | some y =>
        simp only [beq_iff_eq, Option.some.injEq]
        constructor
        · intro hxy; exact ⟨x, rfl, hxy.symm⟩
        · rintro ⟨v, rfl, hv⟩; exact hv.symm

/-- C4 witness: `a not in (2 .. 6)` expands to `not (a>=2 and a<=6)`, and the
bounds 2 and 6 are not equal by literal value. -/
theorem C4_range_expansion_witness :
    expandInRangeExit (.BinaryNode "not in" (.IdentifierNode "a")
        (.BinaryNode ".." (.IntegerNode 2) (.IntegerNode 6))) =
      .UnaryNode "not" (.BinaryNode "and"
        (.BinaryNode ">=" (.IdentifierNode "a") (.IntegerNode 2))
        (.BinaryNode "<=" (.IdentifierNode "a") (.IntegerNode 6))) := by
  have h := (C4_range_expansion "not in" (.IdentifierNode "a")
    (.IntegerNode 2) (.IntegerNode 6) (Or.inr rfl)).1
  simpa [getValueEq, getValue] using h

/-- `qbEnter` never touches the error cell. -/
theorem qbEnter_err (n : Node) (q : QueryBuilder) : (qbEnter n q).err = q.err := by
  unfold qbEnter
  split
  · rfl
  · split <;> rfl

/-- `qbEnter` never touches the fragment stack. -/
theorem qbEnter_stack (n : Node) (q : QueryBuilder) : (qbEnter n q).stack = q.stack := by
  unfold qbEnter
  split
  · rfl
  · split <;> rfl

/-- Once the error cell is set, `Exit` returns without changing anything. -/
theorem qbExit_latch (n : Node) (q : QueryBuilder) (h : q.err.isSome) :
    qbExit n q = some q := by
  unfold qbExit
  simp [h]

/-- A latched error survives the rest of the walk untouched, and the walk
keeps succeeding with the fragment stack unchanged. -/
theorem qbWalk_latch_all :
    (∀ n : Node, ∀ (q : QueryBuilder) (e : String), q.err = some e →
      ∃ q', qbWalk n q = some q' ∧ q'.err = some e ∧ q'.stack = q.stack) ∧
    (∀ ns : List Node, ∀ (q : QueryBuilder) (e : String), q.err = some e →
      ∃ q', qbWalkList ns q = some q' ∧ q'.err = some e ∧ q'.stack = q.stack) := by
  have leaf : ∀ n : Node, (∀ q : QueryBuilder, qbWalk n q = qbExit n (qbEnter n q)) →
      ∀ (q : QueryBuilder) (e : String), q.err = some e →
      ∃ q', qbWalk n q = some q' ∧ q'.err = some e ∧ q'.stack = q.stack := by
    intro n hn q e h
    refine ⟨qbEnter n q, ?_, ?_, qbEnter_stack n q⟩
    · rw [hn, qbExit_latch]
      rw [qbEnter_err, h]
      rfl
    · rw [qbEnter_err, h]
  refine Node.mutualInduction _ _ (leaf _ fun _ => rfl) (fun v => leaf _ fun _ => rfl)
    (fun v => leaf _ fun _ => rfl) (fun v => leaf _ fun _ => rfl)
    (fun v => leaf _ fun _ => rfl) (fun v => leaf _ fun _ => rfl)
    ?hU ?hB ?hM ?hA ?hF ?hC ?hnil ?hcons
  case hU =>
    intro op t iht q e h
    obtain ⟨q2, hw2, he2, hs2⟩ := iht (qbEnter (.UnaryNode op t) q) e (by rw [qbEnter_err]; exact h)
    refine ⟨q2, ?_, he2, by rw [hs2, qbEnter_stack]⟩
    show (match qbWalk t (qbEnter (.UnaryNode op t) q) with
      | some q2 => qbExit (.UnaryNode op t) q2
      | none => none) = some q2
    simp only [hw2]
    exact qbExit_latch _ _ (by rw [he2]; rfl)
  case hB =>
    intro op l r ihl ihr q e h
    obtain ⟨q2, hw2, he2, hs2⟩ := ihl (qbEnter (.BinaryNode op l r) q) e (by rw [qbEnter_err]; exact h)
    obtain ⟨q3, hw3, he3, hs3⟩ := ihr q2 e he2
    refine ⟨q3, ?_, he3, by rw [hs3, hs2, qbEnter_stack]⟩
    show (match qbWalk l (qbEnter (.BinaryNode op l r) q) with
      | some q2 =>
        match qbWalk r q2 with
        | some q3 => qbExit (.BinaryNode op l r) q3
        | none => none
      | none => none) = some q3
    simp only [hw2, hw3]
    exact qbExit_latch _ _ (by rw [he3]; rfl)
  case hM =>
    intro l r ihl ihr q e h
    obtain ⟨q2, hw2, he2, hs2⟩ := ihl (qbEnter (.MatchesNode l r) q) e (by rw [qbEnter_err]; exact h)
    obtain ⟨q3, hw3, he3, hs3⟩ := ihr q2 e he2
    refine ⟨q3, ?_, he3, by rw [hs3, hs2, qbEnter_stack]⟩
    show (match qbWalk l (qbEnter (.MatchesNode l r) q) with
      | some q2 =>
        match qbWalk r q2 with
        | some q3 => qbExit (.MatchesNode l r) q3
        | none => none
      | none => none) = some q3
    simp only [hw2, hw3]
    exact qbExit_latch _ _ (by rw [he3]; rfl)
  case hA =>
    intro ns ihns q e h
    obtain ⟨q2, hw2, he2, hs2⟩ := ihns (qbEnter (.ArrayNode ns) q) e (by rw [qbEnter_err]; exact h)
    refine ⟨q2, ?_, he2, by rw [hs2, qbEnter_stack]⟩
    show (match qbWalkList ns (qbEnter (.ArrayNode ns) q) with
      | some q2 => qbExit (.ArrayNode ns) q2
      | none => none) = some q2
    simp only [hw2]
    exact qbExit_latch _ _ (by rw [he2]; rfl)
  case hF =>
    intro nm args ihargs q e h
    obtain ⟨q2, hw2, he2, hs2⟩ := ihargs (qbEnter (.FunctionNode nm args) q) e (by rw [qbEnter_err]; exact h)
    refine ⟨q2, ?_, he2, by rw [hs2, qbEnter_stack]⟩
    show (match qbWalkList args (qbEnter (.FunctionNode nm args) q) with
      | some q2 => qbExit (.FunctionNode nm args) q2
      | none => none) = some q2
    simp only [hw2]
    exact qbExit_latch _ _ (by rw [he2]; rfl)
  case hC =>
    intro c t e' ihc iht ihe q e h
    obtain ⟨q2, hw2, he2, hs2⟩ := ihc (qbEnter (.ConditionalNode c t e') q) e (by rw [qbEnter_err]; exact h)
    obtain ⟨q3, hw3, he3, hs3⟩ := iht q2 e he2
    obtain ⟨q4, hw4, he4, hs4⟩ := ihe q3 e he3
    refine ⟨q4, ?_, he4, by rw [hs4, hs3, hs2, qbEnter_stack]⟩
    show (match qbWalk c (qbEnter (.ConditionalNode c t e') q) with
      | some q2 =>
        match qbWalk t q2 with
        | some q3 =>
          match qbWalk e' q3 with
          | some q4 => qbExit (.ConditionalNode c t e') q4
          | none => none
        | none => none
      | none => none) = some q4
    simp only [hw2, hw3, hw4]
    exact qbExit_latch _ _ (by rw [he4]; rfl)
  case hnil =>
    intro q e h
    exact ⟨q, rfl, h, rfl⟩
  case hcons =>
    intro n ns ihn ihns q e h
    obtain ⟨q2, hw2, he2, hs2⟩ := ihn q e h
    obtain ⟨q3, hw3, he3, hs3⟩ := ihns q2 e he2
    refine ⟨q3, ?_, he3, by rw [hs3, hs2]⟩
    show (match qbWalk n q with
      | some q2 => qbWalkList ns q2
      | none => none) = some q3
    simp only [hw2]
    exact hw3

/-- C9: the first error encountered during code generation is latched and
wins — once the error cell is set every subsequent Exit returns immediately
with the whole state (all stacks included) unchanged, the rest of the walk
keeps the latched error and the fragment stack untouched, and
`buildCriteria` returns exactly that error with no criteria list. -/
theorem C9_first_error_latched :
    (∀ (n : Node) (q : QueryBuilder), q.err.isSome → qbExit n q = some q) ∧
    (∀ (n : Node) (q : QueryBuilder) (e : String), q.err = some e →
      ∃ q', qbWalk n q = some q' ∧ q'.err = some e ∧ q'.stack = q.stack) ∧
    (∀ (t : Node) (q' : QueryBuilder) (e : String),
      qbWalk (toDNF (distributeAndFoldNot (expandInRange (expandInArray t)))) initialQB =
        some q' →
      q'.err = some e → buildCriteria t = some (.error e)) := by
  refine ⟨qbExit_latch, qbWalk_latch_all.1, fun t q' e hw he => ?_⟩
  unfold buildCriteria
  simp only [hw, he]

/-- Popping exactly as many fragments as a prefix holds returns that prefix
in stack (pop) order and leaves the rest. -/
theorem popMany_append (frags rest : List String) :
    popMany frags.length (frags ++ rest) = some (frags, rest) := by
  induction frags with
  | nil => rfl
  | cons f fs ih => simp [popMany, ih]

/-- C8, amended: on exiting a function-call node at root context, a
single-argument call named `is_tag` emits the bracketed presence filter with
the argument fragment, `!`-prefixed under a pending negation; any other call
emits the (possibly `!`-prefixed) name followed by the argument fragments as
popped from the fragment stack, i.e. in reverse source order, between
parentheses.  (`srcFrags` lists the argument fragments in source order; the
walk pushed them left to right, so the stack holds their reverse on top.) -/
theorem C8_function_call_exit :
    (∀ (x : Node) (f : String) (rest : List String) (b : Bool) (nots : List Bool),
      qbExit (.FunctionNode "is_tag" [x]) ⟨f :: rest, b :: nots, 1, none⟩ =
        some ⟨("[" ++ bangIf f b ++ "]") :: rest, nots, 0, none⟩) ∧
    (∀ (nm : String) (args : List Node) (srcFrags rest : List String) (b : Bool)
        (nots : List Bool),
      (nm ≠ "is_tag" ∨ args.length ≠ 1) → srcFrags.length = args.length →
      qbExit (.FunctionNode nm args) ⟨srcFrags.reverse ++ rest, b :: nots, 1, none⟩ =
        some ⟨(bangIf nm b ++ "(" ++ String.join srcFrags.reverse ++ ")") :: rest,
          nots, 0, none⟩) := by
  constructor
  · intro x f rest b nots
    simp [qbExit]
  · intro nm args srcFrags rest b nots hne hlen
    have hcond : (nm == "is_tag" && args.length == 1) = false := by
      rcases hne with h | h <;> simp [h]
    have hpop : popMany args.length (srcFrags.reverse ++ rest) =
        some (srcFrags.reverse, rest) := by
      rw [← hlen, ← srcFrags.length_reverse]
      exact popMany_append srcFrags.reverse rest
    simp [qbExit, hcond, hpop]

/-- C8, counterexample: a two-argument call `f(a,b)` compiles to the
evaluated filter `(if:f(ba))` — the argument fragments are popped from the
stack, so they appear in reverse source order, not in source order. -/
theorem C8_counterexample :
    buildCriteria (.FunctionNode "f" [.IdentifierNode "a", .IdentifierNode "b"]) =
      some (.ok ["(if:f(ba))"]) ∧
    buildCriteria (.FunctionNode "f" [.IdentifierNode "a", .IdentifierNode "b"]) ≠
      some (.ok ["(if:f(ab))"]) := by
  have h1 : buildCriteria (.FunctionNode "f" [.IdentifierNode "a", .IdentifierNode "b"]) =
      some (.ok ["(if:f(ba))"]) := rfl
  refine ⟨h1, fun h => ?_⟩
  rw [h1] at h
  simp at h

/-- C8 witness: exiting `is_tag(highway)` at root with a pending negation
emits `[!highway]`, and exiting `f(a,b)` at root emits `f("b""a")`-style
concatenation in pop order. -/
theorem C8_function_call_exit_witness :
    qbExit (.FunctionNode "is_tag" [.IdentifierNode "highway"])
        ⟨["highway"], [false], 1, none⟩ = some ⟨["[highway]"], [], 0, none⟩ ∧
    qbExit (.FunctionNode "f" [.IdentifierNode "a", .IdentifierNode "b"])
        ⟨["b", "a"], [false], 1, none⟩ = some ⟨["f(ba)"], [], 0, none⟩ := by
  constructor
  · have h := C8_function_call_exit.1 (.IdentifierNode "highway") "highway" [] false []
    simpa using h
  · have h := C8_function_call_exit.2 "f" [.IdentifierNode "a", .IdentifierNode "b"]
      ["a", "b"] [] false [] (Or.inl (by decide)) rfl
    simpa [String.join] using h

/-- The direct children of a node, in walk order. -/
def nodeChildren : Node → List Node
  | .UnaryNode _ t => [t]
  | .BinaryNode _ l r => [l, r]
  | .MatchesNode l r => [l, r]
  | .ArrayNode ns => ns
  | .FunctionNode _ args => args
  | .ConditionalNode c t e => [c, t, e]
  | _ => []

/-- Unfolding equation for `nsize` on unary nodes. -/
theorem nsize_unary (op : String) (t : Node) :
    nsize (.UnaryNode op t) = if op == "not" || op == "!" then 2 * nsize t
      else nsize t + 1 := rfl

/-- Unfolding equation for `nsize` on binary nodes. -/
theorem nsize_binary (op : String) (l r : Node) :
    nsize (.BinaryNode op l r) = nsize l + nsize r + 1 := rfl

/-- Unfolding equation for `nsize` on matches nodes. -/
theorem nsize_matches (l r : Node) : nsize (.MatchesNode l r) = nsize l + nsize r + 1 := rfl

/-- Unfolding equation for `nsize` on array nodes. -/
theorem nsize_array (ns : List Node) : nsize (.ArrayNode ns) = nsizeList ns + 1 := rfl

/-- Unfolding equation for `nsize` on call nodes. -/
theorem nsize_function (nm : String) (args : List Node) :
    nsize (.FunctionNode nm args) = nsizeList args + 1 := rfl

/-- Unfolding equation for `nsize` on conditional nodes. -/
theorem nsize_conditional (c t e : Node) :
    nsize (.ConditionalNode c t e) = nsize c + nsize t + nsize e + 1 := rfl

/-- Every node has positive measure. -/
theorem nsize_pos : ∀ n : Node, 1 ≤ nsize n := by
  have h := Node.mutualInduction (fun n => 1 ≤ nsize n) (fun _ => True)
    (le_refl 1) (fun _ => le_refl 1) (fun _ => le_refl 1)
    (fun _ => le_refl 1) (fun _ => le_refl 1) (fun _ => le_refl 1)
    (fun op t ih => by show 1 ≤ nsize (.UnaryNode op t); rw [nsize_unary]; split <;> omega)
    (fun op l r _ _ => by show 1 ≤ nsize (.BinaryNode op l r); rw [nsize_binary]; omega)
    (fun l r _ _ => by show 1 ≤ nsize (.MatchesNode l r); rw [nsize_matches]; omega)
    (fun ns _ => by show 1 ≤ nsize (.ArrayNode ns); rw [nsize_array]; omega)
    (fun nm args _ => by show 1 ≤ nsize (.FunctionNode nm args); rw [nsize_function]; omega)
    (fun c t e _ _ _ => by
      show 1 ≤ nsize (.ConditionalNode c t e); rw [nsize_conditional]; omega)
    trivial (fun _ _ _ _ => trivial)
  exact h.1

/-- A list element's measure is bounded by the list measure. -/
theorem nsize_le_nsizeList {c : Node} {ns : List Node} (h : c ∈ ns) :
    nsize c ≤ nsizeList ns := by
  induction ns with
  | nil => cases h
  | cons n rest ih =>
    rcases List.mem_cons.mp h with h | h
    · subst h; unfold nsizeList; omega
    · have := ih h; unfold nsizeList; omega

/-- Every direct child is strictly smaller than its parent. -/
theorem nsize_child_lt : ∀ (n c : Node), c ∈ nodeChildren n → nsize c < nsize n := by
  intro n c hc
  cases n with
  | UnaryNode op t =>
    have ht : c = t := by simpa [nodeChildren] using hc
    have hp := nsize_pos t
    rw [ht, nsize_unary]
    split <;> omega
  | BinaryNode op l r =>
    have h1 := nsize_pos l
    have h2 := nsize_pos r
    rw [nsize_binary]
    rcases (by simpa [nodeChildren] using hc : c = l ∨ c = r) with h | h <;> rw [h] <;> omega
  | MatchesNode l r =>
    have h1 := nsize_pos l
    have h2 := nsize_pos r
    rw [nsize_matches]
    rcases (by simpa [nodeChildren] using hc : c = l ∨ c = r) with h | h <;> rw [h] <;> omega
  | ArrayNode ns =>
    have := nsize_le_nsizeList (show c ∈ ns from hc)
    rw [nsize_array]
    omega
  | FunctionNode nm args =>
    have := nsize_le_nsizeList (show c ∈ args from hc)
    rw [nsize_function]
    omega
  | ConditionalNode a b e =>
    have h1 := nsize_pos a
    have h2 := nsize_pos b
    have h3 := nsize_pos e
    rw [nsize_conditional]
    rcases (by simpa [nodeChildren] using hc : c = a ∨ c = b ∨ c = e) with h | h | h <;>
      rw [h] <;> omega
  | NilNode => simp [nodeChildren] at hc
  | IdentifierNode v => simp [nodeChildren] at hc
  | IntegerNode v => simp [nodeChildren] at hc
  | FloatNode v => simp [nodeChildren] at hc
  | BoolNode v => simp [nodeChildren] at hc
  | StringNode v => simp [nodeChildren] at hc

/-- Two child-maps agreeing on the direct children rebuild the same node. -/
theorem walkChildren_congrOn (f g : Node → Node) (n : Node)
    (h : ∀ c ∈ nodeChildren n, f c = g c) : walkChildren f n = walkChildren g n := by
  cases n with
  | UnaryNode op t => simp [walkChildren, h t (by simp [nodeChildren])]
  | BinaryNode op l r =>
    simp [walkChildren, h l (by simp [nodeChildren]), h r (by simp [nodeChildren])]
  | MatchesNode l r =>
    simp [walkChildren, h l (by simp [nodeChildren]), h r (by simp [nodeChildren])]
  | ArrayNode ns =>
    have hm : ns.map f = ns.map g := List.map_congr_left (fun c hc => h c hc)
    simp [walkChildren, hm]
  | FunctionNode nm args =>
    have hm : args.map f = args.map g := List.map_congr_left (fun c hc => h c hc)
    simp [walkChildren, hm]
  | ConditionalNode c t e =>
    simp [walkChildren, h c (by simp [nodeChildren]), h t (by simp [nodeChildren]),
      h e (by simp [nodeChildren])]
  | NilNode => rfl
  | IdentifierNode v => rfl
  | IntegerNode v => rfl
  | FloatNode v => rfl
  | BoolNode v => rfl
  | StringNode v => rfl

/-- Mapping a measure-nonincreasing function over a list does not increase
the list measure. -/
theorem nsizeList_map_le (f : Node → Node) (ns : List Node)
    (h : ∀ c ∈ ns, nsize (f c) ≤ nsize c) : nsizeList (ns.map f) ≤ nsizeList ns := by
  induction ns with
  | nil => exact le_refl _
  | cons n rest ih =>
    have h1 := h n (by simp)
    have h2 := ih (fun c hc => h c (by simp [hc]))
    show nsize (f n) + nsizeList (rest.map f) ≤ nsize n + nsizeList rest
    omega

/-- Rebuilding a node with a measure-nonincreasing child map does not
increase its measure. -/
theorem nsize_walkChildren_le (f : Node → Node) (n : Node)
    (h : ∀ c ∈ nodeChildren n, nsize (f c) ≤ nsize c) :
    nsize (walkChildren f n) ≤ nsize n := by
  cases n with
  | UnaryNode op t =>
    have ht := h t (by simp [nodeChildren])
    show nsize (.UnaryNode op (f t)) ≤ _
    rw [nsize_unary, nsize_unary]
    split <;> omega
  | BinaryNode op l r =>
    have h1 := h l (by simp [nodeChildren])
    have h2 := h r (by simp [nodeChildren])
    show nsize (.BinaryNode op (f l) (f r)) ≤ _
    rw [nsize_binary, nsize_binary]
    omega
  | MatchesNode l r =>
    have h1 := h l (by simp [nodeChildren])
    have h2 := h r (by simp [nodeChildren])
    show nsize (.MatchesNode (f l) (f r)) ≤ _
    rw [nsize_matches, nsize_matches]
    omega
  | ArrayNode ns =>
    have := nsizeList_map_le f ns (fun c hc => h c hc)
    show nsize (.ArrayNode (ns.map f)) ≤ _
    rw [nsize_array, nsize_array]
    omega
  | FunctionNode nm args =>
    have := nsizeList_map_le f args (fun c hc => h c hc)
    show nsize (.FunctionNode nm (args.map f)) ≤ _
    rw [nsize_function, nsize_function]
    omega
  | ConditionalNode c t e =>
    have h1 := h c (by simp [nodeChildren])
    have h2 := h t (by simp [nodeChildren])
    have h3 := h e (by simp [nodeChildren])
    show nsize (.ConditionalNode (f c) (f t) (f e)) ≤ _
    rw [nsize_conditional, nsize_conditional]
    omega
  | NilNode => exact le_refl _
  | IdentifierNode v => exact le_refl _
  | IntegerNode v => exact le_refl _
  | FloatNode v => exact le_refl _
  | BoolNode v => exact le_refl _
  | StringNode v => exact le_refl _

/-- The negation normalizer never increases the measure, whatever the fuel. -/
theorem nsize_foldNotF_le : ∀ (k : Nat) (n : Node), nsize (foldNotF k n) ≤ nsize n := by
  intro k
  induction k with
  | zero => intro n; exact le_refl _
  | succ k ih =>
    intro n
    have hwc : ∀ m : Node, nsize (walkChildren (foldNotF k) m) ≤ nsize m :=
      fun m => nsize_walkChildren_le _ _ (fun c _ => ih c)
    cases n with
    | UnaryNode op t =>
      by_cases hop : (op == "not" || op == "!") = true
      · cases t with
        | BinaryNode bop l r =>
          cases hdual : operatorPairs bop with
          | none =>
            simp only [foldNotF, hop, hdual, if_true]
            have := ih (.BinaryNode bop l r)
            rw [nsize_unary, nsize_unary, hop]
            simp only [if_true]
            omega
          | some d =>
            simp only [foldNotF, hop, hdual, if_true]
            by_cases hlog : (bop == "and" || bop == "&&" || bop == "or" || bop == "||") = true
            · rw [if_pos hlog]
              have h1 := ih (.UnaryNode op l)
              have h2 := ih (.UnaryNode op r)
              rw [nsize_unary, hop] at h1 h2
              simp only [if_true] at h1 h2
              rw [nsize_binary, nsize_unary, nsize_binary, hop]
              simp only [if_true]
              omega
            · rw [if_neg hlog]
              have h1 := ih l
              have h2 := ih r
              rw [nsize_binary, nsize_unary, nsize_binary, hop]
              simp only [if_true]
              omega
        | UnaryNode op2 t2 =>
          by_cases hop2 : (op2 == "not" || op2 == "!") = true
          · simp only [foldNotF, hop, hop2, if_true]
            have h1 := hwc (foldNotF k t2)
            have h2 := ih t2
            have h3 := nsize_pos t2
            rw [nsize_unary, hop, nsize_unary, hop2]
            simp only [if_true]
            omega
          · simp only [foldNotF, hop, hop2, if_true, if_false, Bool.false_eq_true]
            have h1 := ih (.UnaryNode op2 t2)
            rw [nsize_unary, nsize_unary, hop]
            simp only [if_true]
            omega
        | BoolNode b =>
          simp only [foldNotF, hop, if_true]
          rw [nsize_unary, hop]
          show nsize (Node.BoolNode (!b)) ≤ _
          simp only [if_true]
          have : nsize (Node.BoolNode (!b)) = 1 := rfl
          have hb : nsize (Node.BoolNode b) = 1 := rfl
          omega
        | NilNode =>
          simp only [foldNotF, hop, if_true]
          have := ih Node.NilNode
          rw [nsize_unary, nsize_unary, hop]
          simp only [if_true]
          omega
        | IdentifierNode v =>
          simp only [foldNotF, hop, if_true]
          have := ih (Node.IdentifierNode v)
          rw [nsize_unary, nsize_unary, hop]
          simp only [if_true]
          omega
        | IntegerNode v =>
          simp only [foldNotF, hop, if_true]
          have := ih (Node.IntegerNode v)
          rw [nsize_unary, nsize_unary, hop]
          simp only [if_true]
          omega
        | FloatNode v =>
          simp only [foldNotF, hop, if_true]
          have := ih (Node.FloatNode v)
          rw [nsize_unary, nsize_unary, hop]
          simp only [if_true]
          omega
        | StringNode v =>
          simp only [foldNotF, hop, if_true]
          have := ih (Node.StringNode v)
          rw [nsize_unary, nsize_unary, hop]
          simp only [if_true]
          omega
        | MatchesNode l r =>
          simp only [foldNotF, hop, if_true]
          have := ih (Node.MatchesNode l r)
          rw [nsize_unary, nsize_unary, hop]
          simp only [if_true]
          omega
        | ArrayNode ns =>
          simp only [foldNotF, hop, if_true]
          have := ih (Node.ArrayNode ns)
          rw [nsize_unary, nsize_unary, hop]
          simp only [if_true]
          omega
        | FunctionNode nm args =>
          simp only [foldNotF, hop, if_true]
          have := ih (Node.FunctionNode nm args)
          rw [nsize_unary, nsize_unary, hop]
          simp only [if_true]
          omega
        | ConditionalNode c t e =>
          simp only [foldNotF, hop, if_true]
          have := ih (Node.ConditionalNode c t e)
          rw [nsize_unary, nsize_unary, hop]
          simp only [if_true]
          omega
      · have hx : (op == "not" || op == "!") = false := by simpa using hop
        simp only [foldNotF, hx, Bool.false_eq_true, if_false]
        have := ih t
        rw [nsize_unary, nsize_unary, hx]
        simp only [Bool.false_eq_true, if_false]
        omega
    | NilNode => simp only [foldNotF]; exact hwc _
    | IdentifierNode v => simp only [foldNotF]; exact hwc _
    | IntegerNode v => simp only [foldNotF]; exact hwc _
    | FloatNode v => simp only [foldNotF]; exact hwc _
    | BoolNode v => simp only [foldNotF]; exact hwc _
    | StringNode v => simp only [foldNotF]; exact hwc _
    | BinaryNode op l r => simp only [foldNotF]; exact hwc _
    | MatchesNode l r => simp only [foldNotF]; exact hwc _
    | ArrayNode ns => simp only [foldNotF]; exact hwc _
    | FunctionNode nm args => simp only [foldNotF]; exact hwc _
    | ConditionalNode c t e => simp only [foldNotF]; exact hwc _

/-- Any two fuels of at least the node's measure make `foldNotF` compute the
same result: the fuel is only a termination device, `nsize n` always
suffices. -/
theorem foldNotF_fuel : ∀ (j k : Nat) (n : Node), nsize n ≤ j → nsize n ≤ k →
    foldNotF j n = foldNotF k n := by
  intro j
  induction j using Nat.strong_induction_on with
  | _ j ihj =>
    intro k n hj hk
    have hp := nsize_pos n
    cases j with
    | zero => omega
    | succ j' =>
    cases k with
    | zero => omega
    | succ k' =>
    cases n with
    | UnaryNode op t =>
      by_cases hop : (op == "not" || op == "!") = true
      · rw [nsize_unary, hop] at hj hk
        simp only [if_true] at hj hk
        cases t with
        | BinaryNode bop l r =>
          rw [nsize_binary] at hj hk
          have hpl := nsize_pos l
          have hpr := nsize_pos r
          cases hdual : operatorPairs bop with
          | none =>
            simp only [foldNotF, hop, hdual, if_true]
            rw [ihj j' (by omega) k' (.BinaryNode bop l r)
              (by rw [nsize_binary]; omega) (by rw [nsize_binary]; omega)]
          | some d =>
            simp only [foldNotF, hop, hdual, if_true]
            by_cases hlog : (bop == "and" || bop == "&&" || bop == "or" || bop == "||") = true
            · rw [if_pos hlog, if_pos hlog]
              rw [ihj j' (by omega) k' (.UnaryNode op l)
                (by rw [nsize_unary, hop]; simp only [if_true]; omega)
                (by rw [nsize_unary, hop]; simp only [if_true]; omega)]
              rw [ihj j' (by omega) k' (.UnaryNode op r)
                (by rw [nsize_unary, hop]; simp only [if_true]; omega)
                (by rw [nsize_unary, hop]; simp only [if_true]; omega)]
            · rw [if_neg hlog, if_neg hlog]
              rw [ihj j' (by omega) k' l (by omega) (by omega)]
              rw [ihj j' (by omega) k' r (by omega) (by omega)]
        | UnaryNode op2 t2 =>
          by_cases hop2 : (op2 == "not" || op2 == "!") = true
          · rw [nsize_unary, hop2] at hj hk
            simp only [if_true] at hj hk
            have hp2 := nsize_pos t2
            have hA : foldNotF j' t2 = foldNotF k' t2 :=
              ihj j' (by omega) k' t2 (by omega) (by omega)
            simp only [foldNotF, hop, hop2, if_true]
            rw [hA]
            exact walkChildren_congrOn _ _ _ (fun c hc => by
              have h1 := nsize_child_lt (foldNotF k' t2) c hc
              have h2 := nsize_foldNotF_le k' t2
              exact ihj j' (by omega) k' c (by omega) (by omega))
          · have hx2 : (op2 == "not" || op2 == "!") = false := by simpa using hop2
            rw [nsize_unary, hx2] at hj hk
            simp only [Bool.false_eq_true, if_false] at hj hk
            have hp2 := nsize_pos t2
            simp only [foldNotF, hop, hx2, if_true, Bool.false_eq_true, if_false]
            rw [ihj j' (by omega) k' (.UnaryNode op2 t2)
              (by rw [nsize_unary, hx2]; simp only [Bool.false_eq_true, if_false]; omega)
              (by rw [nsize_unary, hx2]; simp only [Bool.false_eq_true, if_false]; omega)]
        | BoolNode b => simp only [foldNotF, hop, if_true]
        | NilNode =>
          simp only [foldNotF, hop, if_true]
          rw [ihj j' (by omega) k' Node.NilNode (by omega) (by omega)]
        | IdentifierNode v =>
          simp only [foldNotF, hop, if_true]
          have : nsize (Node.IdentifierNode v) = 1 := rfl
          rw [ihj j' (by omega) k' (Node.IdentifierNode v) (by omega) (by omega)]
        | IntegerNode v =>
          simp only [foldNotF, hop, if_true]
          have : nsize (Node.IntegerNode v) = 1 := rfl
          rw [ihj j' (by omega) k' (Node.IntegerNode v) (by omega) (by omega)]
        | FloatNode v =>
          simp only [foldNotF, hop, if_true]
          have : nsize (Node.FloatNode v) = 1 := rfl
          rw [ihj j' (by omega) k' (Node.FloatNode v) (by omega) (by omega)]
        | StringNode v =>
          simp only [foldNotF, hop, if_true]
          have : nsize (Node.StringNode v) = 1 := rfl
          rw [ihj j' (by omega) k' (Node.StringNode v) (by omega) (by omega)]
        | MatchesNode l r =>
          simp only [foldNotF, hop, if_true]
          have h1 := nsize_pos l
          have h2 := nsize_pos r
          rw [nsize_matches] at hj hk
          rw [ihj j' (by omega) k' (Node.MatchesNode l r)
            (by rw [nsize_matches]; omega) (by rw [nsize_matches]; omega)]
        | ArrayNode ns =>
          simp only [foldNotF, hop, if_true]
          rw [nsize_array] at hj hk
          rw [ihj j' (by omega) k' (Node.ArrayNode ns)
            (by rw [nsize_array]; omega) (by rw [nsize_array]; omega)]
        | FunctionNode nm args =>
          simp only [foldNotF, hop, if_true]
          rw [nsize_function] at hj hk
          rw [ihj j' (by omega) k' (Node.FunctionNode nm args)
            (by rw [nsize_function]; omega) (by rw [nsize_function]; omega)]
        | ConditionalNode c t e =>
          simp only [foldNotF, hop, if_true]
          have h1 := nsize_pos c
          have h2 := nsize_pos t
          have h3 := nsize_pos e
          rw [nsize_conditional] at hj hk
          rw [ihj j' (by omega) k' (Node.ConditionalNode c t e)
            (by rw [nsize_conditional]; omega) (by rw [nsize_conditional]; omega)]
      · have hx : (op == "not" || op == "!") = false := by simpa using hop
        rw [nsize_unary, hx] at hj hk
        simp only [Bool.false_eq_true, if_false] at hj hk
        simp only [foldNotF, hx, Bool.false_eq_true, if_false]
        rw [ihj j' (by omega) k' t (by omega) (by omega)]
    | NilNode => rfl
    | IdentifierNode v => rfl
    | IntegerNode v => rfl
    | FloatNode v => rfl
    | BoolNode v => rfl
    | StringNode v => rfl
    | BinaryNode op l r =>
      simp only [foldNotF]
      rw [nsize_binary] at hj hk
      exact walkChildren_congrOn _ _ _ (fun c hc => by
        have h1 := nsize_child_lt (.BinaryNode op l r) c hc
        rw [nsize_binary] at h1
        exact ihj j' (by omega) k' c (by omega) (by omega))
    | MatchesNode l r =>
      simp only [foldNotF]
      rw [nsize_matches] at hj hk
      exact walkChildren_congrOn _ _ _ (fun c hc => by
        have h1 := nsize_child_lt (.MatchesNode l r) c hc
        rw [nsize_matches] at h1
        exact ihj j' (by omega) k' c (by omega) (by omega))
    | ArrayNode ns =>
      simp only [foldNotF]
      rw [nsize_array] at hj hk
      exact walkChildren_congrOn _ _ _ (fun c hc => by
        have h1 := nsize_child_lt (.ArrayNode ns) c hc
        rw [nsize_array] at h1
        exact ihj j' (by omega) k' c (by omega) (by omega))
    | FunctionNode nm args =>
      simp only [foldNotF]
      rw [nsize_function] at hj hk
      exact walkChildren_congrOn _ _ _ (fun c hc => by
        have h1 := nsize_child_lt (.FunctionNode nm args) c hc
        rw [nsize_function] at h1
        exact ihj j' (by omega) k' c (by omega) (by omega))
    | ConditionalNode c t e =>
      simp only [foldNotF]
      rw [nsize_conditional] at hj hk
      exact walkChildren_congrOn _ _ _ (fun c2 hc => by
        have h1 := nsize_child_lt (.ConditionalNode c t e) c2 hc
        rw [nsize_conditional] at h1
        exact ihj j' (by omega) k' c2 (by omega) (by omega))

/-- One Enter step of the normalizer on a dual-operator operand, stated with
symbolic fuel so the recursive occurrences stay folded. -/
theorem foldNotF_dual_step (k : Nat) (nop bop d : String) (l r : Node)
    (hb : (nop == "not" || nop == "!") = true) (hdual : operatorPairs bop = some d) :
    foldNotF (k + 1) (.UnaryNode nop (.BinaryNode bop l r)) =
      if (bop == "and" || bop == "&&" || bop == "or" || bop == "||") = true then
        .BinaryNode d (foldNotF k (.UnaryNode nop l)) (foldNotF k (.UnaryNode nop r))
      else .BinaryNode d (foldNotF k l) (foldNotF k r) := by
  simp only [foldNotF, hb, hdual, if_true]

/-- C5: the negation normalizer, on a `not`/`!` node whose operand is a
binary node with a registered dual, replaces the node with the operand under
the dual operator; for the logical connectives both children are first
wrapped in their own unary-not (each then normalized further by the
continuing walk, hence the recursive occurrences), while comparison and
membership operators are swapped directly with their children left
untouched apart from their own normalization. -/
theorem C5_negation_duality (nop bop d : String) (l r : Node)
    (hnop : nop = "not" ∨ nop = "!") (hdual : operatorPairs bop = some d) :
    distributeAndFoldNot (.UnaryNode nop (.BinaryNode bop l r)) =
      if bop = "and" ∨ bop = "&&" ∨ bop = "or" ∨ bop = "||" then
        .BinaryNode d (distributeAndFoldNot (.UnaryNode nop l))
          (distributeAndFoldNot (.UnaryNode nop r))
      else .BinaryNode d (distributeAndFoldNot l) (distributeAndFoldNot r) := by
  have hb : (nop == "not" || nop == "!") = true := by rcases hnop with h | h <;> simp [h]
  have hpl := nsize_pos l
  have hpr := nsize_pos r
  have hsz : nsize (.UnaryNode nop (.BinaryNode bop l r)) =
      2 * (nsize l + nsize r + 1) := by
    rw [nsize_unary, hb]
    simp only [if_true]
    rw [nsize_binary]
  have key := foldNotF_dual_step (2 * (nsize l + nsize r + 1) - 1) nop bop d l r hb hdual
  have hfix : (2 * (nsize l + nsize r + 1) - 1) + 1 = 2 * (nsize l + nsize r + 1) := by
    omega
  rw [hfix] at key
  have e1 : foldNotF (2 * (nsize l + nsize r + 1) - 1) (.UnaryNode nop l) =
      distributeAndFoldNot (.UnaryNode nop l) := by
    rw [distributeAndFoldNot]
    apply foldNotF_fuel
    · rw [nsize_unary, hb]; simp only [if_true]; omega
    · exact le_refl _
  have e2 : foldNotF (2 * (nsize l + nsize r + 1) - 1) (.UnaryNode nop r) =
      distributeAndFoldNot (.UnaryNode nop r) := by
    rw [distributeAndFoldNot]
    apply foldNotF_fuel
    · rw [nsize_unary, hb]; simp only [if_true]; omega
    · exact le_refl _
  have e3 : foldNotF (2 * (nsize l + nsize r + 1) - 1) l = distributeAndFoldNot l := by
    rw [distributeAndFoldNot]
    exact foldNotF_fuel _ _ l (by omega) (le_refl _)
  have e4 : foldNotF (2 * (nsize l + nsize r + 1) - 1) r = distributeAndFoldNot r := by
    rw [distributeAndFoldNot]
    exact foldNotF_fuel _ _ r (by omega) (le_refl _)
  conv_lhs => rw [distributeAndFoldNot, hsz]
  rw [key]
  by_cases hlog : (bop == "and" || bop == "&&" || bop == "or" || bop == "||") = true
  · have hcond : bop = "and" ∨ bop = "&&" ∨ bop = "or" ∨ bop = "||" := by
      simp only [Bool.or_eq_true, beq_iff_eq] at hlog
      tauto
    rw [if_pos hlog, if_pos hcond, e1, e2]
  · have hcond : ¬(bop = "and" ∨ bop = "&&" ∨ bop = "or" ∨ bop = "||") := by
      simp only [Bool.or_eq_true, beq_iff_eq] at hlog
      tauto
    rw [if_neg hlog, if_neg hcond, e3, e4]

/-- C5 witness: `not (a and b)` normalizes to `(not a) or (not b)` (De
Morgan), and `! (a >= 3)` is swapped directly to `a < 3`. -/
theorem C5_negation_duality_witness :
    distributeAndFoldNot (.UnaryNode "not"
        (.BinaryNode "and" (.IdentifierNode "a") (.IdentifierNode "b"))) =
      .BinaryNode "or" (.UnaryNode "not" (.IdentifierNode "a"))
        (.UnaryNode "not" (.IdentifierNode "b")) ∧
    distributeAndFoldNot (.UnaryNode "!"
        (.BinaryNode ">=" (.IdentifierNode "a") (.IntegerNode 3))) =
      .BinaryNode "<" (.IdentifierNode "a") (.IntegerNode 3) := by
  constructor
  · rw [C5_negation_duality "not" "and" "or" (.IdentifierNode "a") (.IdentifierNode "b")
      (Or.inl rfl) rfl]
    rw [if_pos (Or.inl rfl)]
    rfl
  · rw [C5_negation_duality "!" ">=" "<" (.IdentifierNode "a") (.IntegerNode 3)
      (Or.inr rfl) rfl]
    rw [if_neg (by simp)]
    rfl

/-- `dnf.Enter` at positive depth just descends. -/
theorem dnfEnter_pos (n : Node) (d : Nat) (h : 0 < d) : dnfEnter n d = d + 1 := by
  unfold dnfEnter
  rw [if_pos h]

/-- `dnf.Enter` at depth zero keeps depth zero on an `and`/`or` connective. -/
theorem dnfEnter_zero_andor (n : Node) (h : (isBinaryAnd n || isBinaryOr n) = true) :
    dnfEnter n 0 = 0 := by
  unfold dnfEnter
  rw [if_neg (by omega), if_pos h]

/-- `dnf.Enter` at depth zero starts a nested subtree on any other node. -/
theorem dnfEnter_zero_other (n : Node) (h : (isBinaryAnd n || isBinaryOr n) = false) :
    dnfEnter n 0 = 1 := by
  unfold dnfEnter
  rw [if_neg (by omega), if_neg (by simp [h])]

/-- `dnf.Exit` at positive depth steps back out without patching. -/
theorem dnfExit_pos (n : Node) (d : Nat) (a : Bool) (h : 0 < d) :
    dnfExit n d a = (n, d - 1, a) := by
  unfold dnfExit
  rw [if_pos h]

/-- `dnf.Exit` at depth zero leaves any non-conjunction node alone. -/
theorem dnfExit_zero_notand (n : Node) (a : Bool) (h : isBinaryAnd n = false) :
    dnfExit n 0 a = (n, 0, a) := by
  unfold dnfExit
  rw [if_neg (by omega)]
  cases n with
  | BinaryNode op l r =>
    simp only [isBinaryAnd] at h
    simp only [h, Bool.false_eq_true, if_false]
  | NilNode => rfl
  | IdentifierNode v => rfl
  | IntegerNode v => rfl
  | FloatNode v => rfl
  | BoolNode v => rfl
  | StringNode v => rfl
  | UnaryNode op t => rfl
  | MatchesNode l r => rfl
  | ArrayNode ns => rfl
  | FunctionNode nm args => rfl
  | ConditionalNode c t e => rfl

/-- `dnf.Exit` at depth zero on a conjunction whose left child is a
disjunction applies the distributive law and records the rewrite. -/
theorem dnfExit_fire_left (aop oop : String) (B C D : Node) (a : Bool)
    (haop : (aop == "and" || aop == "&&") = true)
    (hoop : (oop == "or" || oop == "||") = true) :
    dnfExit (.BinaryNode aop (.BinaryNode oop B C) D) 0 a =
      (.BinaryNode oop (.BinaryNode aop B D) (.BinaryNode aop C D), 0, true) := by
  unfold dnfExit
  rw [if_neg (by omega)]
  simp only [haop, hoop, if_true]

/-- `dnf.Exit` at depth zero on a conjunction whose left child is not a
disjunction but whose right child is applies the symmetric distribution. -/
theorem dnfExit_fire_right (aop oop : String) (B C D : Node) (a : Bool)
    (haop : (aop == "and" || aop == "&&") = true)
    (hnb : isBinaryOr B = false)
    (hoop : (oop == "or" || oop == "||") = true) :
    dnfExit (.BinaryNode aop B (.BinaryNode oop C D)) 0 a =
      (.BinaryNode oop (.BinaryNode aop B C) (.BinaryNode aop B D), 0, true) := by
  unfold dnfExit
  rw [if_neg (by omega)]
  cases B with
  | BinaryNode lop ll lr =>
    simp only [isBinaryOr] at hnb
    simp only [haop, hnb, hoop, if_true, Bool.false_eq_true, if_false]
  | NilNode => simp only [haop, hoop, if_true]
  | IdentifierNode v => simp only [haop, hoop, if_true]
  | IntegerNode v => simp only [haop, hoop, if_true]
  | FloatNode v => simp only [haop, hoop, if_true]
  | BoolNode v => simp only [haop, hoop, if_true]
  | StringNode v => simp only [haop, hoop, if_true]
  | UnaryNode op t => simp only [haop, hoop, if_true]
  | MatchesNode l r => simp only [haop, hoop, if_true]
  | ArrayNode ns => simp only [haop, hoop, if_true]
  | FunctionNode nm args => simp only [haop, hoop, if_true]
  | ConditionalNode c t e => simp only [haop, hoop, if_true]

/-- `dnf.Exit` at depth zero on a conjunction with no disjunction child
leaves the node and the applied flag unchanged. -/
theorem dnfExit_zero_and_nofire (aop : String) (B D : Node) (a : Bool)
    (haop : (aop == "and" || aop == "&&") = true)
    (hnb : isBinaryOr B = false) (hnd : isBinaryOr D = false) :
    dnfExit (.BinaryNode aop B D) 0 a = (.BinaryNode aop B D, 0, a) := by
  unfold dnfExit
  rw [if_neg (by omega)]
  cases B with
  | BinaryNode lop ll lr =>
    simp only [isBinaryOr] at hnb
    cases D with
    | BinaryNode rop rl rr =>
      simp only [isBinaryOr] at hnd
      simp only [haop, hnb, hnd, if_true, Bool.false_eq_true, if_false]
    | NilNode => simp only [haop, hnb, if_true, Bool.false_eq_true, if_false]
    | IdentifierNode v => simp only [haop, hnb, if_true, Bool.false_eq_true, if_false]
    | IntegerNode v => simp only [haop, hnb, if_true, Bool.false_eq_true, if_false]
    | FloatNode v => simp only [haop, hnb, if_true, Bool.false_eq_true, if_false]
    | BoolNode v => simp only [haop, hnb, if_true, Bool.false_eq_true, if_false]
    | StringNode v => simp only [haop, hnb, if_true, Bool.false_eq_true, if_false]
    | UnaryNode op t => simp only [haop, hnb, if_true, Bool.false_eq_true, if_false]
    | MatchesNode l r => simp only [haop, hnb, if_true, Bool.false_eq_true, if_false]
    | ArrayNode ns => simp only [haop, hnb, if_true, Bool.false_eq_true, if_false]
    | FunctionNode nm args => simp only [haop, hnb, if_true, Bool.false_eq_true, if_false]
    | ConditionalNode c t e => simp only [haop, hnb, if_true, Bool.false_eq_true, if_false]
  | _ =>
    cases D with
    | BinaryNode rop rl rr =>
      simp only [isBinaryOr] at hnd
      simp only [haop, hnd, if_true, Bool.false_eq_true, if_false]
    | _ => simp only [haop, if_true]

/-- At positive depth the DNF round never rewrites: a whole subtree entered
at depth > 0 comes back unchanged, with depth and flag restored. -/
theorem dnfWalk_pos_all :
    (∀ n : Node, ∀ (d : Nat) (a : Bool), 0 < d → dnfWalk n d a = (n, d, a)) ∧
    (∀ ns : List Node, ∀ (d : Nat) (a : Bool), 0 < d → dnfWalkList ns d a = (ns, d, a)) := by
  have leaf : ∀ n : Node, (∀ (d : Nat) (a : Bool), dnfWalk n d a = dnfExit n (dnfEnter n d) a) →
      ∀ (d : Nat) (a : Bool), 0 < d → dnfWalk n d a = (n, d, a) := by
    intro n hn d a h
    rw [hn, dnfEnter_pos _ _ h, dnfExit_pos _ _ _ (by omega), Nat.add_sub_cancel]
  refine Node.mutualInduction _ _ (leaf _ fun _ _ => rfl) (fun v => leaf _ fun _ _ => rfl)
    (fun v => leaf _ fun _ _ => rfl) (fun v => leaf _ fun _ _ => rfl)
    (fun v => leaf _ fun _ _ => rfl) (fun v => leaf _ fun _ _ => rfl)
    ?hU ?hB ?hM ?hA ?hF ?hC ?hnil ?hcons
  case hnil => intro d a h; rfl
  case hcons =>
    intro n ns ihn ihns d a h
    show (match dnfWalk n d a with
      | (n2, d2, a2) =>
        match dnfWalkList ns d2 a2 with
        | (rest2, d3, a3) => (n2 :: rest2, d3, a3)) = (n :: ns, d, a)
    simp only [ihn d a h, ihns d a h]
  case hU =>
    intro op t iht d a h
    show (match dnfWalk t (dnfEnter (.UnaryNode op t) d) a with
      | (t2, d2, a2) => dnfExit (.UnaryNode op t2) d2 a2) = (.UnaryNode op t, d, a)
    rw [dnfEnter_pos _ _ h]
    simp only [iht (d + 1) a (by omega), dnfExit_pos _ _ _ (by omega : 0 < d + 1),
      Nat.add_sub_cancel]
  case hB =>
    intro op l r ihl ihr d a h
    show (match dnfWalk l (dnfEnter (.BinaryNode op l r) d) a with
      | (l2, d2, a2) =>
        match dnfWalk r d2 a2 with
        | (r2, d3, a3) => dnfExit (.BinaryNode op l2 r2) d3 a3) = (.BinaryNode op l r, d, a)
    rw [dnfEnter_pos _ _ h]
    simp only [ihl (d + 1) a (by omega), ihr (d + 1) a (by omega),
      dnfExit_pos _ _ _ (by omega : 0 < d + 1), Nat.add_sub_cancel]
  case hM =>
    intro l r ihl ihr d a h
    show (match dnfWalk l (dnfEnter (.MatchesNode l r) d) a with
      | (l2, d2, a2) =>
        match dnfWalk r d2 a2 with
        | (r2, d3, a3) => dnfExit (.MatchesNode l2 r2) d3 a3) = (.MatchesNode l r, d, a)
    rw [dnfEnter_pos _ _ h]
    simp only [ihl (d + 1) a (by omega), ihr (d + 1) a (by omega),
      dnfExit_pos _ _ _ (by omega : 0 < d + 1), Nat.add_sub_cancel]
  case hA =>
    intro ns ihns d a h
    show (match dnfWalkList ns (dnfEnter (.ArrayNode ns) d) a with
      | (ns2, d2, a2) => dnfExit (.ArrayNode ns2) d2 a2) = (.ArrayNode ns, d, a)
    rw [dnfEnter_pos _ _ h]
    simp only [ihns (d + 1) a (by omega), dnfExit_pos _ _ _ (by omega : 0 < d + 1),
      Nat.add_sub_cancel]
  case hF =>
    intro nm args ihargs d a h
    show (match dnfWalkList args (dnfEnter (.FunctionNode nm args) d) a with
      | (args2, d2, a2) => dnfExit (.FunctionNode nm args2) d2 a2) =
      (.FunctionNode nm args, d, a)
    rw [dnfEnter_pos _ _ h]
    simp only [ihargs (d + 1) a (by omega), dnfExit_pos _ _ _ (by omega : 0 < d + 1),
      Nat.add_sub_cancel]
  case hC =>
    intro c t e ihc iht ihe d a h
    show (match dnfWalk c (dnfEnter (.ConditionalNode c t e) d) a with
      | (c2, d2, a2) =>
        match dnfWalk t d2 a2 with
        | (t2, d3, a3) =>
          match dnfWalk e d3 a3 with
          | (e2, d4, a4) => dnfExit (.ConditionalNode c2 t2 e2) d4 a4) =
      (.ConditionalNode c t e, d, a)
    rw [dnfEnter_pos _ _ h]
    simp only [ihc (d + 1) a (by omega), iht (d + 1) a (by omega), ihe (d + 1) a (by omega),
      dnfExit_pos _ _ _ (by omega : 0 < d + 1), Nat.add_sub_cancel]

/-- A depth-zero `or` connective walks to itself once its children do. -/
theorem dnfWalk_or_fix (oop : String) (B C : Node) (a : Bool)
    (hoop : (oop == "or" || oop == "||") = true)
    (hB : ∀ b, dnfWalk B 0 b = (B, 0, b)) (hC : ∀ b, dnfWalk C 0 b = (C, 0, b)) :
    dnfWalk (.BinaryNode oop B C) 0 a = (.BinaryNode oop B C, 0, a) := by
  show (match dnfWalk B (dnfEnter (.BinaryNode oop B C) 0) a with
    | (l2, d2, a2) =>
      match dnfWalk C d2 a2 with
      | (r2, d3, a3) => dnfExit (.BinaryNode oop l2 r2) d3 a3) = _
  rw [dnfEnter_zero_andor _ (by simp [isBinaryAnd, isBinaryOr, hoop])]
  simp only [hB a, hC a]
  refine dnfExit_zero_notand _ _ ?_
  rcases (by simpa using hoop : oop = "or" ∨ oop = "||") with h | h <;> subst h <;> rfl

/-- C6: during a DNF round the distributive rewrite fires exactly on exiting
a depth-zero conjunction with a disjunction child — (1) at positive depth a
subtree is returned untouched; (2) a depth-zero conjunction with a
disjunction on the left becomes `(B and D) or (C and D)` with the applied
flag set; (3) symmetrically for a disjunction on the right; (4) a depth-zero
conjunction with no disjunction child exits unchanged; (5) a depth-zero
non-conjunction exits unchanged. -/
theorem C6_distributive_fire :
    (∀ (n : Node) (d : Nat) (a : Bool), 0 < d → dnfWalk n d a = (n, d, a)) ∧
    (∀ (aop oop : String) (B C D : Node) (a : Bool),
      (aop == "and" || aop == "&&") = true → (oop == "or" || oop == "||") = true →
      (∀ b, dnfWalk B 0 b = (B, 0, b)) → (∀ b, dnfWalk C 0 b = (C, 0, b)) →
      (∀ b, dnfWalk D 0 b = (D, 0, b)) →
      dnfWalk (.BinaryNode aop (.BinaryNode oop B C) D) 0 a =
        (.BinaryNode oop (.BinaryNode aop B D) (.BinaryNode aop C D), 0, true)) ∧
    (∀ (aop oop : String) (B C D : Node) (a : Bool),
      (aop == "and" || aop == "&&") = true → (oop == "or" || oop == "||") = true →
      isBinaryOr B = false →
      (∀ b, dnfWalk B 0 b = (B, 0, b)) → (∀ b, dnfWalk C 0 b = (C, 0, b)) →
      (∀ b, dnfWalk D 0 b = (D, 0, b)) →
      dnfWalk (.BinaryNode aop B (.BinaryNode oop C D)) 0 a =
        (.BinaryNode oop (.BinaryNode aop B C) (.BinaryNode aop B D), 0, true)) ∧
    (∀ (aop : String) (B D : Node) (a : Bool),
      (aop == "and" || aop == "&&") = true → isBinaryOr B = false → isBinaryOr D = false →
      dnfExit (.BinaryNode aop B D) 0 a = (.BinaryNode aop B D, 0, a)) ∧
    (∀ (n : Node) (a : Bool), isBinaryAnd n = false → dnfExit n 0 a = (n, 0, a)) := by
  refine ⟨dnfWalk_pos_all.1, ?fire2, ?fire3, dnfExit_zero_and_nofire, dnfExit_zero_notand⟩
  case fire2 =>
    intro aop oop B C D a haop hoop hB hC hD
    show (match dnfWalk (.BinaryNode oop B C)
        (dnfEnter (.BinaryNode aop (.BinaryNode oop B C) D) 0) a with
      | (l2, d2, a2) =>
        match dnfWalk D d2 a2 with
        | (r2, d3, a3) => dnfExit (.BinaryNode aop l2 r2) d3 a3) = _
    rw [dnfEnter_zero_andor _ (by simp [isBinaryAnd, isBinaryOr, haop])]
    simp only [dnfWalk_or_fix oop B C a hoop hB hC, hD a]
    exact dnfExit_fire_left aop oop B C D a haop hoop
  case fire3 =>
    intro aop oop B C D a haop hoop hnb hB hC hD
    show (match dnfWalk B (dnfEnter (.BinaryNode aop B (.BinaryNode oop C D)) 0) a with
      | (l2, d2, a2) =>
        match dnfWalk (.BinaryNode oop C D) d2 a2 with
        | (r2, d3, a3) => dnfExit (.BinaryNode aop l2 r2) d3 a3) = _
    rw [dnfEnter_zero_andor _ (by simp [isBinaryAnd, isBinaryOr, haop])]
    simp only [hB a, dnfWalk_or_fix oop C D a hoop hC hD]
    exact dnfExit_fire_right aop oop B C D a haop hnb hoop

/-- C6 witness: `(b or c) and d` rewrites in one round to
`(b and d) or (c and d)` with the applied flag set, and at depth 1 the same
node is left untouched. -/
theorem C6_distributive_fire_witness :
    dnfWalk (.BinaryNode "and"
        (.BinaryNode "or" (.IdentifierNode "b") (.IdentifierNode "c"))
        (.IdentifierNode "d")) 0 false =
      (.BinaryNode "or"
        (.BinaryNode "and" (.IdentifierNode "b") (.IdentifierNode "d"))
        (.BinaryNode "and" (.IdentifierNode "c") (.IdentifierNode "d")), 0, true) ∧
    dnfWalk (.BinaryNode "and"
        (.BinaryNode "or" (.IdentifierNode "b") (.IdentifierNode "c"))
        (.IdentifierNode "d")) 1 false =
      (.BinaryNode "and"
        (.BinaryNode "or" (.IdentifierNode "b") (.IdentifierNode "c"))
        (.IdentifierNode "d"), 1, false) := by
  constructor
  · exact C6_distributive_fire.2.1 "and" "or" (.IdentifierNode "b") (.IdentifierNode "c")
      (.IdentifierNode "d") false rfl rfl (fun b => rfl) (fun b => rfl) (fun b => rfl)
  · exact C6_distributive_fire.1 _ 1 false (by omega)

/-- Two strings with the same character data are equal. -/
theorem String.eq_of_data_eq {a b : String} (h : a.data = b.data) : a = b := by
  cases a; cases b; exact congrArg String.mk h

/-- The head of a `dropWhile` result never satisfies the predicate. -/
theorem head_dropWhile_not {α : Type} (p : α → Bool) (l : List α) (x : α)
    (h : (l.dropWhile p).head? = some x) : p x = false := by
  induction l with
  | nil => simp at h
  | cons a as ih =>
    by_cases hp : p a = true
    · rw [List.dropWhile_cons_of_pos hp] at h
      exact ih h
    · rw [List.dropWhile_cons_of_neg hp] at h
      simp only [List.head?_cons, Option.some.injEq] at h
      rw [← h]
      simpa using hp

/-- The data of `trimRightChar` spelled out. -/
theorem trimRightChar_data (s : String) (c : Char) :
    (trimRightChar s c).data = (s.data.reverse.dropWhile (· == c)).reverse := rfl

/-- After trimming `c` from the right, the string does not end with `c`. -/
theorem trimRightChar_getLast (s : String) (c : Char) :
    (trimRightChar s c).data.getLast? ≠ some c := by
  rw [trimRightChar_data, List.getLast?_reverse]
  intro h
  have := head_dropWhile_not _ _ _ h
  simp at this

/-- Trimming a character off a string that does not end with it does
nothing. -/
theorem trimRightChar_of_ne (s : String) (c : Char)
    (h : s.data.getLast? ≠ some c) : trimRightChar s c = s := by
  apply String.eq_of_data_eq
  rw [trimRightChar_data]
  cases hr : s.data.reverse with
  | nil =>
    have : s.data = [] := by simpa using congrArg List.reverse hr
    simp [this]
  | cons x xs =>
    have hx : s.data.getLast? = some x := by
      rw [← List.head?_reverse, hr]
      rfl
    have hne : (x == c) = false := by
      rw [beq_eq_false_iff_ne]
      intro he
      exact h (he ▸ hx)
    rw [List.dropWhile_cons_of_neg (by simp [hne]), ← hr, List.reverse_reverse]

/-- Trimming trailing zeros and then a trailing decimal point from a string
of the form `A.B` (one dot, `A` and `B` dot-free) leaves no trailing dot,
and if a dot survives, no trailing zero either: the fractional part keeps no
trailing zeros. -/
theorem trim_decimal_minimal (A B : List Char) (hA : '.' ∉ A) (hB : '.' ∉ B) :
    (trimRightChar (trimRightChar (String.mk (A ++ '.' :: B)) '0') '.').data.getLast? ≠
      some '.' ∧
    ('.' ∈ (trimRightChar (trimRightChar (String.mk (A ++ '.' :: B)) '0') '.').data →
      (trimRightChar (trimRightChar (String.mk (A ++ '.' :: B)) '0') '.').data.getLast? ≠
        some '0') := by
  refine ⟨trimRightChar_getLast _ _, fun hdot => ?_⟩
  have hrev : (String.mk (A ++ '.' :: B)).data.reverse = B.reverse ++ '.' :: A.reverse := by
    simp
  cases hd : (B.reverse.dropWhile (· == '0')) with
  | nil =>
    have ht1 : (trimRightChar (String.mk (A ++ '.' :: B)) '0').data = A ++ ['.'] := by
      rw [trimRightChar_data, hrev, List.dropWhile_append, hd]
      simp
    have ht2 : (trimRightChar (trimRightChar (String.mk (A ++ '.' :: B)) '0') '.').data =
        (A.reverse.dropWhile (· == '.')).reverse := by
      rw [trimRightChar_data, ht1]
      simp
    rw [ht2] at hdot
    have : '.' ∈ A.reverse := (List.dropWhile_sublist _).subset (by simpa using hdot)
    exact absurd (by simpa using this) hA
  | cons d ds =>
    have hdprop : (d == '0') = false :=
      head_dropWhile_not (fun x => x == '0') B.reverse d (by rw [hd]; rfl)
    have hdmem : d ∈ B := by
      have : d ∈ B.reverse.dropWhile (· == '0') := by rw [hd]; simp
      have := (List.dropWhile_sublist _).subset this
      simpa using this
    have ht1 : (trimRightChar (String.mk (A ++ '.' :: B)) '0').data =
        (A ++ ['.']) ++ (d :: ds).reverse := by
      rw [trimRightChar_data, hrev, List.dropWhile_append, hd]
      simp
    have hlast : (trimRightChar (String.mk (A ++ '.' :: B)) '0').data.getLast? = some d := by
      rw [ht1, List.getLast?_append, List.getLast?_reverse]
      rfl
    have hne : (trimRightChar (String.mk (A ++ '.' :: B)) '0').data.getLast? ≠
        some '.' := by
      rw [hlast]
      intro h
      have : d = '.' := by simpa using h
      exact hB (this ▸ hdmem)
    rw [trimRightChar_of_ne _ _ hne, hlast]
    intro h
    have : d = '0' := by simpa using h
    rw [this] at hdprop
    simp at hdprop

/-- The ten decimal digit characters. -/
@[reducible] def isDigitCh (c : Char) : Prop :=
  c ∈ ['0', '1', '2', '3', '4', '5', '6', '7', '8', '9']

/-- Every character the digit printer emits is a decimal digit (or came from
the accumulator). -/
theorem natDigitsAux_mem (f : Nat) : ∀ (n : Nat) (acc : List Char),
    ∀ c ∈ natDigitsAux f n acc, c ∈ acc ∨ isDigitCh c := by
  induction f with
  | zero => intro n acc c hc; exact Or.inl hc
  | succ f ih =>
    intro n acc c hc
    have hdig : isDigitCh (Char.ofNat (48 + n % 10)) := by
      have h10 : n % 10 < 10 := Nat.mod_lt _ (by omega)
      set m := n % 10 with hm
      interval_cases m <;> decide
    unfold natDigitsAux at hc
    by_cases hn : n < 10
    · rw [if_pos hn] at hc
      rcases List.mem_cons.mp hc with h | h
      · exact Or.inr (h ▸ hdig)
      · exact Or.inl h
    · rw [if_neg hn] at hc
      rcases ih (n / 10) _ c hc with h | h
      · rcases List.mem_cons.mp h with h2 | h2
        · exact Or.inr (h2 ▸ hdig)
        · exact Or.inl h2
      · exact Or.inr h

/-- No decimal point among printed digits. -/
theorem not_dot_mem_natDigits (n : Nat) : '.' ∉ natDigits n := by
  intro h
  rcases natDigitsAux_mem (n + 1) n [] '.' h with h2 | h2
  · cases h2
  · revert h2
    decide

/-- No decimal point in the padded fractional digits. -/
theorem not_dot_mem_padFrac5 (n : Nat) : '.' ∉ padFrac5 (natDigits n) := by
  intro h
  rcases List.mem_append.mp h with h2 | h2
  · have := List.eq_of_mem_replicate h2
    cases this
  · exact not_dot_mem_natDigits n h2

/-- The claim's minimal trailing-zero representation: the number never ends
in a decimal point, and when it still has a decimal point it does not end in
a zero. -/
def minimalDecimal (s : String) : Prop :=
  s.data.getLast? ≠ some '.' ∧ ('.' ∈ s.data → s.data.getLast? ≠ some '0')

/-- `conv.FormatFloat` always produces a minimal trailing-zero decimal. -/
theorem FormatFloat_minimal (val : Rat) : minimalDecimal (FormatFloat val) := by
  have hdata : ((if val < 0 then "-" else "") ++
      natDecimal ((roundHalfEven (|val| * 100000)).toNat / 100000) ++ "." ++
      String.mk (padFrac5 (natDigits ((roundHalfEven (|val| * 100000)).toNat % 100000)))).data
      = ((if val < 0 then "-" else "").data ++
        natDigits ((roundHalfEven (|val| * 100000)).toNat / 100000)) ++
        '.' :: padFrac5 (natDigits ((roundHalfEven (|val| * 100000)).toNat % 100000)) := by
    simp [String.data_append, natDecimal]
  have hval : FormatFloat val = trimRightChar (trimRightChar (String.mk
      (((if val < 0 then "-" else "").data ++
        natDigits ((roundHalfEven (|val| * 100000)).toNat / 100000)) ++
        '.' :: padFrac5 (natDigits ((roundHalfEven (|val| * 100000)).toNat % 100000))))
      '0') '.' := by
    unfold FormatFloat trimRightChar
    dsimp only
    rw [hdata]
  have hA : '.' ∉ ((if val < 0 then "-" else "").data ++
      natDigits ((roundHalfEven (|val| * 100000)).toNat / 100000)) := by
    intro h
    rcases List.mem_append.mp h with h2 | h2
    · revert h2
      split <;> decide
    · exact not_dot_mem_natDigits _ h2
  have hB := not_dot_mem_padFrac5 ((roundHalfEven (|val| * 100000)).toNat % 100000)
  have h := trim_decimal_minimal _ _ hA hB
  rw [hval]
  exact h

/-- The string fold ignores its accumulator up to a prefix. -/
theorem foldl_strAppend_init (l : List String) : ∀ s : String,
    l.foldl (fun r t => r ++ t) s = s ++ l.foldl (fun r t => r ++ t) "" := by
  induction l with
  | nil => intro s; simp [List.foldl_nil]
  | cons x xs ih =>
    intro s
    simp only [List.foldl_cons]
    rw [ih (s ++ x), ih ("" ++ x)]
    simp [String.append_assoc]

/-- `String.join` peels its head. -/
theorem String.join_cons_eq (x : String) (l : List String) :
    String.join (x :: l) = x ++ String.join l := by
  show List.foldl (fun r t => r ++ t) ("" ++ x) l = _
  rw [foldl_strAppend_init l ("" ++ x)]
  simp [String.join]

/-- `String.join` distributes over list append. -/
theorem String.join_append_eq (a b : List String) :
    String.join (a ++ b) = String.join a ++ String.join b := by
  induction a with
  | nil => simp [String.join]
  | cons x xs ih =>
    rw [List.cons_append, String.join_cons_eq, ih, String.join_cons_eq,
      String.append_assoc]

/-- Joining the clause-building fold of `buildQuery` yields one
`way(...)criterion;` block per criterion, in order. -/
theorem join_foldl_clauses (w : String) (crits : List String) : ∀ acc : List String,
    String.join (crits.foldl (fun acc c => acc ++ [w, c, ";"]) acc) =
      String.join acc ++ String.join (crits.map fun c => w ++ c ++ ";") := by
  induction crits with
  | nil => intro acc; simp [String.join]
  | cons c cs ih =>
    intro acc
    simp only [List.foldl_cons, List.map_cons]
    rw [ih (acc ++ [w, c, ";"]), String.join_append_eq, String.join_cons_eq,
      String.join_cons_eq, String.append_assoc]
    show _ = _ ++ List.foldl (fun r s => r ++ s) (_ ++ (_ ++ _)) _
    rw [foldl_strAppend_init]
    simp [String.join, String.append_assoc]

/-- C2: `buildQuery` returns exactly the literal preamble `[out:json];(`,
then for each criterion in order the clause `way(around:radius,lat,lon)`
immediately concatenated with the criterion text and a `;`, then the literal
epilogue `);out tags geom qt;`; the radius and the center coordinates
(converted to degrees by `r * 180 / pi`) are formatted as plain decimal
numbers in minimal trailing-zero representation. -/
theorem C2_wire_format (region : GeoCircle) (t : Node) (crits : List String)
    (h : buildCriteria t = some (Except.ok crits)) :
    buildQuery region t = some (Except.ok ("[out:json];(" ++
      String.join (crits.map fun c => wayClause region ++ c ++ ";") ++
      ");out tags geom qt;")) ∧
    wayClause region = "way(around:" ++ FormatFloat region.Radius ++ "," ++
      FormatFloat (region.Origin.Lat * 180 / mathPi) ++ "," ++
      FormatFloat (region.Origin.Lon * 180 / mathPi) ++ ")" ∧
    minimalDecimal (FormatFloat region.Radius) ∧
    minimalDecimal (FormatFloat (RadiansToDegrees region.Origin.Lat)) ∧
    minimalDecimal (FormatFloat (RadiansToDegrees region.Origin.Lon)) := by
  refine ⟨?_, rfl, FormatFloat_minimal _, FormatFloat_minimal _, FormatFloat_minimal _⟩
  unfold buildQuery
  rw [h]
  dsimp only
  congr 2
  rw [String.join_cons_eq, String.join_append_eq,
    join_foldl_clauses (wayClause region) crits [], String.join_cons_eq]
  simp [String.join, String.append_assoc]

/-- C2 witness: the wire format holds concretely for the two-criteria filter
of the `highway in [...]` example on a 1000 m circle at the origin. -/
theorem C2_wire_format_witness :
    buildCriteria astC1 =
      some (Except.ok ["[highway=\"primary\"]", "[highway=\"secondary\"]"]) ∧
    (buildQuery ⟨⟨0, 0⟩, 1000⟩ astC1 = some (Except.ok ("[out:json];(" ++
      String.join ((["[highway=\"primary\"]", "[highway=\"secondary\"]"] :
          List String).map fun c => wayClause ⟨⟨0, 0⟩, 1000⟩ ++ c ++ ";") ++
      ");out tags geom qt;")) ∧
    wayClause ⟨⟨0, 0⟩, 1000⟩ = "way(around:" ++ FormatFloat (1000 : Rat) ++ "," ++
      FormatFloat ((0 : Rat) * 180 / mathPi) ++ "," ++
      FormatFloat ((0 : Rat) * 180 / mathPi) ++ ")" ∧
    minimalDecimal (FormatFloat (1000 : Rat)) ∧
    minimalDecimal (FormatFloat (RadiansToDegrees (0 : Rat))) ∧
    minimalDecimal (FormatFloat (RadiansToDegrees (0 : Rat)))) :=
  ⟨rfl, C2_wire_format ⟨⟨0, 0⟩, 1000⟩ astC1
    ["[highway=\"primary\"]", "[highway=\"secondary\"]"] rfl⟩

/-- A left-nested tower of `or` connectives over identifiers. -/
def orTower : Nat → Node
  | 0 => .IdentifierNode "x"
  | i + 1 => .BinaryNode "or" (orTower i) (.IdentifierNode "x")

/-- The conjunction of an `or` tower with an identifier: each DNF round
fires exactly one distributive rewrite on it. -/
def andTower (i : Nat) : Node :=
  .BinaryNode "and" (orTower i) (.IdentifierNode "d")

/-- `j` surrounding layers of `... or (x and d)`, the residue the DNF rounds
pile up around the shrinking tower. -/
def orWrap : Nat → Node → Node
  | 0, X => X
  | j + 1, X => .BinaryNode "or" (orWrap j X)
      (.BinaryNode "and" (.IdentifierNode "x") (.IdentifierNode "d"))

/-- An `or` tower walks to itself: no rewrite fires inside it. -/
theorem orTower_fix : ∀ (i : Nat) (b : Bool),
    dnfWalk (orTower i) 0 b = (orTower i, 0, b) := by
  intro i
  induction i with
  | zero => intro b; rfl
  | succ i ih =>
    intro b
    exact dnfWalk_or_fix "or" (orTower i) (.IdentifierNode "x") b rfl ih (fun c => rfl)

/-- The depth-zero conjunction `x and d` of two identifiers walks to itself. -/
theorem and_xd_fix (b : Bool) :
    dnfWalk (.BinaryNode "and" (.IdentifierNode "x") (.IdentifierNode "d")) 0 b =
      (.BinaryNode "and" (.IdentifierNode "x") (.IdentifierNode "d"), 0, b) := rfl

/-- One DNF walk over a positive `and` tower fires exactly the root
distribution, peeling one `or` layer off the tower. -/
theorem andTower_fire (i : Nat) (b : Bool) :
    dnfWalk (andTower (i + 1)) 0 b =
      (.BinaryNode "or" (andTower i)
        (.BinaryNode "and" (.IdentifierNode "x") (.IdentifierNode "d")), 0, true) := by
  show (match dnfWalk (.BinaryNode "or" (orTower i) (.IdentifierNode "x"))
      (dnfEnter (.BinaryNode "and" (.BinaryNode "or" (orTower i) (.IdentifierNode "x"))
        (.IdentifierNode "d")) 0) b with
    | (l2, d2, a2) =>
      match dnfWalk (.IdentifierNode "d") d2 a2 with
      | (r2, d3, a3) => dnfExit (.BinaryNode "and" l2 r2) d3 a3) = _
  rw [dnfEnter_zero_andor (.BinaryNode "and" (.BinaryNode "or" (orTower i)
    (.IdentifierNode "x")) (.IdentifierNode "d")) rfl]
  simp only [dnfWalk_or_fix "or" (orTower i) (.IdentifierNode "x") b rfl
    (orTower_fix i) (fun c => rfl),
    show dnfWalk (.IdentifierNode "d") 0 b = (.IdentifierNode "d", 0, b) from rfl]
  exact dnfExit_fire_left "and" "or" (orTower i) (.IdentifierNode "x")
    (.IdentifierNode "d") b rfl rfl

/-- The `or` residue layers are transparent to a DNF walk: they reproduce
whatever the wrapped subtree walks to. -/
theorem orWrap_walk (j : Nat) : ∀ (X X' : Node) (b b' : Bool),
    dnfWalk X 0 b = (X', 0, b') →
    dnfWalk (orWrap j X) 0 b = (orWrap j X', 0, b') := by
  induction j with
  | zero => intro X X' b b' h; exact h
  | succ j ih =>
    intro X X' b b' h
    show (match dnfWalk (orWrap j X) (dnfEnter (.BinaryNode "or" (orWrap j X)
        (.BinaryNode "and" (.IdentifierNode "x") (.IdentifierNode "d"))) 0) b with
      | (l2, d2, a2) =>
        match dnfWalk (.BinaryNode "and" (.IdentifierNode "x") (.IdentifierNode "d"))
            d2 a2 with
        | (r2, d3, a3) => dnfExit (.BinaryNode "or" l2 r2) d3 a3) = _
    rw [dnfEnter_zero_andor (.BinaryNode "or" (orWrap j X)
      (.BinaryNode "and" (.IdentifierNode "x") (.IdentifierNode "d"))) rfl]
    simp only [ih X X' b b' h, and_xd_fix b']
    exact dnfExit_zero_notand _ _ rfl

/-- Wrapping one more residue layer inside equals one more layer outside. -/
theorem orWrap_succ_comp (j : Nat) (X : Node) :
    orWrap j (orWrap 1 X) = orWrap (j + 1) X := by
  induction j with
  | zero => rfl
  | succ j ih =>
    show Node.BinaryNode "or" (orWrap j (orWrap 1 X))
        (.BinaryNode "and" (.IdentifierNode "x") (.IdentifierNode "d")) =
      Node.BinaryNode "or" (orWrap (j + 1) X)
        (.BinaryNode "and" (.IdentifierNode "x") (.IdentifierNode "d"))
    rw [ih]

/-- A budget of `k ≤ i + 1` rounds on a wrapped `i`-tower is spent in full:
each round fires exactly once until the tower is gone, then one final round
observes no rewrite. -/
theorem toDNFRounds_orWrap_andTower : ∀ (k j i : Nat), k ≤ i + 1 →
    toDNFRounds k (orWrap j (andTower i)) = k := by
  intro k
  induction k with
  | zero => intro j i h; rfl
  | succ k ih =>
    intro j i h
    cases i with
    | zero =>
      have hk : k = 0 := by omega
      subst hk
      have hw : dnfWalk (orWrap j (andTower 0)) 0 false =
          (orWrap j (andTower 0), 0, false) :=
        orWrap_walk j _ _ false false (and_xd_fix false)
      show (match dnfRound (orWrap j (andTower 0)) with
        | (n', a) => if a then 1 + toDNFRounds 0 n' else 1) = 1
      simp only [dnfRound, hw]
      rfl
    | succ i =>
      have hw : dnfWalk (orWrap j (andTower (i + 1))) 0 false =
          (orWrap j (orWrap 1 (andTower i)), 0, true) :=
        orWrap_walk j _ _ false true (andTower_fire i false)
      show (match dnfRound (orWrap j (andTower (i + 1))) with
        | (n', a) => if a then 1 + toDNFRounds k n' else 1) = k + 1
      simp only [dnfRound, hw, orWrap_succ_comp]
      rw [if_pos trivial, ih (j + 1) i (by omega)]
      omega

/-- C7 counterexample: on the conjunction of a 1001-layer `or` tower with an
identifier, the round loop performs 1001 rounds — more than the claimed
fixed cap of 1000 rounds (Go's `for limit := 1000; limit >= 0; limit--` runs
the body for limit = 1000 down to 0 inclusive). -/
theorem C7_counterexample :
    toDNFRounds 1001 (andTower 1001) = 1001 ∧
    1000 < toDNFRounds 1001 (andTower 1001) := by
  have h : toDNFRounds 1001 (andTower 1001) = 1001 :=
    toDNFRounds_orWrap_andTower 1001 0 1001 (by omega)
  exact ⟨h, by omega⟩

/-- C7 (amended): the DNF converter always terminates — `toDNF` runs the
round loop with an inclusive budget of 1001 rounds, the number of rounds
performed never exceeds the budget, and as soon as a round applies no
rewrite the loop stops, returning that round's tree after exactly one more
round than the rewriting ones. -/
theorem C7_termination_cap :
    (∀ n : Node, toDNF n = toDNFLoop 1001 n) ∧
    (∀ (k : Nat) (n : Node), toDNFRounds k n ≤ k) ∧
    (∀ (k : Nat) (n : Node), (dnfRound n).2 = false →
      toDNFLoop (k + 1) n = (dnfRound n).1 ∧ toDNFRounds (k + 1) n = 1) := by
  refine ⟨fun n => rfl, ?_, ?_⟩
  · intro k
    induction k with
    | zero => intro n; exact Nat.le_refl 0
    | succ k ih =>
      intro n
      show (match dnfRound n with
        | (n', a) => if a then 1 + toDNFRounds k n' else 1) ≤ k + 1
      rcases hr : dnfRound n with ⟨n', a⟩
      cases a
      · simp
      · have h2 := ih n'
        calc (if true = true then 1 + toDNFRounds k n' else 1)
            = 1 + toDNFRounds k n' := if_pos rfl
          _ ≤ 1 + k := Nat.add_le_add_left h2 1
          _ = k + 1 := Nat.add_comm 1 k
  · intro k n h
    rcases hr : dnfRound n with ⟨n', a⟩
    rw [hr] at h
    simp only at h
    subst h
    refine ⟨?_, ?_⟩
    · show (match dnfRound n with
        | (m, b) => if b then toDNFLoop k m else m) = (n', false).1
      rw [hr]
      simp
    · show (match dnfRound n with
        | (m, b) => if b then 1 + toDNFRounds k m else 1) = 1
      rw [hr]
      simp

mutual

/-- The supported filter grammar of the claim: identifiers (the expr lexer
never produces an empty one), integer/float/string/boolean literals, and
unary, binary, matches, function-call and conditional nodes over them.
`nil` and bare array literals are outside it. -/
def supportedNode : Node → Bool
  | .IdentifierNode v => !v.data.isEmpty
  | .IntegerNode _ => true
  | .FloatNode _ => true
  | .BoolNode _ => true
  | .StringNode _ => true
  | .UnaryNode _ t => supportedNode t
  | .BinaryNode _ l r => supportedNode l && supportedNode r
  | .MatchesNode l r => supportedNode l && supportedNode r
  | .FunctionNode _ args => supportedList args
  | .ConditionalNode c t e => supportedNode c && supportedNode t && supportedNode e
  | _ => false

/-- `supportedNode` over a node list. -/
def supportedList : List Node → Bool
  | [] => true
  | n :: rest => supportedNode n && supportedList rest

end

/-- `supportedNode` equation: unary nodes. -/
theorem supportedNode_unary (op : String) (t : Node) :
    supportedNode (.UnaryNode op t) = supportedNode t := rfl

/-- `supportedNode` equation: binary nodes. -/
theorem supportedNode_binary (op : String) (l r : Node) :
    supportedNode (.BinaryNode op l r) = (supportedNode l && supportedNode r) := rfl

/-- `supportedNode` equation: matches nodes. -/
theorem supportedNode_matches (l r : Node) :
    supportedNode (.MatchesNode l r) = (supportedNode l && supportedNode r) := rfl

/-- `supportedNode` equation: function-call nodes. -/
theorem supportedNode_function (nm : String) (args : List Node) :
    supportedNode (.FunctionNode nm args) = supportedList args := rfl

/-- `supportedNode` equation: conditional nodes. -/
theorem supportedNode_conditional (c t e : Node) :
    supportedNode (.ConditionalNode c t e) =
      (supportedNode c && supportedNode t && supportedNode e) := rfl

/-- `supportedNode` equation: array literals are unsupported. -/
theorem supportedNode_array (ns : List Node) :
    supportedNode (.ArrayNode ns) = false := rfl

/-- `supportedList` equation: cons. -/
theorem supportedList_cons (n : Node) (ns : List Node) :
    supportedList (n :: ns) = (supportedNode n && supportedList ns) := rfl

/-- A nonempty left part keeps a string append nonempty. -/
theorem data_append_ne_left (a b : String) (h : a.data ≠ []) : (a ++ b).data ≠ [] := by
  rw [String.data_append]
  intro hc
  exact h (List.append_eq_nil.mp hc).1

/-- A nonempty right part keeps a string append nonempty. -/
theorem data_append_ne_right (a b : String) (h : b.data ≠ []) : (a ++ b).data ≠ [] := by
  rw [String.data_append]
  intro hc
  exact h (List.append_eq_nil.mp hc).2

/-- `bangIf` keeps a nonempty fragment nonempty. -/
theorem bangIf_ne (s : String) (b : Bool) (h : s.data ≠ []) : (bangIf s b).data ≠ [] := by
  unfold bangIf
  cases b
  · simpa using h
  · simp only [if_pos]
    exact data_append_ne_right _ _ h

/-- `goQuote` never produces an empty string. -/
theorem goQuote_ne (s : String) : (goQuote s).data ≠ [] := by
  unfold goQuote
  apply data_append_ne_left
  apply data_append_ne_left
  decide

/-- The digit printer never returns an empty list when seeded nonempty. -/
theorem natDigitsAux_ne (f : Nat) : ∀ (n : Nat) (acc : List Char), acc ≠ [] →
    natDigitsAux f n acc ≠ [] := by
  induction f with
  | zero => intro n acc h; exact h
  | succ f ih =>
    intro n acc h
    unfold natDigitsAux
    by_cases hn : n < 10
    · rw [if_pos hn]; exact List.cons_ne_nil _ _
    · rw [if_neg hn]; exact ih (n / 10) _ (List.cons_ne_nil _ _)

/-- A natural number always prints at least one digit. -/
theorem natDigits_ne (n : Nat) : natDigits n ≠ [] := by
  unfold natDigits natDigitsAux
  by_cases hn : n < 10
  · rw [if_pos hn]; exact List.cons_ne_nil _ _
  · rw [if_neg hn]; exact natDigitsAux_ne n (n / 10) _ (List.cons_ne_nil _ _)

/-- `natDecimal` is never empty. -/
theorem natDecimal_ne (n : Nat) : (natDecimal n).data ≠ [] := natDigits_ne n

/-- `intDecimal` is never empty. -/
theorem intDecimal_ne (v : Int) : (intDecimal v).data ≠ [] := by
  unfold intDecimal
  split
  · exact data_append_ne_left _ _ (by decide)
  · exact natDecimal_ne _

/-- The float stand-in printer is never empty. -/
theorem floatSprint_ne (q : Rat) : (floatSprint q).data ≠ [] := by
  unfold floatSprint
  split
  · exact intDecimal_ne _
  · exact data_append_ne_left _ _ (data_append_ne_left _ _ (intDecimal_ne _))

/-- `isWrapped` succeeds on every nonempty string. -/
theorem isWrapped_of_ne (s : String) (h : s.data ≠ []) : ∃ w, isWrapped s = some w := by
  unfold isWrapped
  rcases hd : s.data with _ | ⟨c, cs⟩
  · exact absurd hd h
  · exact ⟨_, rfl⟩

/-- The wrapping loop of `buildCriteria` succeeds on any list of nonempty
criteria. -/
theorem wrapCriteria_total : ∀ l : List String, (∀ s ∈ l, s.data ≠ []) →
    ∃ out, wrapCriteria l = some out := by
  intro l
  induction l with
  | nil => intro h; exact ⟨[], rfl⟩
  | cons c rest ih =>
    intro h
    obtain ⟨w, hw⟩ := isWrapped_of_ne c (h c (List.mem_cons_self c rest))
    obtain ⟨out, hout⟩ := ih (fun s hs => h s (List.mem_cons_of_mem c hs))
    refine ⟨(if w then c else "(if:" ++ c ++ ")") :: out, ?_⟩
    unfold wrapCriteria
    rw [hw, hout]

/-- Mapping a supportedness-preserving function over a supported list keeps
it supported. -/
theorem supportedList_map (f : Node → Node)
    (hf : ∀ m, supportedNode m = true → supportedNode (f m) = true) :
    ∀ ns : List Node, supportedList ns = true → supportedList (ns.map f) = true := by
  intro ns
  induction ns with
  | nil => intro h; rfl
  | cons n rest ih =>
    intro h
    rw [supportedList_cons] at h
    rw [List.map_cons, supportedList_cons, hf n (by simp at h; exact h.1),
      ih (by simp at h; exact h.2)]
    rfl

/-- `walkChildren` with a supportedness-preserving function keeps a
supported node supported. -/
theorem supported_walkChildren (f : Node → Node)
    (hf : ∀ m, supportedNode m = true → supportedNode (f m) = true) :
    ∀ n, supportedNode n = true → supportedNode (walkChildren f n) = true := by
  intro n h
  cases n with
  | UnaryNode op t =>
    rw [supportedNode_unary] at h
    show supportedNode (.UnaryNode op (f t)) = true
    rw [supportedNode_unary]
    exact hf t h
  | BinaryNode op l r =>
    rw [supportedNode_binary] at h
    simp only [Bool.and_eq_true] at h
    show supportedNode (.BinaryNode op (f l) (f r)) = true
    rw [supportedNode_binary, hf l h.1, hf r h.2]
    rfl
  | MatchesNode l r =>
    rw [supportedNode_matches] at h
    simp only [Bool.and_eq_true] at h
    show supportedNode (.MatchesNode (f l) (f r)) = true
    rw [supportedNode_matches, hf l h.1, hf r h.2]
    rfl
  | ArrayNode ns => rw [supportedNode_array] at h; cases h
  | FunctionNode nm args =>
    rw [supportedNode_function] at h
    show supportedNode (.FunctionNode nm (args.map f)) = true
    rw [supportedNode_function]
    exact supportedList_map f hf args h
  | ConditionalNode c t e =>
    rw [supportedNode_conditional] at h
    simp only [Bool.and_eq_true] at h
    show supportedNode (.ConditionalNode (f c) (f t) (f e)) = true
    rw [supportedNode_conditional, hf c h.1.1, hf t h.1.2, hf e h.2]
    rfl
  | NilNode => exact h
  | IdentifierNode v => exact h
  | IntegerNode v => exact h
  | FloatNode v => exact h
  | BoolNode v => exact h
  | StringNode v => exact h

/-- `expandInArray.Exit` is the identity on any binary node whose right-hand
side is not an array literal — in particular whenever the right-hand side is
supported. -/
theorem expandInArrayExit_id (op : String) (l r : Node)
    (h : supportedNode r = true) :
    expandInArrayExit (.BinaryNode op l r) = .BinaryNode op l r := by
  cases r with
  | ArrayNode ns => rw [supportedNode_array] at h; cases h
  | NilNode => simp only [expandInArrayExit]; split <;> rfl
  | IdentifierNode v => simp only [expandInArrayExit]; split <;> rfl
  | IntegerNode v => simp only [expandInArrayExit]; split <;> rfl
  | FloatNode v => simp only [expandInArrayExit]; split <;> rfl
  | BoolNode v => simp only [expandInArrayExit]; split <;> rfl
  | StringNode v => simp only [expandInArrayExit]; split <;> rfl
  | UnaryNode op2 t => simp only [expandInArrayExit]; split <;> rfl
  | BinaryNode op2 l2 r2 => simp only [expandInArrayExit]; split <;> rfl
  | MatchesNode l2 r2 => simp only [expandInArrayExit]; split <;> rfl
  | FunctionNode nm args => simp only [expandInArrayExit]; split <;> rfl
  | ConditionalNode c t e => simp only [expandInArrayExit]; split <;> rfl

/-- The in-array expansion pass is the identity on the array-free supported
grammar: there is no array literal for it to expand. -/
theorem expandInArray_id_supported :
    (∀ n, supportedNode n = true → walkPost expandInArrayExit n = n) ∧
    (∀ ns, supportedList ns = true → walkPostList expandInArrayExit ns = ns) := by
  refine Node.mutualInduction
    (fun n => supportedNode n = true → walkPost expandInArrayExit n = n)
    (fun ns => supportedList ns = true → walkPostList expandInArrayExit ns = ns)
    ?_ ?_ ?_ ?_ ?_ ?_ ?_ ?_ ?_ ?_ ?_ ?_ ?_ ?_
  · intro h; cases h
  · intro v h; rfl
  · intro v h; rfl
  · intro v h; rfl
  · intro v h; rfl
  · intro v h; rfl
  · intro op t ih h
    rw [supportedNode_unary] at h
    show expandInArrayExit (.UnaryNode op (walkPost expandInArrayExit t)) = _
    rw [ih h]
    rfl
  · intro op l r ihl ihr h
    rw [supportedNode_binary] at h
    simp only [Bool.and_eq_true] at h
    show expandInArrayExit (.BinaryNode op (walkPost expandInArrayExit l)
      (walkPost expandInArrayExit r)) = _
    rw [ihl h.1, ihr h.2, expandInArrayExit_id op l r h.2]
  · intro l r ihl ihr h
    rw [supportedNode_matches] at h
    simp only [Bool.and_eq_true] at h
    show expandInArrayExit (.MatchesNode (walkPost expandInArrayExit l)
      (walkPost expandInArrayExit r)) = _
    rw [ihl h.1, ihr h.2]
    rfl
  · intro ns ih h
    rw [supportedNode_array] at h
    cases h
  · intro nm args ih h
    rw [supportedNode_function] at h
    show expandInArrayExit (.FunctionNode nm (walkPostList expandInArrayExit args)) = _
    rw [ih h]
    rfl
  · intro c t e ihc iht ihe h
    rw [supportedNode_conditional] at h
    simp only [Bool.and_eq_true] at h
    show expandInArrayExit (.ConditionalNode (walkPost expandInArrayExit c)
      (walkPost expandInArrayExit t) (walkPost expandInArrayExit e)) = _
    rw [ihc h.1.1, iht h.1.2, ihe h.2]
    rfl
  · intro h; rfl
  · intro n ns ihn ihns h
    rw [supportedList_cons] at h
    simp only [Bool.and_eq_true] at h
    show walkPost expandInArrayExit n :: walkPostList expandInArrayExit ns = _
    rw [ihn h.1, ihns h.2]

/-- `expandInRange.Exit` keeps a supported node supported: the range rewrite
only rearranges the node's own supported subtrees. -/
theorem expandInRangeExit_supported (n : Node) (h : supportedNode n = true) :
    supportedNode (expandInRangeExit n) = true := by
  cases n with
  | BinaryNode op l r =>
    rw [supportedNode_binary] at h
    simp only [Bool.and_eq_true] at h
    cases r with
    | BinaryNode rop lo hi =>
      have hr := h.2
      rw [supportedNode_binary] at hr
      simp only [Bool.and_eq_true] at hr
      simp only [expandInRangeExit]
      by_cases hin : (op == "in" || op == "not in") = true
      · rw [if_pos hin]
        by_cases hrop : (rop == "..") = true
        · rw [if_pos hrop]
          have hbase : supportedNode (if getValueEq lo hi = true
              then Node.BinaryNode "==" l lo
              else Node.BinaryNode "and" (.BinaryNode ">=" l lo)
                (.BinaryNode "<=" l hi)) = true := by
            split
            · rw [supportedNode_binary, h.1, hr.1]; rfl
            · show (supportedNode (.BinaryNode ">=" l lo) &&
                supportedNode (.BinaryNode "<=" l hi)) = true
              rw [supportedNode_binary, supportedNode_binary, h.1, hr.1, hr.2]
              rfl
          show supportedNode (if (op == "not in") = true
            then Node.UnaryNode "not" (if getValueEq lo hi = true
              then Node.BinaryNode "==" l lo
              else Node.BinaryNode "and" (.BinaryNode ">=" l lo)
                (.BinaryNode "<=" l hi))
            else (if getValueEq lo hi = true
              then Node.BinaryNode "==" l lo
              else Node.BinaryNode "and" (.BinaryNode ">=" l lo)
                (.BinaryNode "<=" l hi))) = true
          split
          · rw [supportedNode_unary]
            exact hbase
          · exact hbase
        · rw [if_neg hrop]
          show (supportedNode l && supportedNode (.BinaryNode rop lo hi)) = true
          rw [h.1, h.2]
          rfl
      · rw [if_neg hin]
        show (supportedNode l && supportedNode (.BinaryNode rop lo hi)) = true
        rw [h.1, h.2]
        rfl
    | NilNode => simp only [expandInRangeExit]
                 split <;> (show (supportedNode l && supportedNode Node.NilNode) = true
                            rw [h.1, h.2]; rfl)
    | IdentifierNode v =>
        simp only [expandInRangeExit]
        split <;> (show (supportedNode l && supportedNode (Node.IdentifierNode v)) = true
                   rw [h.1, h.2]; rfl)
    | IntegerNode v =>
        simp only [expandInRangeExit]
        split <;> (show (supportedNode l && supportedNode (Node.IntegerNode v)) = true
                   rw [h.1, h.2]; rfl)
    | FloatNode v =>
        simp only [expandInRangeExit]
        split <;> (show (supportedNode l && supportedNode (Node.FloatNode v)) = true
                   rw [h.1, h.2]; rfl)
    | BoolNode v =>
        simp only [expandInRangeExit]
        split <;> (show (supportedNode l && supportedNode (Node.BoolNode v)) = true
                   rw [h.1, h.2]; rfl)
    | StringNode v =>
        simp only [expandInRangeExit]
        split <;> (show (supportedNode l && supportedNode (Node.StringNode v)) = true
                   rw [h.1, h.2]; rfl)
    | UnaryNode op2 t =>
        simp only [expandInRangeExit]
        split <;> (show (supportedNode l && supportedNode (Node.UnaryNode op2 t)) = true
                   rw [h.1, h.2]; rfl)
    | MatchesNode l2 r2 =>
        simp only [expandInRangeExit]
        split <;> (show (supportedNode l && supportedNode (Node.MatchesNode l2 r2)) = true
                   rw [h.1, h.2]; rfl)
    | ArrayNode ns =>
        simp only [expandInRangeExit]
        split <;> (show (supportedNode l && supportedNode (Node.ArrayNode ns)) = true
                   rw [h.1, h.2]; rfl)
    | FunctionNode nm args =>
        simp only [expandInRangeExit]
        split <;> (show (supportedNode l &&
                     supportedNode (Node.FunctionNode nm args)) = true
                   rw [h.1, h.2]; rfl)
    | ConditionalNode c t e =>
        simp only [expandInRangeExit]
        split <;> (show (supportedNode l &&
                     supportedNode (Node.ConditionalNode c t e)) = true
                   rw [h.1, h.2]; rfl)
  | NilNode => exact h
  | IdentifierNode v => exact h
  | IntegerNode v => exact h
  | FloatNode v => exact h
  | BoolNode v => exact h
  | StringNode v => exact h
  | UnaryNode op t => exact h
  | MatchesNode l r => exact h
  | ArrayNode ns => exact h
  | FunctionNode nm args => exact h
  | ConditionalNode c t e => exact h

/-- A post-order walk with a supportedness-preserving exit keeps a supported
node supported. -/
theorem walkPost_supported (f : Node → Node)
    (hf : ∀ m, supportedNode m = true → supportedNode (f m) = true) :
    (∀ n, supportedNode n = true → supportedNode (walkPost f n) = true) ∧
    (∀ ns, supportedList ns = true → supportedList (walkPostList f ns) = true) := by
  refine Node.mutualInduction
    (fun n => supportedNode n = true → supportedNode (walkPost f n) = true)
    (fun ns => supportedList ns = true → supportedList (walkPostList f ns) = true)
    ?_ ?_ ?_ ?_ ?_ ?_ ?_ ?_ ?_ ?_ ?_ ?_ ?_ ?_
  · intro h; cases h
  · intro v h; exact hf _ h
  · intro v h; exact hf _ h
  · intro v h; exact hf _ h
  · intro v h; exact hf _ h
  · intro v h; exact hf _ h
  · intro op t ih h
    rw [supportedNode_unary] at h
    show supportedNode (f (.UnaryNode op (walkPost f t))) = true
    exact hf _ (by rw [supportedNode_unary]; exact ih h)
  · intro op l r ihl ihr h
    rw [supportedNode_binary] at h
    simp only [Bool.and_eq_true] at h
    show supportedNode (f (.BinaryNode op (walkPost f l) (walkPost f r))) = true
    exact hf _ (by rw [supportedNode_binary, ihl h.1, ihr h.2]; rfl)
  · intro l r ihl ihr h
    rw [supportedNode_matches] at h
    simp only [Bool.and_eq_true] at h
    show supportedNode (f (.MatchesNode (walkPost f l) (walkPost f r))) = true
    exact hf _ (by rw [supportedNode_matches, ihl h.1, ihr h.2]; rfl)
  · intro ns ih h
    rw [supportedNode_array] at h
    cases h
  · intro nm args ih h
    rw [supportedNode_function] at h
    show supportedNode (f (.FunctionNode nm (walkPostList f args))) = true
    exact hf _ (by rw [supportedNode_function]; exact ih h)
  · intro c t e ihc iht ihe h
    rw [supportedNode_conditional] at h
    simp only [Bool.and_eq_true] at h
    show supportedNode (f (.ConditionalNode (walkPost f c) (walkPost f t)
      (walkPost f e))) = true
    exact hf _ (by rw [supportedNode_conditional, ihc h.1.1, iht h.1.2, ihe h.2]; rfl)
  · intro h; rfl
  · intro n ns ihn ihns h
    rw [supportedList_cons] at h
    simp only [Bool.and_eq_true] at h
    show supportedList (walkPost f n :: walkPostList f ns) = true
    rw [supportedList_cons, ihn h.1, ihns h.2]
    rfl

/-- The negation normalizer keeps a supported node supported: it only swaps
operators, wraps children in fresh `not` nodes and flips boolean literals. -/
theorem foldNotF_supported : ∀ (k : Nat) (n : Node), supportedNode n = true →
    supportedNode (foldNotF k n) = true := by
  intro k
  induction k with
  | zero => intro n h; exact h
  | succ k ih =>
    intro n h
    have hwc : ∀ m : Node, supportedNode m = true →
        supportedNode (walkChildren (foldNotF k) m) = true :=
      supported_walkChildren _ (fun c hc => ih c hc)
    cases n with
    | UnaryNode op t =>
      rw [supportedNode_unary] at h
      by_cases hop : (op == "not" || op == "!") = true
      · cases t with
        | BinaryNode bop l r =>
          have hlr := h
          rw [supportedNode_binary] at hlr
          simp only [Bool.and_eq_true] at hlr
          cases hdual : operatorPairs bop with
          | none =>
            simp only [foldNotF, hop, hdual, if_true]
            rw [supportedNode_unary]
            exact ih _ h
          | some d =>
            simp only [foldNotF, hop, hdual, if_true]
            by_cases hlog : (bop == "and" || bop == "&&" || bop == "or" || bop == "||") = true
            · rw [if_pos hlog]
              rw [supportedNode_binary,
                ih (.UnaryNode op l) (by rw [supportedNode_unary]; exact hlr.1),
                ih (.UnaryNode op r) (by rw [supportedNode_unary]; exact hlr.2)]
              rfl
            · rw [if_neg hlog]
              rw [supportedNode_binary, ih l hlr.1, ih r hlr.2]
              rfl
        | UnaryNode op2 t2 =>
          have ht2 := h
          rw [supportedNode_unary] at ht2
          by_cases hop2 : (op2 == "not" || op2 == "!") = true
          · simp only [foldNotF, hop, hop2, if_true]
            exact hwc _ (ih t2 ht2)
          · have hop2f : (op2 == "not" || op2 == "!") = false := by simpa using hop2
            simp only [foldNotF, hop, hop2f, if_true, Bool.false_eq_true, if_false]
            rw [supportedNode_unary]
            exact ih _ h
        | BoolNode b =>
          simp only [foldNotF, hop, if_true]
          rfl
        | NilNode =>
          simp only [foldNotF, hop, if_true]
          rw [supportedNode_unary]
          exact ih _ h
        | IdentifierNode v =>
          simp only [foldNotF, hop, if_true]
          rw [supportedNode_unary]
          exact ih _ h
        | IntegerNode v =>
          simp only [foldNotF, hop, if_true]
          rw [supportedNode_unary]
          exact ih _ h
        | FloatNode v =>
          simp only [foldNotF, hop, if_true]
          rw [supportedNode_unary]
          exact ih _ h
        | StringNode v =>
          simp only [foldNotF, hop, if_true]
          rw [supportedNode_unary]
          exact ih _ h
        | MatchesNode l r =>
          simp only [foldNotF, hop, if_true]
          rw [supportedNode_unary]
          exact ih _ h
        | ArrayNode ns =>
          simp only [foldNotF, hop, if_true]
          rw [supportedNode_unary]
          exact ih _ h
        | FunctionNode nm args =>
          simp only [foldNotF, hop, if_true]
          rw [supportedNode_unary]
          exact ih _ h
        | ConditionalNode c t2 e =>
          simp only [foldNotF, hop, if_true]
          rw [supportedNode_unary]
          exact ih _ h
      · have hopf : (op == "not" || op == "!") = false := by simpa using hop
        simp only [foldNotF, hopf, Bool.false_eq_true, if_false]
        rw [supportedNode_unary]
        exact ih _ h
    | NilNode => simp only [foldNotF]; exact hwc _ h
    | IdentifierNode v => simp only [foldNotF]; exact hwc _ h
    | IntegerNode v => simp only [foldNotF]; exact hwc _ h
    | FloatNode v => simp only [foldNotF]; exact hwc _ h
    | BoolNode v => simp only [foldNotF]; exact hwc _ h
    | StringNode v => simp only [foldNotF]; exact hwc _ h
    | BinaryNode op l r => simp only [foldNotF]; exact hwc _ h
    | MatchesNode l r => simp only [foldNotF]; exact hwc _ h
    | ArrayNode ns => simp only [foldNotF]; exact hwc _ h
    | FunctionNode nm args => simp only [foldNotF]; exact hwc _ h
    | ConditionalNode c t e => simp only [foldNotF]; exact hwc _ h

/-- `dnf.Exit` keeps a supported node supported: the distributive rewrite
only rearranges the node's own subtrees. -/
theorem dnfExit_supported (n : Node) (d : Nat) (a : Bool)
    (h : supportedNode n = true) : supportedNode (dnfExit n d a).1 = true := by
  by_cases hd : 0 < d
  · rw [dnfExit_pos n d a hd]
    exact h
  · have hd0 : d = 0 := by omega
    subst hd0
    cases n with
    | BinaryNode op l r =>
      have hlr := h
      rw [supportedNode_binary] at hlr
      simp only [Bool.and_eq_true] at hlr
      by_cases hop : (op == "and" || op == "&&") = true
      · cases hbl : isBinaryOr l with
        | true =>
          cases l with
          | BinaryNode lop ll lr =>
            simp only [isBinaryOr] at hbl
            rw [dnfExit_fire_left op lop ll lr r a hop hbl]
            have h1 := hlr.1
            rw [supportedNode_binary] at h1
            simp only [Bool.and_eq_true] at h1
            show (supportedNode (.BinaryNode op ll r) &&
              supportedNode (.BinaryNode op lr r)) = true
            rw [supportedNode_binary, supportedNode_binary, h1.1, h1.2, hlr.2]
            rfl
          | NilNode => simp [isBinaryOr] at hbl
          | IdentifierNode v => simp [isBinaryOr] at hbl
          | IntegerNode v => simp [isBinaryOr] at hbl
          | FloatNode v => simp [isBinaryOr] at hbl
          | BoolNode v => simp [isBinaryOr] at hbl
          | StringNode v => simp [isBinaryOr] at hbl
          | UnaryNode op2 t => simp [isBinaryOr] at hbl
          | MatchesNode l2 r2 => simp [isBinaryOr] at hbl
          | ArrayNode ns => simp [isBinaryOr] at hbl
          | FunctionNode nm args => simp [isBinaryOr] at hbl
          | ConditionalNode c t e => simp [isBinaryOr] at hbl
        | false =>
          cases hbr : isBinaryOr r with
          | true =>
            cases r with
            | BinaryNode rop rl rr =>
              simp only [isBinaryOr] at hbr
              rw [dnfExit_fire_right op rop l rl rr a hop hbl hbr]
              have h2 := hlr.2
              rw [supportedNode_binary] at h2
              simp only [Bool.and_eq_true] at h2
              show (supportedNode (.BinaryNode op l rl) &&
                supportedNode (.BinaryNode op l rr)) = true
              rw [supportedNode_binary, supportedNode_binary, h2.1, h2.2, hlr.1]
              rfl
            | NilNode => simp [isBinaryOr] at hbr
            | IdentifierNode v => simp [isBinaryOr] at hbr
            | IntegerNode v => simp [isBinaryOr] at hbr
            | FloatNode v => simp [isBinaryOr] at hbr
            | BoolNode v => simp [isBinaryOr] at hbr
            | StringNode v => simp [isBinaryOr] at hbr
            | UnaryNode op2 t => simp [isBinaryOr] at hbr
            | MatchesNode l2 r2 => simp [isBinaryOr] at hbr
            | ArrayNode ns => simp [isBinaryOr] at hbr
            | FunctionNode nm args => simp [isBinaryOr] at hbr
            | ConditionalNode c t e => simp [isBinaryOr] at hbr
          | false =>
            rw [dnfExit_zero_and_nofire op l r a hop hbl hbr]
            exact h
      · have hopf : isBinaryAnd (.BinaryNode op l r) = false := by
          simpa [isBinaryAnd] using hop
        rw [dnfExit_zero_notand _ a hopf]
        exact h
    | NilNode => rw [dnfExit_zero_notand Node.NilNode a rfl]; exact h
    | IdentifierNode v => rw [dnfExit_zero_notand (.IdentifierNode v) a rfl]; exact h
    | IntegerNode v => rw [dnfExit_zero_notand (.IntegerNode v) a rfl]; exact h
    | FloatNode v => rw [dnfExit_zero_notand (.FloatNode v) a rfl]; exact h
    | BoolNode v => rw [dnfExit_zero_notand (.BoolNode v) a rfl]; exact h
    | StringNode v => rw [dnfExit_zero_notand (.StringNode v) a rfl]; exact h
    | UnaryNode op t => rw [dnfExit_zero_notand (.UnaryNode op t) a rfl]; exact h
    | MatchesNode l r => rw [dnfExit_zero_notand (.MatchesNode l r) a rfl]; exact h
    | ArrayNode ns => rw [dnfExit_zero_notand (.ArrayNode ns) a rfl]; exact h
    | FunctionNode nm args => rw [dnfExit_zero_notand (.FunctionNode nm args) a rfl]; exact h
    | ConditionalNode c t e => rw [dnfExit_zero_notand (.ConditionalNode c t e) a rfl]; exact h

/-- A walk-result triple can be named with a defining equation. -/
theorem exists_triple_eq (p : Node × Nat × Bool) : ∃ x y z, p = (x, y, z) :=
  ⟨p.1, p.2.1, p.2.2, rfl⟩

/-- A list-walk-result triple can be named with a defining equation. -/
theorem exists_ltriple_eq (p : List Node × Nat × Bool) : ∃ x y z, p = (x, y, z) :=
  ⟨p.1, p.2.1, p.2.2, rfl⟩

/-- A whole DNF walk keeps a supported tree supported. -/
theorem dnfWalk_supported :
    (∀ n : Node, ∀ (d : Nat) (a : Bool), supportedNode n = true →
      supportedNode (dnfWalk n d a).1 = true) ∧
    (∀ ns : List Node, ∀ (d : Nat) (a : Bool), supportedList ns = true →
      supportedList (dnfWalkList ns d a).1 = true) := by
  have leaf : ∀ n : Node, (∀ (d : Nat) (a : Bool), dnfWalk n d a = dnfExit n (dnfEnter n d) a) →
      ∀ (d : Nat) (a : Bool), supportedNode n = true →
        supportedNode (dnfWalk n d a).1 = true := by
    intro n hn d a h
    rw [hn]
    exact dnfExit_supported _ _ _ h
  refine Node.mutualInduction _ _ (leaf _ fun _ _ => rfl) (fun v => leaf _ fun _ _ => rfl)
    (fun v => leaf _ fun _ _ => rfl) (fun v => leaf _ fun _ _ => rfl)
    (fun v => leaf _ fun _ _ => rfl) (fun v => leaf _ fun _ _ => rfl)
    ?hU ?hB ?hM ?hA ?hF ?hC ?hnil ?hcons
  case hU =>
    intro op t iht d a h
    rw [supportedNode_unary] at h
    show supportedNode ((match dnfWalk t (dnfEnter (.UnaryNode op t) d) a with
      | (t2, d2, a2) => dnfExit (.UnaryNode op t2) d2 a2)).1 = true
    obtain ⟨t2, d2, a2, hw⟩ := exists_triple_eq (dnfWalk t (dnfEnter (.UnaryNode op t) d) a)
    simp only [hw]
    have ht2 := iht (dnfEnter (.UnaryNode op t) d) a h
    rw [hw] at ht2
    simp only at ht2
    exact dnfExit_supported _ _ _ (by rw [supportedNode_unary]; exact ht2)
  case hB =>
    intro op l r ihl ihr d a h
    rw [supportedNode_binary] at h
    simp only [Bool.and_eq_true] at h
    show supportedNode ((match dnfWalk l (dnfEnter (.BinaryNode op l r) d) a with
      | (l2, d2, a2) =>
        match dnfWalk r d2 a2 with
        | (r2, d3, a3) => dnfExit (.BinaryNode op l2 r2) d3 a3)).1 = true
    obtain ⟨l2, d2, a2, hw1⟩ := exists_triple_eq (dnfWalk l (dnfEnter (.BinaryNode op l r) d) a)
    simp only [hw1]
    obtain ⟨r2, d3, a3, hw2⟩ := exists_triple_eq (dnfWalk r d2 a2)
    simp only [hw2]
    have hl2 := ihl (dnfEnter (.BinaryNode op l r) d) a h.1
    rw [hw1] at hl2
    simp only at hl2
    have hr2 := ihr d2 a2 h.2
    rw [hw2] at hr2
    simp only at hr2
    exact dnfExit_supported _ _ _ (by rw [supportedNode_binary, hl2, hr2]; rfl)
  case hM =>
    intro l r ihl ihr d a h
    rw [supportedNode_matches] at h
    simp only [Bool.and_eq_true] at h
    show supportedNode ((match dnfWalk l (dnfEnter (.MatchesNode l r) d) a with
      | (l2, d2, a2) =>
        match dnfWalk r d2 a2 with
        | (r2, d3, a3) => dnfExit (.MatchesNode l2 r2) d3 a3)).1 = true
    obtain ⟨l2, d2, a2, hw1⟩ := exists_triple_eq (dnfWalk l (dnfEnter (.MatchesNode l r) d) a)
    simp only [hw1]
    obtain ⟨r2, d3, a3, hw2⟩ := exists_triple_eq (dnfWalk r d2 a2)
    simp only [hw2]
    have hl2 := ihl (dnfEnter (.MatchesNode l r) d) a h.1
    rw [hw1] at hl2
    simp only at hl2
    have hr2 := ihr d2 a2 h.2
    rw [hw2] at hr2
    simp only at hr2
    exact dnfExit_supported _ _ _ (by rw [supportedNode_matches, hl2, hr2]; rfl)
  case hA =>
    intro ns ih d a h
    rw [supportedNode_array] at h
    cases h
  case hF =>
    intro nm args ihargs d a h
    rw [supportedNode_function] at h
    show supportedNode ((match dnfWalkList args (dnfEnter (.FunctionNode nm args) d) a with
      | (args2, d2, a2) => dnfExit (.FunctionNode nm args2) d2 a2)).1 = true
    obtain ⟨args2, d2, a2, hw⟩ :=
      exists_ltriple_eq (dnfWalkList args (dnfEnter (.FunctionNode nm args) d) a)
    simp only [hw]
    have ha2 := ihargs (dnfEnter (.FunctionNode nm args) d) a h
    rw [hw] at ha2
    simp only at ha2
    exact dnfExit_supported _ _ _ (by rw [supportedNode_function]; exact ha2)
  case hC =>
    intro c t e ihc iht ihe d a h
    rw [supportedNode_conditional] at h
    simp only [Bool.and_eq_true] at h
    show supportedNode ((match dnfWalk c (dnfEnter (.ConditionalNode c t e) d) a with
      | (c2, d2, a2) =>
        match dnfWalk t d2 a2 with
        | (t2, d3, a3) =>
          match dnfWalk e d3 a3 with
          | (e2, d4, a4) => dnfExit (.ConditionalNode c2 t2 e2) d4 a4)).1 = true
    obtain ⟨c2, d2, a2, hw1⟩ := exists_triple_eq (dnfWalk c (dnfEnter (.ConditionalNode c t e) d) a)
    simp only [hw1]
    obtain ⟨t2, d3, a3, hw2⟩ := exists_triple_eq (dnfWalk t d2 a2)
    simp only [hw2]
    obtain ⟨e2, d4, a4, hw3⟩ := exists_triple_eq (dnfWalk e d3 a3)
    simp only [hw3]
    have hc2 := ihc (dnfEnter (.ConditionalNode c t e) d) a h.1.1
    rw [hw1] at hc2
    simp only at hc2
    have ht2 := iht d2 a2 h.1.2
    rw [hw2] at ht2
    simp only at ht2
    have he2 := ihe d3 a3 h.2
    rw [hw3] at he2
    simp only at he2
    exact dnfExit_supported _ _ _
      (by rw [supportedNode_conditional, hc2, ht2, he2]; rfl)
  case hnil =>
    intro d a h
    exact h
  case hcons =>
    intro n ns ihn ihns d a h
    rw [supportedList_cons] at h
    simp only [Bool.and_eq_true] at h
    show supportedList ((match dnfWalk n d a with
      | (n2, d2, a2) =>
        match dnfWalkList ns d2 a2 with
        | (ns2, d3, a3) => (n2 :: ns2, d3, a3))).1 = true
    obtain ⟨n2, d2, a2, hw1⟩ := exists_triple_eq (dnfWalk n d a)
    simp only [hw1]
    obtain ⟨ns2, d3, a3, hw2⟩ := exists_ltriple_eq (dnfWalkList ns d2 a2)
    simp only [hw2]
    have hn2 := ihn d a h.1
    rw [hw1] at hn2
    simp only at hn2
    have hns2 := ihns d2 a2 h.2
    rw [hw2] at hns2
    simp only at hns2
    show supportedList (n2 :: ns2) = true
    rw [supportedList_cons, hn2, hns2]
    rfl

/-- The bounded DNF loop keeps a supported tree supported. -/
theorem toDNFLoop_supported : ∀ (k : Nat) (n : Node), supportedNode n = true →
    supportedNode (toDNFLoop k n) = true := by
  intro k
  induction k with
  | zero => intro n h; exact h
  | succ k ih =>
    intro n h
    show supportedNode (match dnfRound n with
      | (n2, a) => if a then toDNFLoop k n2 else n2) = true
    obtain ⟨n2, a, hr⟩ : ∃ n2 a, dnfRound n = (n2, a) := ⟨(dnfRound n).1, (dnfRound n).2, rfl⟩
    simp only [hr]
    have hn2 : supportedNode n2 = true := by
      have hd : (dnfRound n).1 = (dnfWalk n 0 false).1 := by
        unfold dnfRound
        rcases dnfWalk n 0 false with ⟨x, y, z⟩
        rfl
      rw [hr] at hd
      simp only at hd
      rw [hd]
      exact dnfWalk_supported.1 n 0 false h
    cases a
    · simpa using hn2
    · simp only [if_pos]
      exact ih n2 hn2

/-- Every fragment in the list is a nonempty string. -/
def Frags (fs : List String) : Prop := ∀ x ∈ fs, x.data ≠ []

/-- Two nonempty lists concatenate to a list exposing two head elements, all
parts staying members of the concatenation. -/
theorem two_of_append (A B : List String) (hA : A ≠ []) (hB : B ≠ []) :
    ∃ a b T, A ++ B = a :: b :: T ∧ a ∈ A ++ B ∧ b ∈ A ++ B ∧
      ∀ x ∈ T, x ∈ A ++ B := by
  cases A with
  | nil => exact absurd rfl hA
  | cons a A2 =>
    cases A2 with
    | nil =>
      cases B with
      | nil => exact absurd rfl hB
      | cons b B2 =>
        exact ⟨a, b, B2, rfl, by simp, by simp, fun x hx => by simp [hx]⟩
    | cons a2 A3 =>
      exact ⟨a, a2, A3 ++ B, by simp, by simp, by simp, fun x hx => by
        rcases List.mem_append.mp hx with h | h
        · simp [h]
        · simp [h]⟩

/-- `queryBuilder.Enter` at positive depth just descends. -/
theorem qbEnter_pos (n : Node) (s : List String) (nt : List Bool) (e : Nat) :
    qbEnter n ⟨s, nt, e + 1, none⟩ = ⟨s, nt, e + 2, none⟩ := by
  unfold qbEnter
  rw [if_pos (by simp)]

/-- `queryBuilder.Enter` at depth zero on a non-connective starts a subtree. -/
theorem qbEnter_zero_other (n : Node) (s : List String) (nt : List Bool)
    (hn : (!isUnaryNot n && !isBinaryAnd n && !isBinaryOr n) = true) :
    qbEnter n ⟨s, nt, 0, none⟩ = ⟨s, nt, 1, none⟩ := by
  unfold qbEnter
  rw [if_neg (by simp), if_pos hn]

/-- `queryBuilder.Enter` at depth zero on a connective pushes the pending
negation flag. -/
theorem qbEnter_zero_conn (n : Node) (s : List String) (nt : List Bool)
    (hn : (!isUnaryNot n && !isBinaryAnd n && !isBinaryOr n) = false) :
    qbEnter n ⟨s, nt, 0, none⟩ = ⟨s, isUnaryNot n :: nt, 0, none⟩ := by
  unfold qbEnter
  rw [if_neg (by simp), if_neg (by simp [hn])]

/-- Exit of an identifier away from root context pushes its (possibly
quoted) name. -/
theorem qbExit_nr_id (v : String) (s : List String) (nt : List Bool) (d : Nat)
    (hv : v.data ≠ []) :
    ∃ f, f.data ≠ [] ∧ qbExit (.IdentifierNode v) ⟨s, nt, d + 2, none⟩ =
      some ⟨f :: s, nt, d + 1, none⟩ := by
  refine ⟨_, ?_, rfl⟩
  split
  · exact goQuote_ne v
  · exact hv

/-- Exit of an integer literal away from root pushes its decimal image. -/
theorem qbExit_nr_int (v : Int) (s : List String) (nt : List Bool) (d : Nat) :
    qbExit (.IntegerNode v) ⟨s, nt, d + 2, none⟩ =
      some ⟨intDecimal v :: s, nt, d + 1, none⟩ := rfl

/-- Exit of a float literal away from root pushes its printed image. -/
theorem qbExit_nr_float (v : Rat) (s : List String) (nt : List Bool) (d : Nat) :
    qbExit (.FloatNode v) ⟨s, nt, d + 2, none⟩ =
      some ⟨floatSprint v :: s, nt, d + 1, none⟩ := rfl

/-- Exit of a boolean literal away from root pushes a quoted yes/no. -/
theorem qbExit_nr_bool (v : Bool) (s : List String) (nt : List Bool) (d : Nat) :
    ∃ f, f.data ≠ [] ∧ qbExit (.BoolNode v) ⟨s, nt, d + 2, none⟩ =
      some ⟨f :: s, nt, d + 1, none⟩ := by
  cases v
  · exact ⟨"\"no\"", by decide, rfl⟩
  · exact ⟨"\"yes\"", by decide, rfl⟩

/-- Exit of a string literal away from root pushes its quoted image. -/
theorem qbExit_nr_string (v : String) (s : List String) (nt : List Bool) (d : Nat) :
    qbExit (.StringNode v) ⟨s, nt, d + 2, none⟩ =
      some ⟨goQuote v :: s, nt, d + 1, none⟩ := rfl

/-- Exit of a unary node away from root wraps the popped fragment in the
operator and parentheses. -/
theorem qbExit_nr_unary (op : String) (t : Node) (x : String) (s : List String)
    (nt : List Bool) (d : Nat) :
    qbExit (.UnaryNode op t) ⟨x :: s, nt, d + 2, none⟩ =
      some ⟨(op ++ "(" ++ x ++ ")") :: s, nt, d + 1, none⟩ := rfl

/-- Exit of a matches node away from root joins the operands with `~`. -/
theorem qbExit_nr_matches (l r : Node) (rhs lhs : String) (s : List String)
    (nt : List Bool) (d : Nat) :
    qbExit (.MatchesNode l r) ⟨rhs :: lhs :: s, nt, d + 2, none⟩ =
      some ⟨(lhs ++ "~" ++ rhs) :: s, nt, d + 1, none⟩ := rfl

/-- Exit of a conditional away from root joins the three popped fragments
with `?` and `:`. -/
theorem qbExit_nr_cond (c t e : Node) (e2 e1 cf : String) (s : List String)
    (nt : List Bool) (d : Nat) :
    qbExit (.ConditionalNode c t e) ⟨e2 :: e1 :: cf :: s, nt, d + 2, none⟩ =
      some ⟨(cf ++ "?" ++ e1 ++ ":" ++ e2) :: s, nt, d + 1, none⟩ := rfl

/-- Exit of a function call away from root pops one fragment per argument
and emits `name(frags)`. -/
theorem qbExit_nr_function (nm : String) (args : List Node) (fs s : List String)
    (nt : List Bool) (d : Nat) (hlen : args.length = fs.length) :
    qbExit (.FunctionNode nm args) ⟨fs ++ s, nt, d + 2, none⟩ =
      some ⟨(nm ++ "(" ++ String.join fs ++ ")") :: s, nt, d + 1, none⟩ := by
  show (match popMany args.length (fs ++ s) with
    | some (xs, rest) => some (⟨(bangIf nm false ++ "(" ++ String.join xs ++ ")") :: rest,
        nt, d + 1, none⟩ : QueryBuilder)
    | none => none) = _
  rw [hlen, popMany_append]
  rfl

/-- Exit of a binary node away from root always pushes a single nonempty
fragment built from the two popped operand fragments. -/
theorem qbExit_nr_binary (op : String) (nl nr : Node) (rhs lhs : String)
    (s : List String) (nt : List Bool) (d : Nat)
    (hl : lhs.data ≠ []) (hr : rhs.data ≠ []) :
    ∃ f : String, f.data ≠ [] ∧
      qbExit (.BinaryNode op nl nr) ⟨rhs :: lhs :: s, nt, d + 2, none⟩ =
        some ⟨f :: s, nt, d + 1, none⟩ := by
  simp only [qbExit, Option.isSome_none, Bool.false_eq_true, if_false,
    show (0 < d + 2) = True by simp, if_true, show d + 2 - 1 = d + 1 from rfl,
    show ((d + 1 : Nat) == 0) = false from rfl, Bool.and_false, Bool.false_and,
    Bool.not_false]
  by_cases hand : (op == "and" || op == "&&") = true
  · rw [if_pos hand]
    exact ⟨_, data_append_ne_left _ _ (data_append_ne_left _ _ hl), rfl⟩
  · rw [if_neg hand]
    by_cases hor : (op == "or" || op == "||") = true
    · rw [if_pos hor]
      exact ⟨_, data_append_ne_left _ _ (data_append_ne_left _ _ hl), rfl⟩
    · rw [if_neg hor]
      by_cases hcmp : (op == ">" || op == ">=" || op == "<" || op == "<=") = true
      · rw [if_pos hcmp]
        cases nl with
        | IdentifierNode v =>
          rcases hd : lhs.data with _ | ⟨c, tl⟩
          · exact absurd hd hl
          · refine ⟨_, ?_, rfl⟩
            apply data_append_ne_left
            apply data_append_ne_left
            apply data_append_ne_left
            apply data_append_ne_left
            decide
        | NilNode => exact ⟨_, data_append_ne_left _ _ (data_append_ne_left _ _ hl), rfl⟩
        | IntegerNode v => exact ⟨_, data_append_ne_left _ _ (data_append_ne_left _ _ hl), rfl⟩
        | FloatNode v => exact ⟨_, data_append_ne_left _ _ (data_append_ne_left _ _ hl), rfl⟩
        | BoolNode v => exact ⟨_, data_append_ne_left _ _ (data_append_ne_left _ _ hl), rfl⟩
        | StringNode v => exact ⟨_, data_append_ne_left _ _ (data_append_ne_left _ _ hl), rfl⟩
        | UnaryNode op2 t => exact ⟨_, data_append_ne_left _ _ (data_append_ne_left _ _ hl), rfl⟩
        | BinaryNode op2 l2 r2 =>
          exact ⟨_, data_append_ne_left _ _ (data_append_ne_left _ _ hl), rfl⟩
        | MatchesNode l2 r2 => exact ⟨_, data_append_ne_left _ _ (data_append_ne_left _ _ hl), rfl⟩
        | ArrayNode ns => exact ⟨_, data_append_ne_left _ _ (data_append_ne_left _ _ hl), rfl⟩
        | FunctionNode nm2 args =>
          exact ⟨_, data_append_ne_left _ _ (data_append_ne_left _ _ hl), rfl⟩
        | ConditionalNode c2 t2 e2 =>
          exact ⟨_, data_append_ne_left _ _ (data_append_ne_left _ _ hl), rfl⟩
      · rw [if_neg hcmp]
        split
        next heq =>
          exfalso
          rcases hrd : rhs.data with _ | ⟨c, tl⟩
          · exact hr hrd
          · rw [hrd] at heq
            split at heq <;> simp_all
        next op2 rhs2 heq =>
          simp only [ite_self, Bool.false_eq_true, if_false, bangIf]
          exact ⟨_, data_append_ne_left _ _ (data_append_ne_left _ _ hl), rfl⟩

/-- Exit of a root `and` connective: both popped fragments are inspected by
`isWrapped` (total on nonempty fragments) and merged into one criterion. -/
theorem qbExit_root_and (op : String) (nl nr : Node) (A B : String)
    (s : List String) (nt : List Bool)
    (hop : (op == "and" || op == "&&") = true)
    (hA : A.data ≠ []) (hB : B.data ≠ []) :
    ∃ (f : String) (nt2 : List Bool), f.data ≠ [] ∧
      qbExit (.BinaryNode op nl nr) ⟨A :: B :: s, nt, 0, none⟩ =
        some ⟨f :: s, nt2, 0, none⟩ := by
  obtain ⟨wl, hwl⟩ := isWrapped_of_ne B hB
  obtain ⟨wr, hwr⟩ := isWrapped_of_ne A hA
  cases nt <;>
    (simp only [qbExit, Option.isSome_none, Bool.false_eq_true, if_false,
      show (0 < 0) = False by simp, show ((0 : Nat) == 0) = true from rfl,
      Bool.and_false, Bool.false_and, Bool.not_true, Bool.not_false, if_true]
     rw [if_pos hop, hwl, hwr]) <;>
    cases wl <;> cases wr <;>
    simp only [Bool.not_true, Bool.not_false, Bool.true_and, Bool.and_true,
      Bool.false_and, Bool.and_false, Bool.false_eq_true, if_false, if_true] <;>
    first
      | exact ⟨_, _, data_append_ne_left _ _ (data_append_ne_left _ _ hB), rfl⟩
      | exact ⟨_, _, data_append_ne_left _ _ hB, rfl⟩
      | exact ⟨_, _, data_append_ne_left _ _ (data_append_ne_left _ _
          (data_append_ne_left _ _ (by decide))), rfl⟩

/-- The two-fragment result of a split root `or`: both criteria stay. -/
theorem frags_pair (A B : String) (hA : A.data ≠ []) (hB : B.data ≠ []) :
    Frags [A, B] := by
  intro x hx
  rcases List.mem_cons.mp hx with h | h
  · rw [h]; exact hA
  · rw [List.mem_singleton.mp h]; exact hB

/-- Exit of a root `or` connective: either the two fragments merge into one
criterion or both are kept as separate criteria. -/
theorem qbExit_root_or (op : String) (nl nr : Node) (A B : String)
    (s : List String) (nt : List Bool)
    (hnand : (op == "and" || op == "&&") = false)
    (hop : (op == "or" || op == "||") = true)
    (hA : A.data ≠ []) (hB : B.data ≠ []) :
    ∃ (fs : List String) (nt2 : List Bool), fs ≠ [] ∧ Frags fs ∧
      qbExit (.BinaryNode op nl nr) ⟨A :: B :: s, nt, 0, none⟩ =
        some ⟨fs ++ s, nt2, 0, none⟩ := by
  obtain ⟨wl, hwl⟩ := isWrapped_of_ne B hB
  obtain ⟨wr, hwr⟩ := isWrapped_of_ne A hA
  cases nt <;>
    (simp only [qbExit, Option.isSome_none, Bool.false_eq_true, if_false,
      show (0 < 0) = False by simp, show ((0 : Nat) == 0) = true from rfl,
      Bool.and_false, Bool.false_and, Bool.not_true, Bool.not_false, if_true]
     rw [if_neg (by simp [hnand]), if_pos hop, hwl]) <;>
    cases wl <;>
    simp only [Bool.not_true, Bool.not_false, Bool.false_eq_true, if_false, if_true] <;>
    first
      | exact ⟨[A, B], _, by simp, frags_pair A B hA hB, rfl⟩
      | (rw [hwr]
         cases wr <;>
           simp only [Bool.not_true, Bool.not_false, Bool.false_eq_true,
             if_false, if_true] <;>
           first
             | exact ⟨[A, B], _, by simp, frags_pair A B hA hB, rfl⟩
             | exact ⟨[B ++ "||" ++ A], _, by simp, by
                 intro x hx
                 rw [List.mem_singleton.mp hx]
                 exact data_append_ne_left _ _ (data_append_ne_left _ _ hB), rfl⟩)

/-- Exit of a root `not` connective leaves the fragment stack untouched. -/
theorem qbExit_root_not (op : String) (t : Node) (s : List String) (nt : List Bool)
    (hop : (op == "not" || op == "!") = true) :
    ∃ nt2 : List Bool, qbExit (.UnaryNode op t) ⟨s, nt, 0, none⟩ =
      some ⟨s, nt2, 0, none⟩ := by
  have hx : (op != "not" && op != "!") = false := by
    rcases (by simpa using hop : op = "not" ∨ op = "!") with h | h <;> subst h <;> decide
  cases nt <;>
    (simp only [qbExit, Option.isSome_none, Bool.false_eq_true, if_false,
      show (0 < 0) = False by simp, show ((0 : Nat) == 0) = true from rfl,
      Bool.and_false, Bool.false_and, Bool.not_true, Bool.not_false, if_true]
     rw [hx]
     simp only [Bool.or_false, Bool.false_eq_true, if_false]) <;>
    exact ⟨_, rfl⟩

/-- Exit of an identifier in root context emits a bracketed existence
filter. -/
theorem qbExit_r1_id (v : String) (s : List String) (nt : List Bool) :
    ∃ (f : String) (nt2 : List Bool), f.data ≠ [] ∧
      qbExit (.IdentifierNode v) ⟨s, nt, 1, none⟩ = some ⟨f :: s, nt2, 0, none⟩ := by
  cases nt with
  | nil => exact ⟨_, _, data_append_ne_right _ _ (by decide), rfl⟩
  | cons b rest =>
    cases b
    · exact ⟨_, _, data_append_ne_right _ _ (by decide), rfl⟩
    · exact ⟨_, _, data_append_ne_right _ _ (by decide), rfl⟩

/-- Exit of an integer literal in root context: under a pending negation the
inverted-literal error is latched, otherwise the decimal is pushed. -/
theorem qbExit_r1_int (v : Int) (s : List String) (nt : List Bool) :
    ∃ q', qbExit (.IntegerNode v) ⟨s, nt, 1, none⟩ = some q' ∧
      ((∃ e, q'.err = some e) ∨
        ∃ (f : String) (nt2 : List Bool), f.data ≠ [] ∧
          q' = ⟨f :: s, nt2, 0, none⟩) := by
  cases nt with
  | nil => exact ⟨_, rfl, Or.inr ⟨_, _, intDecimal_ne v, rfl⟩⟩
  | cons b rest =>
    cases b
    · exact ⟨_, rfl, Or.inr ⟨_, _, intDecimal_ne v, rfl⟩⟩
    · exact ⟨_, rfl, Or.inl ⟨_, rfl⟩⟩

/-- Exit of a float literal in root context: inverted-literal error or a
pushed fragment. -/
theorem qbExit_r1_float (v : Rat) (s : List String) (nt : List Bool) :
    ∃ q', qbExit (.FloatNode v) ⟨s, nt, 1, none⟩ = some q' ∧
      ((∃ e, q'.err = some e) ∨
        ∃ (f : String) (nt2 : List Bool), f.data ≠ [] ∧
          q' = ⟨f :: s, nt2, 0, none⟩) := by
  cases nt with
  | nil => exact ⟨_, rfl, Or.inr ⟨_, _, floatSprint_ne v, rfl⟩⟩
  | cons b rest =>
    cases b
    · exact ⟨_, rfl, Or.inr ⟨_, _, floatSprint_ne v, rfl⟩⟩
    · exact ⟨_, rfl, Or.inl ⟨_, rfl⟩⟩

/-- Exit of a string literal in root context: inverted-literal error or a
pushed fragment. -/
theorem qbExit_r1_string (v : String) (s : List String) (nt : List Bool) :
    ∃ q', qbExit (.StringNode v) ⟨s, nt, 1, none⟩ = some q' ∧
      ((∃ e, q'.err = some e) ∨
        ∃ (f : String) (nt2 : List Bool), f.data ≠ [] ∧
          q' = ⟨f :: s, nt2, 0, none⟩) := by
  cases nt with
  | nil => exact ⟨_, rfl, Or.inr ⟨_, _, goQuote_ne v, rfl⟩⟩
  | cons b rest =>
    cases b
    · exact ⟨_, rfl, Or.inr ⟨_, _, goQuote_ne v, rfl⟩⟩
    · exact ⟨_, rfl, Or.inl ⟨_, rfl⟩⟩

/-- Exit of a boolean literal in root context pushes a quoted yes/no. -/
theorem qbExit_r1_bool (v : Bool) (s : List String) (nt : List Bool) :
    ∃ (f : String) (nt2 : List Bool), f.data ≠ [] ∧
      qbExit (.BoolNode v) ⟨s, nt, 1, none⟩ = some ⟨f :: s, nt2, 0, none⟩ := by
  cases nt with
  | nil =>
    cases v
    · exact ⟨"\"no\"", [], by decide, rfl⟩
    · exact ⟨"\"yes\"", [], by decide, rfl⟩
  | cons b rest =>
    cases b <;> cases v
    · exact ⟨"\"no\"", rest, by decide, rfl⟩
    · exact ⟨"\"yes\"", rest, by decide, rfl⟩
    · exact ⟨"\"yes\"", rest, by decide, rfl⟩
    · exact ⟨"\"no\"", rest, by decide, rfl⟩

/-- Exit of a non-negation unary node in root context wraps the popped
fragment. -/
theorem qbExit_r1_unary (op : String) (t : Node) (x : String) (s : List String)
    (nt : List Bool) (hop : (op == "not" || op == "!") = false) :
    ∃ (f : String) (nt2 : List Bool), f.data ≠ [] ∧
      qbExit (.UnaryNode op t) ⟨x :: s, nt, 1, none⟩ =
        some ⟨f :: s, nt2, 0, none⟩ := by
  have h1 : (op == "not") = false ∧ (op == "!") = false := by simpa using hop
  have hx : (op != "not" && op != "!") = true := by simp [bne, h1.1, h1.2]
  cases nt <;>
    (simp only [qbExit, Option.isSome_none, Bool.false_eq_true, if_false,
      show (0 < 1) = True by simp, if_true, show (1 : Nat) - 1 = 0 from rfl,
      show ((0 : Nat) == 0) = true from rfl, Bool.and_false, Bool.false_and,
      Bool.not_true, Bool.not_false, Bool.true_and]
     rw [hx]
     simp only [Bool.or_true, if_true]) <;>
    exact ⟨_, _, data_append_ne_right _ _ (by decide), rfl⟩

/-- Exit of a matches node in root context emits a bracketed regex filter. -/
theorem qbExit_r1_matches (l r : Node) (A B : String) (s : List String)
    (nt : List Bool) :
    ∃ (f : String) (nt2 : List Bool), f.data ≠ [] ∧
      qbExit (.MatchesNode l r) ⟨A :: B :: s, nt, 1, none⟩ =
        some ⟨f :: s, nt2, 0, none⟩ := by
  cases nt with
  | nil => exact ⟨_, _, data_append_ne_right _ _ (by decide), rfl⟩
  | cons b rest =>
    cases b
    · exact ⟨_, _, data_append_ne_right _ _ (by decide), rfl⟩
    · exact ⟨_, _, data_append_ne_right _ _ (by decide), rfl⟩

/-- Exit of a conditional in root context joins the three popped fragments. -/
theorem qbExit_r1_cond (c t e : Node) (e2 e1 cf : String) (s : List String)
    (nt : List Bool) :
    ∃ (f : String) (nt2 : List Bool), f.data ≠ [] ∧
      qbExit (.ConditionalNode c t e) ⟨e2 :: e1 :: cf :: s, nt, 1, none⟩ =
        some ⟨f :: s, nt2, 0, none⟩ := by
  have hne : ((cf ++ "?" ++ e1 ++ ":").data ≠ []) :=
    data_append_ne_right _ _ (by decide)
  cases nt with
  | nil => exact ⟨_, _, data_append_ne_left _ _ hne, rfl⟩
  | cons b rest =>
    cases b
    · exact ⟨_, _, data_append_ne_left _ _ hne, rfl⟩
    · exact ⟨_, _, data_append_ne_left _ _ hne, rfl⟩

/-- Exit of a function call in root context: `is_tag` with one argument
emits a bracketed filter, anything else emits `name(frags)`. -/
theorem qbExit_r1_function (nm : String) (args : List Node) (fs s : List String)
    (nt : List Bool) (hlen : args.length = fs.length) :
    ∃ (f : String) (nt2 : List Bool), f.data ≠ [] ∧
      qbExit (.FunctionNode nm args) ⟨fs ++ s, nt, 1, none⟩ =
        some ⟨f :: s, nt2, 0, none⟩ := by
  cases nt <;>
    (simp only [qbExit, Option.isSome_none, Bool.false_eq_true, if_false,
      show (0 < 1) = True by simp, if_true, show (1 : Nat) - 1 = 0 from rfl,
      show ((0 : Nat) == 0) = true from rfl, Bool.and_false, Bool.false_and,
      Bool.not_true, Bool.not_false, Bool.true_and]
     by_cases hc : ((nm == "is_tag") && (args.length == 1)) = true
     · rw [if_pos hc]
       have hone : fs.length = 1 := by
         have h2 := (Bool.and_eq_true _ _).mp hc
         have h3 : args.length = 1 := by simpa using h2.2
         omega
       match fs, hone with
       | [x], _ =>
         exact ⟨_, _, data_append_ne_right _ _ (by decide), rfl⟩
     · rw [if_neg hc, hlen, popMany_append]
       exact ⟨_, _, data_append_ne_right _ _ (by decide), rfl⟩)

/-- Exit of a non-connective binary node in root context always pushes one
nonempty bracketed or inline fragment. -/
theorem qbExit_r1_binary (op : String) (nl nr : Node) (A B : String)
    (s : List String) (nt : List Bool)
    (hnand : (op == "and" || op == "&&") = false)
    (hnor : (op == "or" || op == "||") = false)
    (hA : A.data ≠ []) (hB : B.data ≠ []) :
    ∃ (f : String) (nt2 : List Bool), f.data ≠ [] ∧
      qbExit (.BinaryNode op nl nr) ⟨A :: B :: s, nt, 1, none⟩ =
        some ⟨f :: s, nt2, 0, none⟩ := by
  cases nt <;>
    (simp only [qbExit, Option.isSome_none, Bool.false_eq_true, if_false,
      show (0 < 1) = True by simp, if_true, show (1 : Nat) - 1 = 0 from rfl,
      show ((0 : Nat) == 0) = true from rfl, Bool.and_false, Bool.false_and,
      Bool.not_true, Bool.not_false, Bool.true_and]
     simp only [hnand, hnor, Bool.false_eq_true, if_false]
     by_cases hcmp : (op == ">" || op == ">=" || op == "<" || op == "<=") = true
     · rw [if_pos hcmp]
       cases nl with
       | IdentifierNode v =>
         rcases hd : B.data with _ | ⟨c, tl⟩
         · exact absurd hd hB
         · exact ⟨_, _, data_append_ne_right _ _ hA, rfl⟩
       | NilNode => exact ⟨_, _, data_append_ne_left _ _ (data_append_ne_left _ _ hB), rfl⟩
       | IntegerNode v => exact ⟨_, _, data_append_ne_left _ _ (data_append_ne_left _ _ hB), rfl⟩
       | FloatNode v => exact ⟨_, _, data_append_ne_left _ _ (data_append_ne_left _ _ hB), rfl⟩
       | BoolNode v => exact ⟨_, _, data_append_ne_left _ _ (data_append_ne_left _ _ hB), rfl⟩
       | StringNode v => exact ⟨_, _, data_append_ne_left _ _ (data_append_ne_left _ _ hB), rfl⟩
       | UnaryNode op2 t => exact ⟨_, _, data_append_ne_left _ _ (data_append_ne_left _ _ hB), rfl⟩
       | BinaryNode op2 l2 r2 =>
         exact ⟨_, _, data_append_ne_left _ _ (data_append_ne_left _ _ hB), rfl⟩
       | MatchesNode l2 r2 => exact ⟨_, _, data_append_ne_left _ _ (data_append_ne_left _ _ hB), rfl⟩
       | ArrayNode ns => exact ⟨_, _, data_append_ne_left _ _ (data_append_ne_left _ _ hB), rfl⟩
       | FunctionNode nm2 args2 =>
         exact ⟨_, _, data_append_ne_left _ _ (data_append_ne_left _ _ hB), rfl⟩
       | ConditionalNode c2 t2 e2 =>
         exact ⟨_, _, data_append_ne_left _ _ (data_append_ne_left _ _ hB), rfl⟩
     · rw [if_neg hcmp]
       split
       next heq =>
         exfalso
         rcases hrd : A.data with _ | ⟨c, tl⟩
         · exact hA hrd
         · rw [hrd] at heq
           split at heq <;> simp_all
       next op2 rhs2 heq =>
         cases nl <;> cases nr <;>
           simp only [Bool.true_or, Bool.or_true, Bool.false_or, Bool.or_false,
             eq_self_iff_true, if_true, Bool.false_eq_true, if_false, bangIf] <;>
           first
             | exact ⟨_, _, data_append_ne_left _ _ (data_append_ne_left _ _ hB), rfl⟩
             | (by_cases heq2 : (op2 == "==" || op2 == "!=") = true
                · rw [if_pos heq2]
                  exact ⟨_, _, data_append_ne_right _ _ (by decide), rfl⟩
                · rw [if_neg heq2]
                  exact ⟨_, _, data_append_ne_right _ _ (by decide), rfl⟩))

/-- A nonempty fragment extends a fragment block. -/
theorem Frags_cons (f : String) (fs : List String) (hf : f.data ≠ [])
    (h : Frags fs) : Frags (f :: fs) := by
  intro x hx
  rcases List.mem_cons.mp hx with h2 | h2
  · rw [h2]; exact hf
  · exact h x h2

/-- Fragment blocks concatenate. -/
theorem Frags_append (a b : List String) (ha : Frags a) (hb : Frags b) :
    Frags (a ++ b) := by
  intro x hx
  rcases List.mem_append.mp hx with h | h
  · exact ha x h
  · exact hb x h

/-- The empty block is a fragment block. -/
theorem Frags_nil : Frags [] := fun x hx => absurd hx (List.not_mem_nil x)

/-- A single nonempty fragment is a fragment block. -/
theorem Frags_single (f : String) (hf : f.data ≠ []) : Frags [f] := by
  intro x hx
  rw [List.mem_singleton.mp hx]
  exact hf

/-- The query-builder walk is total on the supported grammar: at depth zero
it yields either a latched error or a nonempty block of nonempty criteria
fragments pushed onto the stack; at positive depth it pushes exactly one
nonempty fragment and restores depth, negation stack and error cell. -/
theorem qbWalk_total :
    (∀ n : Node, supportedNode n = true →
      (∀ (qs : List String) (qn : List Bool), ∃ q',
        qbWalk n ⟨qs, qn, 0, none⟩ = some q' ∧
        ((∃ e, q'.err = some e) ∨
          ∃ (fs : List String) (qn2 : List Bool), fs ≠ [] ∧ Frags fs ∧
            q' = ⟨fs ++ qs, qn2, 0, none⟩)) ∧
      (∀ (qs : List String) (qn : List Bool) (e : Nat), ∃ f : String,
        f.data ≠ [] ∧
        qbWalk n ⟨qs, qn, e + 1, none⟩ = some ⟨f :: qs, qn, e + 1, none⟩)) ∧
    (∀ ns : List Node, supportedList ns = true →
      ∀ (qs : List String) (qn : List Bool) (e : Nat), ∃ fs : List String,
        fs.length = ns.length ∧ Frags fs ∧
        qbWalkList ns ⟨qs, qn, e + 1, none⟩ = some ⟨fs ++ qs, qn, e + 1, none⟩) := by
  refine Node.mutualInduction
    (fun n => supportedNode n = true →
      (∀ (qs : List String) (qn : List Bool), ∃ q',
        qbWalk n ⟨qs, qn, 0, none⟩ = some q' ∧
        ((∃ e, q'.err = some e) ∨
          ∃ (fs : List String) (qn2 : List Bool), fs ≠ [] ∧ Frags fs ∧
            q' = ⟨fs ++ qs, qn2, 0, none⟩)) ∧
      (∀ (qs : List String) (qn : List Bool) (e : Nat), ∃ f : String,
        f.data ≠ [] ∧
        qbWalk n ⟨qs, qn, e + 1, none⟩ = some ⟨f :: qs, qn, e + 1, none⟩))
    (fun ns => supportedList ns = true →
      ∀ (qs : List String) (qn : List Bool) (e : Nat), ∃ fs : List String,
        fs.length = ns.length ∧ Frags fs ∧
        qbWalkList ns ⟨qs, qn, e + 1, none⟩ = some ⟨fs ++ qs, qn, e + 1, none⟩)
    ?hNil ?hId ?hInt ?hFloat ?hBool ?hStr ?hU ?hB ?hM ?hA ?hF ?hC ?hnil ?hcons
  case hNil =>
    intro h
    exact absurd h (by decide)
  case hId =>
    intro v h
    have hv : v.data ≠ [] := by
      intro hnil
      have h2 : (!v.data.isEmpty) = true := h
      rw [hnil] at h2
      exact absurd h2 (by decide)
    refine ⟨?_, ?_⟩
    · intro qs qn
      obtain ⟨f, nt2, hf, hex⟩ := qbExit_r1_id v qs qn
      refine ⟨⟨f :: qs, nt2, 0, none⟩, ?_,
        Or.inr ⟨[f], nt2, by simp, Frags_single f hf, rfl⟩⟩
      show qbExit (.IdentifierNode v) (qbEnter (.IdentifierNode v) ⟨qs, qn, 0, none⟩) = _
      rw [qbEnter_zero_other (.IdentifierNode v) qs qn rfl, hex]
    · intro qs qn e
      obtain ⟨f, hf, hex⟩ := qbExit_nr_id v qs qn e hv
      refine ⟨f, hf, ?_⟩
      show qbExit (.IdentifierNode v) (qbEnter (.IdentifierNode v) ⟨qs, qn, e + 1, none⟩) = _
      rw [qbEnter_pos, hex]
  case hInt =>
    intro v h
    refine ⟨?_, ?_⟩
    · intro qs qn
      obtain ⟨q', hex, hout⟩ := qbExit_r1_int v qs qn
      refine ⟨q', ?_, ?_⟩
      · show qbExit (.IntegerNode v) (qbEnter (.IntegerNode v) ⟨qs, qn, 0, none⟩) = _
        rw [qbEnter_zero_other (.IntegerNode v) qs qn rfl, hex]
      · rcases hout with ⟨e, he⟩ | ⟨f, nt2, hf, hq⟩
        · exact Or.inl ⟨e, he⟩
        · exact Or.inr ⟨[f], nt2, by simp, Frags_single f hf, hq⟩
    · intro qs qn e
      refine ⟨intDecimal v, intDecimal_ne v, ?_⟩
      show qbExit (.IntegerNode v) (qbEnter (.IntegerNode v) ⟨qs, qn, e + 1, none⟩) = _
      rw [qbEnter_pos, qbExit_nr_int]
  case hFloat =>
    intro v h
    refine ⟨?_, ?_⟩
    · intro qs qn
      obtain ⟨q', hex, hout⟩ := qbExit_r1_float v qs qn
      refine ⟨q', ?_, ?_⟩
      · show qbExit (.FloatNode v) (qbEnter (.FloatNode v) ⟨qs, qn, 0, none⟩) = _
        rw [qbEnter_zero_other (.FloatNode v) qs qn rfl, hex]
      · rcases hout with ⟨e, he⟩ | ⟨f, nt2, hf, hq⟩
        · exact Or.inl ⟨e, he⟩
        · exact Or.inr ⟨[f], nt2, by simp, Frags_single f hf, hq⟩
    · intro qs qn e
      refine ⟨floatSprint v, floatSprint_ne v, ?_⟩
      show qbExit (.FloatNode v) (qbEnter (.FloatNode v) ⟨qs, qn, e + 1, none⟩) = _
      rw [qbEnter_pos, qbExit_nr_float]
  case hBool =>
    intro v h
    refine ⟨?_, ?_⟩
    · intro qs qn
      obtain ⟨f, nt2, hf, hex⟩ := qbExit_r1_bool v qs qn
      refine ⟨⟨f :: qs, nt2, 0, none⟩, ?_,
        Or.inr ⟨[f], nt2, by simp, Frags_single f hf, rfl⟩⟩
      show qbExit (.BoolNode v) (qbEnter (.BoolNode v) ⟨qs, qn, 0, none⟩) = _
      rw [qbEnter_zero_other (.BoolNode v) qs qn rfl, hex]
    · intro qs qn e
      obtain ⟨f, hf, hex⟩ := qbExit_nr_bool v qs qn e
      refine ⟨f, hf, ?_⟩
      show qbExit (.BoolNode v) (qbEnter (.BoolNode v) ⟨qs, qn, e + 1, none⟩) = _
      rw [qbEnter_pos, hex]
  case hStr =>
    intro v h
    refine ⟨?_, ?_⟩
    · intro qs qn
      obtain ⟨q', hex, hout⟩ := qbExit_r1_string v qs qn
      refine ⟨q', ?_, ?_⟩
      · show qbExit (.StringNode v) (qbEnter (.StringNode v) ⟨qs, qn, 0, none⟩) = _
        rw [qbEnter_zero_other (.StringNode v) qs qn rfl, hex]
      · rcases hout with ⟨e, he⟩ | ⟨f, nt2, hf, hq⟩
        · exact Or.inl ⟨e, he⟩
        · exact Or.inr ⟨[f], nt2, by simp, Frags_single f hf, hq⟩
    · intro qs qn e
      refine ⟨goQuote v, goQuote_ne v, ?_⟩
      show qbExit (.StringNode v) (qbEnter (.StringNode v) ⟨qs, qn, e + 1, none⟩) = _
      rw [qbEnter_pos, qbExit_nr_string]
  case hU =>
    intro op t iht h
    rw [supportedNode_unary] at h
    refine ⟨?_, ?_⟩
    · intro qs qn
      by_cases hop : (op == "not" || op == "!") = true
      · -- root negation connective
        have hn : (!isUnaryNot (.UnaryNode op t) && !isBinaryAnd (.UnaryNode op t) &&
            !isBinaryOr (.UnaryNode op t)) = false := by
          simp [isUnaryNot, hop]
        obtain ⟨q2, hwl, hout⟩ := ((iht h).1) qs (isUnaryNot (.UnaryNode op t) :: qn)
        rcases hout with ⟨e2, he2⟩ | ⟨fs, qn2, hne, hfr, hq2⟩
        · refine ⟨q2, ?_, Or.inl ⟨e2, he2⟩⟩
          show (match qbWalk t (qbEnter (.UnaryNode op t) ⟨qs, qn, 0, none⟩) with
            | some q2 => qbExit (.UnaryNode op t) q2
            | none => none) = some q2
          rw [qbEnter_zero_conn _ _ _ hn]
          simp only [hwl]
          exact qbExit_latch _ _ (by rw [he2]; rfl)
        · subst hq2
          obtain ⟨nt2, hex⟩ := qbExit_root_not op t (fs ++ qs) qn2 hop
          refine ⟨⟨fs ++ qs, nt2, 0, none⟩, ?_, Or.inr ⟨fs, nt2, hne, hfr, rfl⟩⟩
          show (match qbWalk t (qbEnter (.UnaryNode op t) ⟨qs, qn, 0, none⟩) with
            | some q2 => qbExit (.UnaryNode op t) q2
            | none => none) = _
          rw [qbEnter_zero_conn _ _ _ hn]
          simp only [hwl]
          exact hex
      · -- root non-negation unary operator
        have hopf : (op == "not" || op == "!") = false := by simpa using hop
        have hn : (!isUnaryNot (.UnaryNode op t) && !isBinaryAnd (.UnaryNode op t) &&
            !isBinaryOr (.UnaryNode op t)) = true := by
          simp [isUnaryNot, isBinaryAnd, isBinaryOr, hopf]
        obtain ⟨x, hx, hwl⟩ := ((iht h).2) qs qn 0
        obtain ⟨f, nt2, hf, hex⟩ := qbExit_r1_unary op t x qs qn hopf
        refine ⟨⟨f :: qs, nt2, 0, none⟩, ?_,
          Or.inr ⟨[f], nt2, by simp, Frags_single f hf, rfl⟩⟩
        show (match qbWalk t (qbEnter (.UnaryNode op t) ⟨qs, qn, 0, none⟩) with
          | some q2 => qbExit (.UnaryNode op t) q2
          | none => none) = _
        rw [qbEnter_zero_other _ _ _ hn]
        simp only [hwl]
        exact hex
    · intro qs qn e
      obtain ⟨x, hx, hwl⟩ := ((iht h).2) qs qn (e + 1)
      refine ⟨op ++ "(" ++ x ++ ")", data_append_ne_right _ _ (by decide), ?_⟩
      show (match qbWalk t (qbEnter (.UnaryNode op t) ⟨qs, qn, e + 1, none⟩) with
        | some q2 => qbExit (.UnaryNode op t) q2
        | none => none) = _
      rw [qbEnter_pos]
      rw [show e + 2 = e + 1 + 1 from rfl]
      simp only [hwl]
      rw [show e + 1 + 1 = e + 2 from rfl]
      exact qbExit_nr_unary op t x qs qn e
  case hB =>
    intro op l r ihl ihr h
    rw [supportedNode_binary] at h
    simp only [Bool.and_eq_true] at h
    refine ⟨?_, ?_⟩
    · intro qs qn
      by_cases hand : (op == "and" || op == "&&") = true
      · -- root conjunction connective
        have hn : (!isUnaryNot (.BinaryNode op l r) && !isBinaryAnd (.BinaryNode op l r) &&
            !isBinaryOr (.BinaryNode op l r)) = false := by
          simp [isUnaryNot, isBinaryAnd, hand]
        obtain ⟨q2, hwl, hout⟩ := ((ihl h.1).1) qs (isUnaryNot (.BinaryNode op l r) :: qn)
        rcases hout with ⟨e2, he2⟩ | ⟨fsl, qn2, hnel, hfrl, hq2⟩
        · obtain ⟨q3, hwr, he3, hs3⟩ := qbWalk_latch_all.1 r q2 e2 he2
          refine ⟨q3, ?_, Or.inl ⟨e2, he3⟩⟩
          show (match qbWalk l (qbEnter (.BinaryNode op l r) ⟨qs, qn, 0, none⟩) with
            | some q2 =>
              match qbWalk r q2 with
              | some q3 => qbExit (.BinaryNode op l r) q3
              | none => none
            | none => none) = some q3
          rw [qbEnter_zero_conn _ _ _ hn]
          simp only [hwl, hwr]
          exact qbExit_latch _ _ (by rw [he3]; rfl)
        · subst hq2
          obtain ⟨q3, hwr, hout3⟩ := ((ihr h.2).1) (fsl ++ qs) qn2
          rcases hout3 with ⟨e3, he3⟩ | ⟨fsr, qn3, hner, hfrr, hq3⟩
          · refine ⟨q3, ?_, Or.inl ⟨e3, he3⟩⟩
            show (match qbWalk l (qbEnter (.BinaryNode op l r) ⟨qs, qn, 0, none⟩) with
              | some q2 =>
                match qbWalk r q2 with
                | some q3 => qbExit (.BinaryNode op l r) q3
                | none => none
              | none => none) = some q3
            rw [qbEnter_zero_conn _ _ _ hn]
            simp only [hwl, hwr]
            exact qbExit_latch _ _ (by rw [he3]; rfl)
          · subst hq3
            obtain ⟨a, b, T, hab, hma, hmb, hmT⟩ := two_of_append fsr fsl hner hnel
            have hstack : fsr ++ (fsl ++ qs) = a :: b :: (T ++ qs) := by
              rw [← List.append_assoc, hab]
              rfl
            have hfrall := Frags_append fsr fsl hfrr hfrl
            obtain ⟨f, nt2, hf, hex⟩ := qbExit_root_and op l r a b (T ++ qs) qn3 hand
              (hfrall a hma) (hfrall b hmb)
            refine ⟨⟨f :: (T ++ qs), nt2, 0, none⟩, ?_,
              Or.inr ⟨f :: T, nt2, by simp, Frags_cons f T hf
                (fun x hx => hfrall x (hmT x hx)), rfl⟩⟩
            show (match qbWalk l (qbEnter (.BinaryNode op l r) ⟨qs, qn, 0, none⟩) with
              | some q2 =>
                match qbWalk r q2 with
                | some q3 => qbExit (.BinaryNode op l r) q3
                | none => none
              | none => none) = _
            rw [qbEnter_zero_conn _ _ _ hn]
            simp only [hwl, hwr]
            rw [hstack]
            exact hex
      · by_cases hor : (op == "or" || op == "||") = true
        · -- root disjunction connective
          have handf : (op == "and" || op == "&&") = false := by simpa using hand
          have hn : (!isUnaryNot (.BinaryNode op l r) && !isBinaryAnd (.BinaryNode op l r) &&
              !isBinaryOr (.BinaryNode op l r)) = false := by
            simp [isUnaryNot, isBinaryAnd, isBinaryOr, hor]
          obtain ⟨q2, hwl, hout⟩ := ((ihl h.1).1) qs (isUnaryNot (.BinaryNode op l r) :: qn)
          rcases hout with ⟨e2, he2⟩ | ⟨fsl, qn2, hnel, hfrl, hq2⟩
          · obtain ⟨q3, hwr, he3, hs3⟩ := qbWalk_latch_all.1 r q2 e2 he2
            refine ⟨q3, ?_, Or.inl ⟨e2, he3⟩⟩
            show (match qbWalk l (qbEnter (.BinaryNode op l r) ⟨qs, qn, 0, none⟩) with
              | some q2 =>
                match qbWalk r q2 with
                | some q3 => qbExit (.BinaryNode op l r) q3
                | none => none
              | none => none) = some q3
            rw [qbEnter_zero_conn _ _ _ hn]
            simp only [hwl, hwr]
            exact qbExit_latch _ _ (by rw [he3]; rfl)
          · subst hq2
            obtain ⟨q3, hwr, hout3⟩ := ((ihr h.2).1) (fsl ++ qs) qn2
            rcases hout3 with ⟨e3, he3⟩ | ⟨fsr, qn3, hner, hfrr, hq3⟩
            · refine ⟨q3, ?_, Or.inl ⟨e3, he3⟩⟩
              show (match qbWalk l (qbEnter (.BinaryNode op l r) ⟨qs, qn, 0, none⟩) with
                | some q2 =>
                  match qbWalk r q2 with
                  | some q3 => qbExit (.BinaryNode op l r) q3
                  | none => none
                | none => none) = some q3
              rw [qbEnter_zero_conn _ _ _ hn]
              simp only [hwl, hwr]
              exact qbExit_latch _ _ (by rw [he3]; rfl)
            · subst hq3
              obtain ⟨a, b, T, hab, hma, hmb, hmT⟩ := two_of_append fsr fsl hner hnel
              have hstack : fsr ++ (fsl ++ qs) = a :: b :: (T ++ qs) := by
                rw [← List.append_assoc, hab]
                rfl
              have hfrall := Frags_append fsr fsl hfrr hfrl
              obtain ⟨fs2, nt2, hne2, hfr2, hex⟩ := qbExit_root_or op l r a b (T ++ qs)
                qn3 handf hor (hfrall a hma) (hfrall b hmb)
              refine ⟨⟨fs2 ++ (T ++ qs), nt2, 0, none⟩, ?_,
                Or.inr ⟨fs2 ++ T, nt2, by simp [hne2], Frags_append fs2 T hfr2
                  (fun x hx => hfrall x (hmT x hx)), by rw [List.append_assoc]⟩⟩
              show (match qbWalk l (qbEnter (.BinaryNode op l r) ⟨qs, qn, 0, none⟩) with
                | some q2 =>
                  match qbWalk r q2 with
                  | some q3 => qbExit (.BinaryNode op l r) q3
                  | none => none
                | none => none) = _
              rw [qbEnter_zero_conn _ _ _ hn]
              simp only [hwl, hwr]
              rw [hstack]
              exact hex
        · -- root non-connective binary operator
          have handf : (op == "and" || op == "&&") = false := by simpa using hand
          have horf : (op == "or" || op == "||") = false := by simpa using hor
          have hn : (!isUnaryNot (.BinaryNode op l r) && !isBinaryAnd (.BinaryNode op l r) &&
              !isBinaryOr (.BinaryNode op l r)) = true := by
            simp [isUnaryNot, isBinaryAnd, isBinaryOr, handf, horf]
          obtain ⟨fl, hfl, hwl⟩ := ((ihl h.1).2) qs qn 0
          obtain ⟨fr, hfr, hwr⟩ := ((ihr h.2).2) (fl :: qs) qn 0
          obtain ⟨f, nt2, hf, hex⟩ := qbExit_r1_binary op l r fr fl qs qn handf horf hfr hfl
          refine ⟨⟨f :: qs, nt2, 0, none⟩, ?_,
            Or.inr ⟨[f], nt2, by simp, Frags_single f hf, rfl⟩⟩
          show (match qbWalk l (qbEnter (.BinaryNode op l r) ⟨qs, qn, 0, none⟩) with
            | some q2 =>
              match qbWalk r q2 with
              | some q3 => qbExit (.BinaryNode op l r) q3
              | none => none
            | none => none) = _
          rw [qbEnter_zero_other _ _ _ hn]
          simp only [hwl, hwr]
          exact hex
    · intro qs qn e
      obtain ⟨fl, hfl, hwl⟩ := ((ihl h.1).2) qs qn (e + 1)
      obtain ⟨fr, hfr, hwr⟩ := ((ihr h.2).2) (fl :: qs) qn (e + 1)
      obtain ⟨f, hf, hex⟩ := qbExit_nr_binary op l r fr fl qs qn e hfl hfr
      refine ⟨f, hf, ?_⟩
      show (match qbWalk l (qbEnter (.BinaryNode op l r) ⟨qs, qn, e + 1, none⟩) with
        | some q2 =>
          match qbWalk r q2 with
          | some q3 => qbExit (.BinaryNode op l r) q3
          | none => none
        | none => none) = _
      rw [qbEnter_pos]
      rw [show e + 2 = e + 1 + 1 from rfl]
      simp only [hwl, hwr]
      rw [show e + 1 + 1 = e + 2 from rfl]
      exact hex
  case hM =>
    intro l r ihl ihr h
    rw [supportedNode_matches] at h
    simp only [Bool.and_eq_true] at h
    refine ⟨?_, ?_⟩
    · intro qs qn
      obtain ⟨fl, hfl, hwl⟩ := ((ihl h.1).2) qs qn 0
      obtain ⟨fr, hfr, hwr⟩ := ((ihr h.2).2) (fl :: qs) qn 0
      obtain ⟨f, nt2, hf, hex⟩ := qbExit_r1_matches l r fr fl qs qn
      refine ⟨⟨f :: qs, nt2, 0, none⟩, ?_,
        Or.inr ⟨[f], nt2, by simp, Frags_single f hf, rfl⟩⟩
      show (match qbWalk l (qbEnter (.MatchesNode l r) ⟨qs, qn, 0, none⟩) with
        | some q2 =>
          match qbWalk r q2 with
          | some q3 => qbExit (.MatchesNode l r) q3
          | none => none
        | none => none) = _
      rw [qbEnter_zero_other (.MatchesNode l r) qs qn rfl]
      simp only [hwl, hwr]
      exact hex
    · intro qs qn e
      obtain ⟨fl, hfl, hwl⟩ := ((ihl h.1).2) qs qn (e + 1)
      obtain ⟨fr, hfr, hwr⟩ := ((ihr h.2).2) (fl :: qs) qn (e + 1)
      refine ⟨fl ++ "~" ++ fr, data_append_ne_left _ _
        (data_append_ne_left _ _ hfl), ?_⟩
      show (match qbWalk l (qbEnter (.MatchesNode l r) ⟨qs, qn, e + 1, none⟩) with
        | some q2 =>
          match qbWalk r q2 with
          | some q3 => qbExit (.MatchesNode l r) q3
          | none => none
        | none => none) = _
      rw [qbEnter_pos]
      rw [show e + 2 = e + 1 + 1 from rfl]
      simp only [hwl, hwr]
      rw [show e + 1 + 1 = e + 2 from rfl]
      exact qbExit_nr_matches l r fr fl qs qn e
  case hA =>
    intro ns ih h
    exact absurd h (by rw [supportedNode_array]; decide)
  case hF =>
    intro nm args ihargs h
    rw [supportedNode_function] at h
    refine ⟨?_, ?_⟩
    · intro qs qn
      obtain ⟨fs, hlen, hfrs, hwargs⟩ := ihargs h qs qn 0
      obtain ⟨f, nt2, hf, hex⟩ := qbExit_r1_function nm args fs qs qn hlen.symm
      refine ⟨⟨f :: qs, nt2, 0, none⟩, ?_,
        Or.inr ⟨[f], nt2, by simp, Frags_single f hf, rfl⟩⟩
      show (match qbWalkList args (qbEnter (.FunctionNode nm args) ⟨qs, qn, 0, none⟩) with
        | some q2 => qbExit (.FunctionNode nm args) q2
        | none => none) = _
      rw [qbEnter_zero_other (.FunctionNode nm args) qs qn rfl]
      simp only [hwargs]
      exact hex
    · intro qs qn e
      obtain ⟨fs, hlen, hfrs, hwargs⟩ := ihargs h qs qn (e + 1)
      refine ⟨nm ++ "(" ++ String.join fs ++ ")",
        data_append_ne_right _ _ (by decide), ?_⟩
      show (match qbWalkList args (qbEnter (.FunctionNode nm args) ⟨qs, qn, e + 1, none⟩) with
        | some q2 => qbExit (.FunctionNode nm args) q2
        | none => none) = _
      rw [qbEnter_pos]
      rw [show e + 2 = e + 1 + 1 from rfl]
      simp only [hwargs]
      rw [show e + 1 + 1 = e + 2 from rfl]
      exact qbExit_nr_function nm args fs qs qn e hlen.symm
  case hC =>
    intro c t e2 ihc iht ihe h
    rw [supportedNode_conditional] at h
    simp only [Bool.and_eq_true] at h
    refine ⟨?_, ?_⟩
    · intro qs qn
      obtain ⟨fc, hfc, hwc⟩ := ((ihc h.1.1).2) qs qn 0
      obtain ⟨ft, hft, hwt⟩ := ((iht h.1.2).2) (fc :: qs) qn 0
      obtain ⟨fe, hfe, hwe⟩ := ((ihe h.2).2) (ft :: fc :: qs) qn 0
      obtain ⟨f, nt2, hf, hex⟩ := qbExit_r1_cond c t e2 fe ft fc qs qn
      refine ⟨⟨f :: qs, nt2, 0, none⟩, ?_,
        Or.inr ⟨[f], nt2, by simp, Frags_single f hf, rfl⟩⟩
      show (match qbWalk c (qbEnter (.ConditionalNode c t e2) ⟨qs, qn, 0, none⟩) with
        | some q2 =>
          match qbWalk t q2 with
          | some q3 =>
            match qbWalk e2 q3 with
            | some q4 => qbExit (.ConditionalNode c t e2) q4
            | none => none
          | none => none
        | none => none) = _
      rw [qbEnter_zero_other (.ConditionalNode c t e2) qs qn rfl]
      simp only [hwc, hwt, hwe]
      exact hex
    · intro qs qn e
      obtain ⟨fc, hfc, hwc⟩ := ((ihc h.1.1).2) qs qn (e + 1)
      obtain ⟨ft, hft, hwt⟩ := ((iht h.1.2).2) (fc :: qs) qn (e + 1)
      obtain ⟨fe, hfe, hwe⟩ := ((ihe h.2).2) (ft :: fc :: qs) qn (e + 1)
      refine ⟨fc ++ "?" ++ ft ++ ":" ++ fe, data_append_ne_left _ _
        (data_append_ne_right _ _ (by decide)), ?_⟩
      show (match qbWalk c (qbEnter (.ConditionalNode c t e2) ⟨qs, qn, e + 1, none⟩) with
        | some q2 =>
          match qbWalk t q2 with
          | some q3 =>
            match qbWalk e2 q3 with
            | some q4 => qbExit (.ConditionalNode c t e2) q4
            | none => none
          | none => none
        | none => none) = _
      rw [qbEnter_pos]
      rw [show e + 2 = e + 1 + 1 from rfl]
      simp only [hwc, hwt, hwe]
      rw [show e + 1 + 1 = e + 2 from rfl]
      exact qbExit_nr_cond c t e2 fe ft fc qs qn e
  case hnil =>
    intro h qs qn e
    exact ⟨[], rfl, Frags_nil, rfl⟩
  case hcons =>
    intro n ns ihn ihns h
    rw [supportedList_cons] at h
    simp only [Bool.and_eq_true] at h
    intro qs qn e
    obtain ⟨f, hf, hwn⟩ := ((ihn h.1).2) qs qn e
    obtain ⟨fs, hlen, hfrs, hwns⟩ := ihns h.2 (f :: qs) qn e
    refine ⟨fs ++ [f], ?_, Frags_append fs [f] hfrs (Frags_single f hf), ?_⟩
    · simp [hlen]
    · show (match qbWalk n ⟨qs, qn, e + 1, none⟩ with
        | some q2 => qbWalkList ns q2
        | none => none) = _
      simp only [hwn]
      rw [hwns]
      rw [List.append_assoc]
      rfl

/-- C10: for every input AST built from the supported grammar (nonempty
identifiers, integer/float/string/boolean literals, unary/binary/matches/
function-call/conditional nodes), after the rewrite passes the query
builder's walk is total: `buildCriteria` always returns `some` result — a
criteria list or an error — never the `none` that models an out-of-bounds
access (an empty-stack pop, `isWrapped` on an empty string, or an unguarded
negation-stack pop). -/
theorem C10_walk_totality (t : Node) (h : supportedNode t = true) :
    ∃ r : Except String (List String), buildCriteria t = some r := by
  have h1 : expandInArray t = t := expandInArray_id_supported.1 t h
  have h2 : supportedNode (expandInRange (expandInArray t)) = true := by
    show supportedNode (walkPost expandInRangeExit (expandInArray t)) = true
    rw [h1]
    exact (walkPost_supported expandInRangeExit expandInRangeExit_supported).1 t h
  have h3 : supportedNode (distributeAndFoldNot (expandInRange (expandInArray t))) = true :=
    foldNotF_supported _ _ h2
  have h4 : supportedNode (toDNF (distributeAndFoldNot (expandInRange (expandInArray t)))) =
      true := toDNFLoop_supported 1001 _ h3
  obtain ⟨q', hw, hout⟩ := ((qbWalk_total.1 _ h4).1) [] []
  have hw2 : qbWalk (toDNF (distributeAndFoldNot (expandInRange (expandInArray t))))
      initialQB = some q' := hw
  rcases hout with ⟨e, he⟩ | ⟨fs, qn2, hne, hfr, hq⟩
  · refine ⟨.error e, ?_⟩
    unfold buildCriteria
    simp only [hw2, he]
  · subst hq
    have hrev : Frags (fs ++ ([] : List String)).reverse := by
      intro x hx
      exact hfr x (by simpa using hx)
    obtain ⟨out, hout2⟩ := wrapCriteria_total _ hrev
    refine ⟨.ok out, ?_⟩
    unfold buildCriteria
    simp only [hw2, hout2]

/-- C10 witness: the filter `x and y` is in the supported grammar, and its
criteria build succeeds without any out-of-bounds access. -/
theorem C10_walk_totality_witness :
    supportedNode (.BinaryNode "and" (.IdentifierNode "x") (.IdentifierNode "y")) = true ∧
    ∃ r : Except String (List String),
      buildCriteria (.BinaryNode "and" (.IdentifierNode "x") (.IdentifierNode "y")) =
        some r :=
  ⟨rfl, C10_walk_totality (.BinaryNode "and" (.IdentifierNode "x") (.IdentifierNode "y")) rfl⟩
